import Mathlib

/-! # ChipletTrace: per-tile operation traces and the rendezvous deadlock check

A shallow embedding of `src/include/chiplet_trace.h` and
`src/src/chiplet_trace.cpp`.

Conventions of the embedding.
* `int` fields (`peer_id`, `transfer_id`) are unbounded integers. The transfer-id
  counter starts at 0 and would need 2^31 allocations to leave the range of
  `int` (signed overflow is undefined in C++), and `static_cast<int>(size)` is
  exact for fewer than 2^31 tiles.
* `mlen_t`, `cidx_t`, `len_t`, `vol_t` are typedefs of `util.h`, which is not
  part of the sources at hand; they are natural numbers here.
* `std::vector<std::deque<Operation>>` is a list of lists, front of a deque =
  head of the list.
* Code that can fail or loop returns `Option`: `none` stands for "no value was
  returned" (division by zero, fuel exhausted).
-/

namespace ChipletTrace

/-! ## Data model (`chiplet_trace.h`) -/

/-- Operation types for a chiplet (`enum class OpType`). -/
inductive OpType where
  | RECV
  | COMPUTE
  | SEND
  deriving DecidableEq, Repr

/-- Single operation in a chiplet's operation list (`struct Operation`). -/
structure Operation where
  type : OpType
  peer_id : Int
  layer_name : String
  data_size : Nat
  transfer_id : Int
  deriving DecidableEq, Repr

/-- The method `Operation::matches`: a SEND matches a RECV with the same transfer id. -/
def Operation.matches (self other : Operation) : Bool :=
  if self.type = OpType.SEND ∧ other.type = OpType.RECV then
    decide (self.transfer_id = other.transfer_id)
  else if self.type = OpType.RECV ∧ other.type = OpType.SEND then
    decide (self.transfer_id = other.transfer_id)
  else
    false

/-- Computation task description (`struct ComputationTask`). -/
structure ComputationTask where
  layer_name : String
  layer_type : String
  ifmap_h : Nat
  ifmap_w : Nat
  filter_h : Nat
  filter_w : Nat
  channels : Nat
  num_filters : Nat
  stride_h : Nat
  stride_w : Nat
  extra_info : String
  batch_from : Nat
  batch_to : Nat
  c_from : Nat
  c_to : Nat
  h_from : Nat
  h_to : Nat
  w_from : Nat
  w_to : Nat
  deriving DecidableEq, Repr

/-- Single chiplet's trace (`struct SingleChipletTrace`). -/
structure SingleChipletTrace where
  chiplet_id : Int
  pos_x : Nat
  pos_y : Nat
  computations : List ComputationTask
  operations : List Operation
  deriving DecidableEq, Repr

/-- Complete trace for all chiplets (`struct FullTrace`). -/
structure FullTrace where
  mesh_x : Nat
  mesh_y : Nat
  network_name : String
  total_batch : Nat
  chiplet_traces : List SingleChipletTrace
  deriving DecidableEq, Repr

/-! ## The deadlock verifier (`FullTrace::verify_deadlock_free`) -/

/-- The local `chip_ops`: one queue copy per tile. -/
abbrev Queues := List (List Operation)

/-- The head `chip_ops[i].front()`, `none` when tile `i` has no operation left
(or `i` is not a tile). -/
def front (chip_ops : Queues) (i : Nat) : Option Operation :=
  (chip_ops.getD i []).head?

/-- The call `chip_ops[i].pop_front()`. -/
def pop_front (chip_ops : Queues) (i : Nat) : Queues :=
  List.modify List.tail i chip_ops

/-- The first `for` loop of the `while` body: are all queues empty? -/
def all_empty (chip_ops : Queues) : Bool :=
  chip_ops.all List.isEmpty

/-- One pass through the body of the scanning `for` loop at tile `i`.
`some q` means `matched = true; break` with the queues now `q`;
`none` means the loop goes on to tile `i + 1`. -/
def scan_tile (chip_ops : Queues) (i : Nat) : Option Queues :=
  match front chip_ops i with
  | none => none
  | some op =>
    if op.type = OpType.COMPUTE then
      some (pop_front chip_ops i)
    else if op.peer_id < 0 then
      some (pop_front chip_ops i)
    else if op.peer_id < (chip_ops.length : Int) then
      match front chip_ops op.peer_id.toNat with
      | none => none
      | some peer_op =>
        if op.matches peer_op then
          some (pop_front (pop_front chip_ops i) op.peer_id.toNat)
        else
          none
    else
      none

/-- The scanning `for` loop over the tile indices still to visit. -/
def scan_loop (chip_ops : Queues) : List Nat → Option Queues
  | [] => none
  | i :: rest =>
    match scan_tile chip_ops i with
    | some q => some q
    | none => scan_loop chip_ops rest

/-- The whole scan `for (i = 0; i < chip_ops.size(); i++)`: `none` is
`matched == false`. -/
def scan (chip_ops : Queues) : Option Queues :=
  scan_loop chip_ops (List.range chip_ops.length)

/-- The `while (true)` loop, with a bound on the number of iterations.
The result is the returned flag together with the queues at the moment of
return; `none` means the bound was reached before the loop returned. -/
def verify_loop : Nat → Queues → Option (Bool × Queues)
  | 0, _ => none
  | fuel + 1, chip_ops =>
    if all_empty chip_ops then
      some (true, chip_ops)
    else
      match scan chip_ops with
      | none => some (false, chip_ops)
      | some q => verify_loop fuel q

/-- Total number of operations remaining across all queue copies. -/
def total_ops (chip_ops : Queues) : Nat :=
  (chip_ops.map List.length).sum

/-- The copy made at the start of `verify_deadlock_free`. -/
def FullTrace.chip_ops (t : FullTrace) : Queues :=
  t.chiplet_traces.map SingleChipletTrace.operations

/-- The verifier run: flag and final queues (the queues the diagnostic is printed from). -/
def FullTrace.verify_run (t : FullTrace) : Option (Bool × Queues) :=
  verify_loop (total_ops t.chip_ops + 1) t.chip_ops

/-- The function `FullTrace::verify_deadlock_free`. -/
def FullTrace.verify_deadlock_free (t : FullTrace) : Option Bool :=
  t.verify_run.map Prod.fst

/-- A trace that carries just the given operation queues. -/
def trace_of_queues (qs : Queues) : FullTrace :=
  { mesh_x := qs.length, mesh_y := 1, network_name := "DNN", total_batch := 1,
    chiplet_traces := qs.enum.map fun p =>
      { chiplet_id := (p.1 : Int), pos_x := p.1, pos_y := 0, computations := [],
        operations := p.2 } }

/-! ## The placement tree and its collaborators

`schnode.h`, `cluster.h`, `layer.h`, `network.h`, `bitset.h` and `util.h` are
not part of the sources at hand. What the generator reads from them is
gathered here: plain data for the tree, and a record `Env` of the functions
whose bodies are absent. Every theorem about the generator holds for all
values of that record. -/

/-- Mesh position (`pos_t`). -/
structure pos_t where
  x : Nat
  y : Nat
  deriving DecidableEq, Repr

/-- One dimension of a feature-map sub-range: `[from, to)`. -/
structure dim_range where
  from_ : Nat
  to_ : Nat
  deriving DecidableEq, Repr

/-- A batch/channel/height/width sub-range (`fmap_range`). -/
structure fmap_range where
  c : dim_range
  b : dim_range
  h : dim_range
  w : dim_range
  deriving DecidableEq, Repr

/-- A fixed-width bit set (`Bitset`, a `std::bitset`): bit `i` is entry `i`. -/
abbrev Bitset := List Bool

/-- The method `Bitset::size`. -/
def Bitset.size (s : Bitset) : Nat := s.length

/-- The method `Bitset::contains` (`std::bitset::test`). -/
def Bitset.contains (s : Bitset) (bit : Nat) : Bool := s.getD bit false

/-- The method `Bitset::count`: number of set bits. -/
def Bitset.count (s : Bitset) : Nat := s.countP (fun b => b)

/-- Modelled from the spec: the loop header `FOR_BITSET(var, set)` of `bitset.h`,
which is not part of the sources at hand. The predecessor-id set is iterated
in ascending order over the indices whose bit is set. -/
def Bitset.elems (s : Bitset) : List Nat :=
  (List.range s.size).filter (fun i => s.contains i)

/-- Modelled from the spec: the closed dispatch over the layer kind, which the
code performs with `REF_IS_INSTANCE` on classes of `layer.h` (not part of the
sources at hand), most specific class first. -/
inductive LayerKind where
  | groupconv
  | fc
  | conv
  | pool
  | eltwise
  | ptp
  | transpose
  | other
  deriving DecidableEq, Repr

/-- The fields read from the `get_workload()` results. -/
structure Workload where
  H : Nat
  W : Nat
  R : Nat
  S : Nat
  C : Nat
  K : Nat
  sH : Nat
  sW : Nat
  G : Nat
  GC : Nat
  GK : Nat
  N : Nat
  deriving DecidableEq, Repr

/-- A feature-map shape (`tot_ifmap_shape()`, `ofmap_shape()`). -/
structure fmap_shape where
  c : Nat
  h : Nat
  w : Nat
  deriving DecidableEq, Repr

/-- What the generator reads from a `Layer`. -/
structure Layer where
  kind : LayerKind
  wl : Workload
  tot_ifmap_shape : fmap_shape
  ofmap_shape : fmap_shape
  deriving DecidableEq, Repr

/-- A network node (`Node`): name, layer and predecessor set (`getPrevs()`). -/
structure Node where
  name : String
  layer : Layer
  prevs : Bitset
  deriving DecidableEq, Repr

/-- A leaf of the placement tree (`LNode`): the layer (`getLayer()`), the
output layout (`get_place_sch().getOfmL()`, iterated in order) and the set of
direct predecessors (`get_dirp_set()`). -/
structure LNode where
  layer : Node
  ofm_layout : List (fmap_range × pos_t)
  dirp_set : Bitset
  deriving DecidableEq, Repr

/-- The placement tree (`SchNode`): a null pointer, a leaf (`NodeType::L`) or a
grouping node (`Cut`) with its batch-group count and children. -/
inductive SchNode where
  | null : SchNode
  | L (lnode : LNode) : SchNode
  | Cut (num_bgrp : Nat) (children : List SchNode) : SchNode

/-- The functions and globals the generator calls whose definitions are not
part of the sources at hand. -/
structure Env where
  /-- The function `Cluster::get_xyid`. -/
  get_xyid : pos_t → Nat
  /-- The method `fmap_range::is_empty`. -/
  is_empty : fmap_range → Bool
  /-- The method `fmap_range::size`. -/
  size : fmap_range → Nat
  /-- The call `network->getNode(id).name()`. -/
  node_name : Nat → String
  /-- The call `root_->get_lnode_by_id(id)`, `none` for a null result. -/
  get_lnode_by_id : Nat → Option LNode
  /-- The global `SchNode::tot_batch`. -/
  tot_batch : Nat

/-! ## The trace generator (`TraceGenerator`) -/

/-- The map `xyid_to_idx`, most recent assignment first. -/
abbrev XyMap := List (Nat × Nat)

/-- The lookup `xyid_to_idx.find(xyid)`, `none` for `end()`. -/
def XyMap.find (m : XyMap) (xyid : Nat) : Option Nat :=
  match m with
  | [] => none
  | (k, v) :: rest => if k = xyid then some v else XyMap.find rest xyid

/-- The assignment `xyid_to_idx[xyid] = idx`. -/
def XyMap.assign (m : XyMap) (xyid idx : Nat) : XyMap :=
  (xyid, idx) :: m

/-- A value-initialised `SingleChipletTrace`, as `resize` creates it. -/
def SingleChipletTrace.blank : SingleChipletTrace :=
  { chiplet_id := 0, pos_x := 0, pos_y := 0, computations := [], operations := [] }

/-- The body of the inner mesh loop of `generate` at `(x, y)`. -/
def mesh_body (env : Env) (xlen y : Nat) (acc : List SingleChipletTrace × XyMap) (x : Nat) :
    List SingleChipletTrace × XyMap :=
  let real_chip_idx := y * xlen + x
  let xyid := env.get_xyid { x := x, y := y }
  (List.modify (fun ct => { ct with chiplet_id := (real_chip_idx : Int), pos_x := x, pos_y := y })
      real_chip_idx acc.1,
   acc.2.assign xyid real_chip_idx)

/-- The two mesh loops of `generate`, started from the resized trace vector. -/
def mesh_init (env : Env) (xlen ylen : Nat) : List SingleChipletTrace × XyMap :=
  (List.range ylen).foldl
    (fun acc y => (List.range xlen).foldl (mesh_body env xlen y) acc)
    (List.replicate (xlen * ylen) SingleChipletTrace.blank, [])

/-- The statement `traces[idx].computations.push_back(task)`. -/
def push_computation (traces : List SingleChipletTrace) (idx : Nat) (task : ComputationTask) :
    List SingleChipletTrace :=
  List.modify (fun ct => { ct with computations := ct.computations ++ [task] }) idx traces

/-- The statement `traces[idx].operations.push_back(op)`. -/
def push_operation (traces : List SingleChipletTrace) (idx : Nat) (op : Operation) :
    List SingleChipletTrace :=
  List.modify (fun ct => { ct with operations := ct.operations ++ [op] }) idx traces

/-- The layer-kind dispatch of `collect_computations`: the task before the
partition fields are filled in. -/
def base_task (layer_node : Node) : ComputationTask :=
  let l := layer_node.layer
  let wl := l.wl
  let blank : ComputationTask :=
    { layer_name := layer_node.name, layer_type := "", ifmap_h := 0, ifmap_w := 0,
      filter_h := 0, filter_w := 0, channels := 0, num_filters := 0, stride_h := 0,
      stride_w := 0, extra_info := "", batch_from := 0, batch_to := 0, c_from := 0,
      c_to := 0, h_from := 0, h_to := 0, w_from := 0, w_to := 0 }
  match l.kind with
  | LayerKind.groupconv =>
    { blank with layer_type := "groupconv", ifmap_h := wl.H, ifmap_w := wl.W, filter_h := wl.R,
                 filter_w := wl.S, channels := wl.C, num_filters := wl.K, stride_h := wl.sH,
                 stride_w := wl.sW,
                 extra_info := "G=" ++ toString wl.G ++ ",GC=" ++ toString wl.GC ++ ",GK="
                   ++ toString wl.GK }
  | LayerKind.fc =>
    { blank with layer_type := "fc", ifmap_h := l.tot_ifmap_shape.h, ifmap_w := l.tot_ifmap_shape.w,
                 filter_h := l.tot_ifmap_shape.h, filter_w := l.tot_ifmap_shape.w,
                 channels := l.tot_ifmap_shape.c, num_filters := l.ofmap_shape.c, stride_h := 1,
                 stride_w := 1, extra_info := "R=" ++ toString wl.R ++ ",S=" ++ toString wl.S }
  | LayerKind.conv =>
    { blank with layer_type := "conv", ifmap_h := wl.H, ifmap_w := wl.W, filter_h := wl.R,
                 filter_w := wl.S, channels := wl.C, num_filters := wl.K, stride_h := wl.sH,
                 stride_w := wl.sW, extra_info := "" }
  | LayerKind.pool =>
    { blank with layer_type := "pool", ifmap_h := wl.H, ifmap_w := wl.W, filter_h := wl.R,
                 filter_w := wl.S, channels := wl.K, num_filters := wl.K, stride_h := wl.sH,
                 stride_w := wl.sW,
                 extra_info := "pool=" ++ toString wl.R ++ "x" ++ toString wl.S }
  | LayerKind.eltwise =>
    { blank with layer_type := "eltwise", ifmap_h := l.tot_ifmap_shape.h,
                 ifmap_w := l.tot_ifmap_shape.w, filter_h := 0, filter_w := 0,
                 channels := l.tot_ifmap_shape.c, num_filters := l.ofmap_shape.c, stride_h := 1,
                 stride_w := 1, extra_info := "N=" ++ toString wl.N }
  | LayerKind.ptp =>
    { blank with layer_type := "ptp", ifmap_h := l.tot_ifmap_shape.h,
                 ifmap_w := l.tot_ifmap_shape.w, filter_h := 0, filter_w := 0,
                 channels := l.tot_ifmap_shape.c, num_filters := l.ofmap_shape.c, stride_h := 1,
                 stride_w := 1, extra_info := "" }
  | LayerKind.transpose =>
    { blank with layer_type := "transpose", ifmap_h := l.tot_ifmap_shape.h,
                 ifmap_w := l.tot_ifmap_shape.w, filter_h := 0, filter_w := 0,
                 channels := l.tot_ifmap_shape.c, num_filters := l.ofmap_shape.c, stride_h := 1,
                 stride_w := 1, extra_info := "" }
  | LayerKind.other =>
    { blank with layer_type := "other", ifmap_h := l.tot_ifmap_shape.h,
                 ifmap_w := l.tot_ifmap_shape.w, filter_h := 0, filter_w := 0,
                 channels := l.tot_ifmap_shape.c, num_filters := l.ofmap_shape.c, stride_h := 1,
                 stride_w := 1, extra_info := "" }

/-- The body of the layout loop of `collect_computations` at a leaf. -/
def computation_body (env : Env) (xyid_to_idx : XyMap) (task : ComputationTask)
    (batch_offset : Nat) (traces : List SingleChipletTrace) (entry : fmap_range × pos_t) :
    List SingleChipletTrace :=
  let range := entry.1
  let pos := entry.2
  if env.is_empty range then
    traces
  else
    match xyid_to_idx.find (env.get_xyid pos) with
    | none => traces
    | some trace_idx =>
      push_computation traces trace_idx
        { task with batch_from := range.b.from_ + batch_offset,
                    batch_to := range.b.to_ + batch_offset,
                    c_from := range.c.from_, c_to := range.c.to_,
                    h_from := range.h.from_, h_to := range.h.to_,
                    w_from := range.w.from_, w_to := range.w.to_ }

mutual
/-- The method `TraceGenerator::collect_computations`. A batch-group count of
zero makes `tot_batch / bgrp` a division by zero: no value is returned. -/
def collect_computations (env : Env) (xyid_to_idx : XyMap) :
    SchNode → Nat → List SingleChipletTrace → Option (List SingleChipletTrace)
  | SchNode.null, _, traces => some traces
  | SchNode.L lnode, batch_offset, traces =>
    some (lnode.ofm_layout.foldl
      (computation_body env xyid_to_idx (base_task lnode.layer) batch_offset) traces)
  | SchNode.Cut bgrp children, batch_offset, traces =>
    if bgrp = 0 then
      none
    else
      (List.range bgrp).foldlM
        (fun acc b =>
          collect_computations_children env xyid_to_idx children
            (batch_offset + b * (env.tot_batch / bgrp)) acc)
        traces
/-- The loop `for (auto child : cut->getChildren())` of `collect_computations`. -/
def collect_computations_children (env : Env) (xyid_to_idx : XyMap) :
    List SchNode → Nat → List SingleChipletTrace → Option (List SingleChipletTrace)
  | [], _, traces => some traces
  | child :: rest, batch_offset, traces =>
    match collect_computations env xyid_to_idx child batch_offset traces with
    | none => none
    | some acc => collect_computations_children env xyid_to_idx rest batch_offset acc
end

/-- The mutable state of pass 2: the trace vector and `next_transfer_id_`. -/
structure GenState where
  traces : List SingleChipletTrace
  next_transfer_id_ : Int

/-- The block at a direct predecessor's sub-range when a transfer is needed:
allocate the id, push the RECV at the destination and the SEND at the source. -/
def emit_transfer (to_idx from_idx : Nat) (recv_name send_name : String) (transfer_size : Nat)
    (st : GenState) : GenState :=
  let tid := st.next_transfer_id_
  let recv_op : Operation :=
    { type := OpType.RECV, peer_id := (from_idx : Int), layer_name := recv_name,
      data_size := transfer_size, transfer_id := tid }
  let send_op : Operation :=
    { type := OpType.SEND, peer_id := (to_idx : Int), layer_name := send_name,
      data_size := transfer_size, transfer_id := tid }
  { traces := push_operation (push_operation st.traces to_idx recv_op) from_idx send_op,
    next_transfer_id_ := st.next_transfer_id_ + 1 }

/-- The two DRAM blocks: a RECV from external memory with a freshly allocated id. -/
def emit_dram (to_idx : Nat) (name : String) (ifmap_size : Nat) (st : GenState) : GenState :=
  let recv_op : Operation :=
    { type := OpType.RECV, peer_id := -1, layer_name := name, data_size := ifmap_size,
      transfer_id := st.next_transfer_id_ }
  { traces := push_operation st.traces to_idx recv_op,
    next_transfer_id_ := st.next_transfer_id_ + 1 }

/-- The block "Add COMPUTE operation". -/
def emit_compute (to_idx : Nat) (name : String) (st : GenState) : GenState :=
  let comp_op : Operation :=
    { type := OpType.COMPUTE, peer_id := -2, layer_name := name, data_size := 0,
      transfer_id := -1 }
  { st with traces := push_operation st.traces to_idx comp_op }

/-- The body of the loop over a direct predecessor's output layout. -/
def direct_body (env : Env) (xyid_to_idx : XyMap) (layer_node : Node) (prev_layerno to_idx : Nat)
    (st : GenState) (prev_entry : fmap_range × pos_t) : GenState :=
  let prev_range := prev_entry.1
  let prev_pos := prev_entry.2
  if env.is_empty prev_range then
    st
  else
    match xyid_to_idx.find (env.get_xyid prev_pos) with
    | none => st
    | some from_idx =>
      let transfer_size := env.size prev_range * 8
      if from_idx ≠ to_idx ∧ transfer_size > 0 then
        emit_transfer to_idx from_idx
          (layer_node.name ++ "_from_" ++ env.node_name prev_layerno)
          (env.node_name prev_layerno ++ "_to_" ++ layer_node.name)
          transfer_size st
      else
        st

/-- The body of the loop `FOR_BITSET(prev_layerno, prev_layers)`. -/
def prev_body (env : Env) (xyid_to_idx : XyMap) (lnode : LNode) (ofmap_range : fmap_range)
    (to_idx : Nat) (st : GenState) (prev_layerno : Nat) : GenState :=
  match env.get_lnode_by_id prev_layerno with
  | none => st
  | some prev_lnode =>
    if lnode.dirp_set.contains prev_layerno then
      prev_lnode.ofm_layout.foldl
        (direct_body env xyid_to_idx lnode.layer prev_layerno to_idx) st
    else
      emit_dram to_idx (lnode.layer.name ++ "_ifmap") (env.size ofmap_range * 8) st

/-- The body of the loop over the leaf's own output layout in `collect_transfers`. -/
def transfer_body (env : Env) (xyid_to_idx : XyMap) (lnode : LNode) (st : GenState)
    (entry : fmap_range × pos_t) : GenState :=
  let ofmap_range := entry.1
  let pos := entry.2
  if env.is_empty ofmap_range then
    st
  else
    match xyid_to_idx.find (env.get_xyid pos) with
    | none => st
    | some to_idx =>
      let has_prev_layer := lnode.layer.prevs.count ≠ 0
      let st1 :=
        if has_prev_layer then
          lnode.layer.prevs.elems.foldl (prev_body env xyid_to_idx lnode ofmap_range to_idx) st
        else
          emit_dram to_idx (lnode.layer.name ++ "_ifmap") (env.size ofmap_range * 8) st
      emit_compute to_idx lnode.layer.name st1

mutual
/-- The method `TraceGenerator::collect_transfers`. A batch-group count of zero
makes `tot_batch / bgrp` a division by zero: no value is returned. -/
def collect_transfers (env : Env) (xyid_to_idx : XyMap) :
    SchNode → Nat → GenState → Option GenState
  | SchNode.null, _, st => some st
  | SchNode.L lnode, _, st =>
    some (lnode.ofm_layout.foldl (transfer_body env xyid_to_idx lnode) st)
  | SchNode.Cut bgrp children, batch_offset, st =>
    if bgrp = 0 then
      none
    else
      (List.range bgrp).foldlM
        (fun acc b =>
          collect_transfers_children env xyid_to_idx children
            (batch_offset + b * (env.tot_batch / bgrp)) acc)
        st
/-- The loop `for (auto child : cut->getChildren())` of `collect_transfers`. -/
def collect_transfers_children (env : Env) (xyid_to_idx : XyMap) :
    List SchNode → Nat → GenState → Option GenState
  | [], _, st => some st
  | child :: rest, batch_offset, st =>
    match collect_transfers env xyid_to_idx child batch_offset st with
    | none => none
    | some acc => collect_transfers_children env xyid_to_idx rest batch_offset acc
end

/-- The class `TraceGenerator`: its private members. -/
structure TraceGenerator where
  root_ : SchNode
  xlen_ : Nat
  ylen_ : Nat
  next_transfer_id_ : Int

/-- The constructor `TraceGenerator::TraceGenerator(root, xlen, ylen)`. -/
def TraceGenerator.new (root : SchNode) (xlen ylen : Nat) : TraceGenerator :=
  { root_ := root, xlen_ := xlen, ylen_ := ylen, next_transfer_id_ := 0 }

/-- The method `TraceGenerator::generate` (with `generate_operations` unfolded:
it only calls `collect_transfers` on the root with batch offset 0). -/
def TraceGenerator.generate (env : Env) (g : TraceGenerator) : Option FullTrace :=
  let init := mesh_init env g.xlen_ g.ylen_
  match collect_computations env init.2 g.root_ 0 init.1 with
  | none => none
  | some traces =>
    match collect_transfers env init.2 g.root_ 0
        { traces := traces, next_transfer_id_ := g.next_transfer_id_ } with
    | none => none
    | some st =>
      some { mesh_x := g.xlen_, mesh_y := g.ylen_, network_name := "DNN",
             total_batch := env.tot_batch, chiplet_traces := st.traces }

/-- The tree has no grouping node with batch-group count 0 (the precondition
"batch-group count >= 1"). -/
def SchNode.bgrp_pos : SchNode → Bool
  | SchNode.null => true
  | SchNode.L _ => true
  | SchNode.Cut bgrp children => decide (1 ≤ bgrp) && bgrp_pos_children children
where
  /-- Every tree of the list satisfies `bgrp_pos`. -/
  bgrp_pos_children : List SchNode → Bool
    | [] => true
    | c :: cs => SchNode.bgrp_pos c && bgrp_pos_children cs

end ChipletTrace

namespace ChipletTrace

/-! ## Notions the statements are phrased with -/

/-- A legal step of a completion order: remove a head COMPUTE, remove a head
RECEIVE/SEND whose peer is negative, or remove together the heads of tiles `i`
and `P` where the head of `i` names the in-range peer `P` and the heads match. -/
inductive LegalStep : Queues → Queues → Prop where
  | compute {q : Queues} {i : Nat} {op : Operation} :
      front q i = some op → op.type = OpType.COMPUTE → LegalStep q (pop_front q i)
  | external {q : Queues} {i : Nat} {op : Operation} :
      front q i = some op → op.type ≠ OpType.COMPUTE → op.peer_id < 0 →
      LegalStep q (pop_front q i)
  | rendezvous {q : Queues} {i P : Nat} {op peer_op : Operation} :
      front q i = some op → op.peer_id = (P : Int) → P < q.length →
      front q P = some peer_op → op.matches peer_op = true →
      LegalStep q (pop_front (pop_front q i) P)

/-- A legal completion order exists: a finite sequence of legal steps that
empties all queues. -/
inductive LegalCompletion : Queues → Prop where
  | done {q : Queues} : all_empty q = true → LegalCompletion q
  | step {q q1 : Queues} : LegalStep q q1 → LegalCompletion q1 → LegalCompletion q

/-- The queues reached from `q` by iterations of the `while` loop that did not
return: each one found some queue non-empty and its scan removed something. -/
inductive ScanReach : Queues → Queues → Prop where
  | refl (q : Queues) : ScanReach q q
  | step {q q1 qf : Queues} :
      all_empty q = false → scan q = some q1 → ScanReach q1 qf → ScanReach q qf

/-- Tile `j` lost an operation between `q` and `q1`. -/
def removed_at (q q1 : Queues) (j : Nat) : Prop :=
  (q1.getD j []).length < (q.getD j []).length

/-- Matching operations name each other's tile: whenever an operation of tile
`i` matches an operation of tile `j`, the first has peer `j` and the second
has peer `i`. -/
def PeerSymmetric (q : Queues) : Prop :=
  ∀ (i j : Nat) (a b : Operation), a ∈ q.getD i [] → b ∈ q.getD j [] →
    a.matches b = true → a.peer_id = (j : Int) ∧ b.peer_id = (i : Int)

/-- Number of operations in the whole trace that satisfy `p`. -/
def count_ops (p : Operation → Bool) (q : Queues) : Nat :=
  (q.map (List.countP p)).sum

/-- The tiles `l` whose heads one legal step removes from `q`: a single tile
with a COMPUTE or negative-peer head, or a tile and the peer its head names. -/
def StepOn (q : Queues) (l : List Nat) : Prop :=
  (∃ i op, l = [i] ∧ front q i = some op ∧ (op.type = OpType.COMPUTE ∨ op.peer_id < 0)) ∨
  (∃ i P op peer_op, l = [i, P] ∧ front q i = some op ∧ op.peer_id = (P : Int) ∧
    front q P = some peer_op ∧ op.matches peer_op = true)

/-- Pop the heads of the listed tiles. -/
def pops (q : Queues) (l : List Nat) : Queues := l.foldl pop_front q

/-- Every operation is a COMPUTE or a RECEIVE from external memory. -/
def external_only (q : Queues) : Prop :=
  ∀ l ∈ q, ∀ op ∈ l, op.type = OpType.COMPUTE ∨ (op.type = OpType.RECV ∧ op.peer_id = -1)

/-- A SEND operation with the given peer, transfer id, label and size. -/
def send_op (peer tid : Int) (name : String) (size : Nat) : Operation :=
  { type := OpType.SEND, peer_id := peer, layer_name := name, data_size := size,
    transfer_id := tid }

/-- A RECEIVE operation with the given peer, transfer id, label and size. -/
def recv_op (peer tid : Int) (name : String) (size : Nat) : Operation :=
  { type := OpType.RECV, peer_id := peer, layer_name := name, data_size := size,
    transfer_id := tid }

/-- The operation queues of a trace vector. -/
def queues_of (traces : List SingleChipletTrace) : Queues :=
  traces.map SingleChipletTrace.operations

/-- The effect of `traces[i].operations.push_back(op)` on the operation queues. -/
def push_back (q : Queues) (i : Nat) (op : Operation) : Queues :=
  List.modify (fun l => l ++ [op]) i q

/-- The invariant of pass 2 over the operation queues `q` of `n` tiles and the
value `next` of the transfer-id counter. -/
structure GenInv (n : Nat) (q : Queues) (next : Int) : Prop where
  len : q.length = n
  next_nonneg : 0 ≤ next
  fresh : ∀ i, ∀ op ∈ q.getD i [], op.type ≠ OpType.COMPUTE →
    0 ≤ op.transfer_id ∧ op.transfer_id < next
  compute_shape : ∀ i, ∀ op ∈ q.getD i [], op.type = OpType.COMPUTE →
    op.transfer_id = -1 ∧ op.peer_id = -2 ∧ op.data_size = 0
  sym : PeerSymmetric q
  completion : LegalCompletion q
  uniq_recv : ∀ T : Int,
    count_ops (fun o => decide (o.type = OpType.RECV ∧ o.transfer_id = T)) q ≤ 1
  uniq_send : ∀ T : Int,
    count_ops (fun o => decide (o.type = OpType.SEND ∧ o.transfer_id = T)) q ≤ 1
  send_paired : ∀ s, ∀ op ∈ q.getD s [], op.type = OpType.SEND →
    ∃ d : Nat, op.peer_id = (d : Int) ∧ d ≠ s ∧ d < n ∧
      ∃ r ∈ q.getD d [], r.type = OpType.RECV ∧ r.transfer_id = op.transfer_id ∧
        r.peer_id = (s : Int)
  recv_paired : ∀ d, ∀ r ∈ q.getD d [], r.type = OpType.RECV → 0 ≤ r.peer_id →
    ∃ s : Nat, r.peer_id = (s : Int) ∧ s ≠ d ∧ s < n ∧
      ∃ op ∈ q.getD s [], op.type = OpType.SEND ∧ op.transfer_id = r.transfer_id ∧
        op.peer_id = (d : Int)
  recv_dram : ∀ d, ∀ r ∈ q.getD d [], r.type = OpType.RECV → r.peer_id < 0 →
    r.peer_id = -1 ∧ count_ops (fun o => decide (o.transfer_id = r.transfer_id)) q = 1

/-- The invariant `GenInv` read on a generator state. -/
def GenState.inv (n : Nat) (st : GenState) : Prop :=
  GenInv n (queues_of st.traces) st.next_transfer_id_

/-- Every index the lookup returns is a tile index below `n`. -/
def XyMap.bounded (m : XyMap) (n : Nat) : Prop :=
  ∀ xyid idx, m.find xyid = some idx → idx < n

/-- A property of generator states kept by the three emitting blocks of pass 2
whenever the tile indices involved are below `n`. -/
structure EmitClosed (n : Nat) (P : GenState → Prop) : Prop where
  compute : ∀ (st : GenState) (to_idx : Nat) (name : String),
    P st → to_idx < n → P (emit_compute to_idx name st)
  dram : ∀ (st : GenState) (to_idx : Nat) (name : String) (size : Nat),
    P st → to_idx < n → P (emit_dram to_idx name size st)
  transfer : ∀ (st : GenState) (to_idx from_idx : Nat) (rname sname : String) (size : Nat),
    P st → to_idx < n → from_idx < n → from_idx ≠ to_idx → 0 < size →
    P (emit_transfer to_idx from_idx rname sname size st)

/-- The step from `q` to `q1` removes real-peer transfers only next to a
matching head of the peer they name: whenever tile `j` loses its head `op`, a
RECEIVE or SEND with `peer_id >= 0`, the queue of tile `op.peer_id` is
non-empty and its head matches `op`. -/
def removes_only_at_rendezvous (q q1 : Queues) : Prop :=
  ∀ (j : Nat) (op : Operation), removed_at q q1 j → front q j = some op →
    op.type ≠ OpType.COMPUTE → 0 ≤ op.peer_id →
    ∃ (P : Nat) (peer_op : Operation), op.peer_id = (P : Int) ∧ front q P = some peer_op ∧
      op.matches peer_op = true

end ChipletTrace

namespace ChipletTrace

/-! ## A small worked placement: two layers on a 2 x 1 mesh -/

/-- Extent of one dimension of a sub-range. -/
def dim_range.extent (r : dim_range) : Nat := r.to_ - r.from_

/-- Volume of a sub-range: the product of its four extents. -/
def fmap_range.volume (r : fmap_range) : Nat :=
  r.c.extent * r.b.extent * r.h.extent * r.w.extent

/-- A 1 x 1 convolution layer on a 4 x 4 map with 2 channels. -/
def demo_layer : Layer :=
  { kind := LayerKind.conv,
    wl := { H := 4, W := 4, R := 1, S := 1, C := 2, K := 2, sH := 1, sW := 1, G := 1, GC := 2,
            GK := 2, N := 1 },
    tot_ifmap_shape := { c := 2, h := 4, w := 4 },
    ofmap_shape := { c := 2, h := 4, w := 4 } }

/-- The whole output of the demo layers: 2 channels, batch 1, 4 x 4. -/
def demo_range : fmap_range :=
  { c := { from_ := 0, to_ := 2 }, b := { from_ := 0, to_ := 1 }, h := { from_ := 0, to_ := 4 },
    w := { from_ := 0, to_ := 4 } }

/-- Layer 0: no predecessor, placed on position (0, 0). -/
def demo_producer : LNode :=
  { layer := { name := "L0", layer := demo_layer, prevs := [] },
    ofm_layout := [(demo_range, { x := 0, y := 0 })],
    dirp_set := [] }

/-- Layer 1: direct successor of layer 0, placed on position (1, 0). -/
def demo_consumer : LNode :=
  { layer := { name := "L1", layer := demo_layer, prevs := [true] },
    ofm_layout := [(demo_range, { x := 1, y := 0 })],
    dirp_set := [true] }

/-- The collaborators of the demo: row-major position ids, volumes as products. -/
def demo_env : Env where
  get_xyid := fun p => p.y * 2 + p.x
  is_empty := fun r => decide (r.volume = 0)
  size := fun r => r.volume
  node_name := fun id => if id = 0 then "L0" else "L1"
  get_lnode_by_id := fun id => if id = 0 then some demo_producer else none
  tot_batch := 1

/-- The demo tree: one grouping node over the two leaves. -/
def demo_tree : SchNode :=
  SchNode.Cut 1 [SchNode.L demo_producer, SchNode.L demo_consumer]

/-- The operation queues the demo tree gives on the 2 x 1 mesh. -/
def demo_queues : Queues :=
  [[{ type := OpType.RECV, peer_id := -1, layer_name := "L0_ifmap", data_size := 256,
      transfer_id := 0 },
    { type := OpType.COMPUTE, peer_id := -2, layer_name := "L0", data_size := 0,
      transfer_id := -1 },
    { type := OpType.SEND, peer_id := 1, layer_name := "L0_to_L1", data_size := 256,
      transfer_id := 1 }],
   [{ type := OpType.RECV, peer_id := 0, layer_name := "L1_from_L0", data_size := 256,
      transfer_id := 1 },
    { type := OpType.COMPUTE, peer_id := -2, layer_name := "L1", data_size := 0,
      transfer_id := -1 }]]

end ChipletTrace

namespace ChipletTrace

/-! ## The deadlock diagnostic -/

/-- The printed name of an operation type. -/
def OpType.name : OpType → String
  | OpType.RECV => "RECV"
  | OpType.COMPUTE => "COMPUTE"
  | OpType.SEND => "SEND"

/-- The line written to `std::cerr` for tile `i` with head `op` in the
diagnostic loop of `verify_deadlock_free`. -/
def diagnostic_line (i : Nat) (op : Operation) : String :=
  "  Chip " ++ toString i ++ ": " ++ (if op.type = OpType.SEND then "SEND" else "RECV")
    ++ " peer=" ++ toString op.peer_id ++ " tid=" ++ toString op.transfer_id

/-- The diagnostic `for` loop over the tile indices still to visit: one line
per tile whose queue is not empty. -/
def diagnostic_loop (chip_ops : Queues) : List Nat → List String
  | [] => []
  | i :: rest =>
    match front chip_ops i with
    | none => diagnostic_loop chip_ops rest
    | some op => diagnostic_line i op :: diagnostic_loop chip_ops rest

/-- The lines written to `std::cerr` in the branch `if (!matched)`. -/
def diagnostic (chip_ops : Queues) : List String :=
  "[Deadlock] Unable to match any operation at head:" ::
    diagnostic_loop chip_ops (List.range chip_ops.length)

/-- What `verify_deadlock_free` writes to `std::cerr`: nothing when it returns
true, the diagnostic of the final queues when it returns false. -/
def FullTrace.verify_stderr (t : FullTrace) : Option (List String) :=
  t.verify_run.map fun r => if r.1 = true then [] else diagnostic r.2

/-- The diagnostic line of a blocked tile, with the head's type named as it is. -/
def blocked_line (i : Nat) (op : Operation) : String :=
  "  Chip " ++ toString i ++ ": " ++ op.type.name ++ " peer=" ++ toString op.peer_id
    ++ " tid=" ++ toString op.transfer_id

/-! ## Notions for the independence of the verdict from the order of steps -/

/-- All operations of the trace with their place: tile, position in the queue. -/
def positions (q : Queues) : List (Nat × Nat × Operation) :=
  q.enum.flatMap fun il => il.2.enum.map fun ko => (il.1, ko.1, ko.2)

/-- The transfer-id matching invariant. A RECEIVE or SEND with `peer_id >= 0`
has an in-range peer different from its own tile, and its transfer id is
carried by exactly one other operation of the trace, which has the opposite
direction, sits on the peer tile and names the first tile as its peer. A
RECEIVE or SEND with a negative peer shares its id with no other operation.
(COMPUTE operations, which all carry id -1, are not constrained.) -/
def MatchingInvariant (q : Queues) : Prop :=
  ∀ p ∈ positions q, p.2.2.type ≠ OpType.COMPUTE →
    (0 ≤ p.2.2.peer_id →
      p.2.2.peer_id < (q.length : Int) ∧ p.2.2.peer_id ≠ (p.1 : Int) ∧
      ∃ r ∈ positions q, (r.1 : Int) = p.2.2.peer_id ∧ r.2.2.matches p.2.2 = true ∧
        r.2.2.peer_id = (p.1 : Int) ∧
        ∀ o ∈ positions q, o.2.2.transfer_id = p.2.2.transfer_id →
          (o.1 = p.1 ∧ o.2.1 = p.2.1) ∨ (o.1 = r.1 ∧ o.2.1 = r.2.1)) ∧
    (p.2.2.peer_id < 0 →
      ∀ o ∈ positions q, o.2.2.transfer_id = p.2.2.transfer_id → o.1 = p.1 ∧ o.2.1 = p.2.1)

/-- A finite sequence of legal steps leads from the first queues to the second. -/
inductive LegalSteps : Queues → Queues → Prop where
  | refl (q : Queues) : LegalSteps q q
  | step {q q1 qf : Queues} : LegalStep q q1 → LegalSteps q1 qf → LegalSteps q qf

/-- No legal step is possible: a sequence of legal steps ending here is maximal. -/
def Stuck (q : Queues) : Prop := ∀ q1, ¬ LegalStep q q1

/-! ## Iterating a bit set (`bitset.cpp`) -/

/-- The loop `for (i = ...; i < size(); ++i) if (test(i)) return i; return size();`
shared by `first` and `next`, with `k = size() - i` indices left to test. -/
def Bitset.scan_from (s : Bitset) : Nat → Nat → Nat
  | 0, _ => s.size
  | k + 1, i => if s.contains i then i else Bitset.scan_from s k (i + 1)

/-- The method `Bitset::first`. -/
def Bitset.first (s : Bitset) : Nat :=
  s.scan_from s.size 0

/-- The method `Bitset::next`. -/
def Bitset.next (s : Bitset) (bit : Nat) : Nat :=
  s.scan_from (s.size - (bit + 1)) (bit + 1)

/-- The iteration `cur, next(cur), next(next(cur)), ...` until `size()` is
returned, with a bound on the number of steps; `none` means the bound was
reached first. -/
def Bitset.iterate (s : Bitset) : Nat → Nat → Option (List Nat)
  | 0, _ => none
  | fuel + 1, cur =>
    if cur = s.size then
      some []
    else
      (Bitset.iterate s fuel (s.next cur)).map fun rest => cur :: rest

/-- The indices visited by `for (b = first(); b != size(); b = next(b))`. -/
def Bitset.visited (s : Bitset) : Option (List Nat) :=
  s.iterate (s.size + 1) s.first

/-! ## The tree walker shared by the two passes -/

mutual
/-- The traversal both passes follow: descent carries a batch offset; a leaf
applies `leaf`; a grouping node with batch-group count `G` iterates `b` from 0
to `G - 1` and recurses into every child, in child order, with offset
`batch_offset + b * (tot_batch / G)`. A count of zero gives no result. -/
def visit {σ : Type} (tot_batch : Nat) (leaf : LNode → Nat → σ → σ) :
    SchNode → Nat → σ → Option σ
  | SchNode.null, _, s => some s
  | SchNode.L lnode, batch_offset, s => some (leaf lnode batch_offset s)
  | SchNode.Cut bgrp children, batch_offset, s =>
    if bgrp = 0 then
      none
    else
      (List.range bgrp).foldlM
        (fun acc b =>
          visit_children tot_batch leaf children (batch_offset + b * (tot_batch / bgrp)) acc)
        s
/-- The traversal of the children of a grouping node, in child order. -/
def visit_children {σ : Type} (tot_batch : Nat) (leaf : LNode → Nat → σ → σ) :
    List SchNode → Nat → σ → Option σ
  | [], _, s => some s
  | child :: rest, batch_offset, s =>
    match visit tot_batch leaf child batch_offset s with
    | none => none
    | some acc => visit_children tot_batch leaf rest batch_offset acc
end

mutual
/-- The tree with `g` applied to every leaf. -/
def SchNode.map (g : LNode → LNode) : SchNode → SchNode
  | SchNode.null => SchNode.null
  | SchNode.L lnode => SchNode.L (g lnode)
  | SchNode.Cut bgrp children => SchNode.Cut bgrp (SchNode.map_children g children)
/-- The list of trees with `g` applied to every leaf. -/
def SchNode.map_children (g : LNode → LNode) : List SchNode → List SchNode
  | [] => []
  | child :: rest => SchNode.map g child :: SchNode.map_children g rest
end

mutual
/-- The leaves of a tree, left to right. -/
def SchNode.leaves : SchNode → List LNode
  | SchNode.null => []
  | SchNode.L lnode => [lnode]
  | SchNode.Cut _ children => SchNode.leaves_children children
/-- The leaves of a list of trees, left to right. -/
def SchNode.leaves_children : List SchNode → List LNode
  | [] => []
  | child :: rest => SchNode.leaves child ++ SchNode.leaves_children rest
end

/-- Two optional results agree: both absent, or both present and related. -/
def OptRel {α β : Type} (R : α → β → Prop) : Option α → Option β → Prop
  | none, none => True
  | some a, some b => R a b
  | _, _ => False

/-- The work of pass 1 at a leaf. -/
def computations_leaf (env : Env) (xyid_to_idx : XyMap) (lnode : LNode) (batch_offset : Nat)
    (traces : List SingleChipletTrace) : List SingleChipletTrace :=
  lnode.ofm_layout.foldl
    (computation_body env xyid_to_idx (base_task lnode.layer) batch_offset) traces

/-- The work of pass 2 at a leaf. -/
def transfers_leaf (env : Env) (xyid_to_idx : XyMap) (lnode : LNode) (st : GenState) :
    GenState :=
  lnode.ofm_layout.foldl (transfer_body env xyid_to_idx lnode) st

/-! ## Removing sub-ranges from a placement -/

/-- The leaf with only the layout entries that satisfy `keep`. -/
def LNode.prune (keep : fmap_range × pos_t → Bool) (lnode : LNode) : LNode :=
  { lnode with ofm_layout := lnode.ofm_layout.filter keep }

/-- The collaborators seen when every leaf is pruned: `get_lnode_by_id` returns
the pruned leaf. -/
def Env.prune (keep : fmap_range × pos_t → Bool) (env : Env) : Env :=
  { env with get_lnode_by_id := fun id => (env.get_lnode_by_id id).map (LNode.prune keep) }

/-- The layout entry has a non-empty sub-range. -/
def nonempty_entry (env : Env) (entry : fmap_range × pos_t) : Bool :=
  !env.is_empty entry.1

/-- The layout entry has a position present in the position-to-index lookup. -/
def present_entry (env : Env) (xyid_to_idx : XyMap) (entry : fmap_range × pos_t) : Bool :=
  (xyid_to_idx.find (env.get_xyid entry.2)).isSome

/-! ## Tile identities -/

/-- The identity fields of the per-tile traces: `chiplet_id`, `pos_x`, `pos_y`. -/
def ids_of (traces : List SingleChipletTrace) : List (Int × Nat × Nat) :=
  traces.map fun ct => (ct.chiplet_id, ct.pos_x, ct.pos_y)

/-- Entry `i` of the trace vector, when it has been reached by the mesh loops,
carries index `i` and the position with `pos_y * xlen + pos_x = i`. -/
def mesh_filled (xlen k : Nat) (traces : List SingleChipletTrace) : Prop :=
  ∀ i, i < k → ∀ ct, traces[i]? = some ct →
    ct.chiplet_id = (i : Int) ∧ ct.pos_x = i % xlen ∧ ct.pos_y = i / xlen

/-! ## The report (`FullTrace::print`)

The stream is the text written so far; `os << x` appends the text of `x`. -/

/-- The manipulator `std::setw(w)` on the next item: right-aligned in a field
of width `w`, padded with spaces. -/
def setw (w : Nat) (s : String) : String :=
  String.mk (List.replicate (w - s.length) ' ') ++ s

/-- The five header lines of the report. -/
def print_header (t : FullTrace) : String :=
  "# Chiplet Simulation Trace\n" ++
  "# Mesh: " ++ toString t.mesh_x ++ "x" ++ toString t.mesh_y ++ "\n" ++
  "# Network: " ++ t.network_name ++ "\n" ++
  "# Total Batch: " ++ toString t.total_batch ++ "\n" ++
  "# Total Chiplets: " ++ toString t.chiplet_traces.length ++ "\n\n"

/-- The row written for one computation task. -/
def computation_row (comp : ComputationTask) : String :=
  comp.layer_name ++ " | " ++ comp.layer_type ++ " | " ++ toString comp.ifmap_h ++ " | " ++
  toString comp.ifmap_w ++ " | " ++ toString comp.filter_h ++ " | " ++
  toString comp.filter_w ++ " | " ++ toString comp.channels ++ " | " ++
  toString comp.num_filters ++ " | " ++ toString comp.stride_h ++ " | " ++
  toString comp.stride_w ++ " | " ++
  (if comp.extra_info.isEmpty then "-" else comp.extra_info) ++ " | " ++
  "[" ++ toString comp.batch_from ++ "," ++ toString comp.batch_to ++ ") | " ++
  "C[" ++ toString comp.c_from ++ "," ++ toString comp.c_to ++ ")" ++
  "H[" ++ toString comp.h_from ++ "," ++ toString comp.h_to ++ ")" ++
  "W[" ++ toString comp.w_from ++ "," ++ toString comp.w_to ++ ")\n"

/-- What the body of the operation loop writes after the sequence number:
type, peer, label, size and transfer id. -/
def operation_fields (op : Operation) : String :=
  (match op.type with
    | OpType.RECV => "RECV    | "
    | OpType.COMPUTE => "COMPUTE | "
    | OpType.SEND => "SEND    | ") ++
  (if op.peer_id = -1 then "DRAM"
    else if op.peer_id = -2 then "-   "
    else setw 4 (toString op.peer_id)) ++
  " | " ++ setw 15 op.layer_name ++
  " | " ++ setw 8 (toString op.data_size) ++
  " | T" ++ toString op.transfer_id ++ "\n"

/-- The row written by one pass through the operation loop when the counter
`seq` has the given value. -/
def operation_row (seq : Nat) (op : Operation) : String :=
  setw 5 (toString seq) ++ " | " ++ operation_fields op

/-- One pass through the operation loop: write the row, then `seq++`. -/
def print_operation (acc : String × Nat) (op : Operation) : String × Nat :=
  (acc.1 ++ operation_row acc.2 op, acc.2 + 1)

/-- The lines that open the block of one chiplet, up to the column titles of
the computation table. -/
def chiplet_head (trace : SingleChipletTrace) : String :=
  "===== CHIPLET " ++ toString trace.chiplet_id ++ " (" ++ toString trace.pos_x ++ "," ++
  toString trace.pos_y ++ ") =====\n\n" ++
  "[COMPUTATIONS]\n" ++
  "# Layer | Type | IFMAP_H | IFMAP_W | Filter_H | Filter_W | Channels " ++
  "| NumFilters | Stride_H | Stride_W | Extra | Batch | OutputRange\n"

/-- The lines that open the operation table. -/
def operations_head : String :=
  "\n[ORDERED_OPERATIONS]\n" ++
  "# Seq | Type    | Peer | Layer           | Size     | TransferID\n"

/-- The body of the loop over `chiplet_traces` in `print`. -/
def print_chiplet (os : String) (trace : SingleChipletTrace) : String :=
  let os1 := os ++ chiplet_head trace
  let os2 := trace.computations.foldl (fun o comp => o ++ computation_row comp) os1
  let os3 := os2 ++ operations_head
  let os4 := (trace.operations.foldl print_operation (os3, 0)).1
  os4 ++ "\n"

/-- The method `FullTrace::print`. -/
def FullTrace.print (t : FullTrace) (os : String) : String :=
  t.chiplet_traces.foldl print_chiplet (os ++ print_header t)

/-- The texts of a list, one after the other. -/
def concat_text (l : List String) : String :=
  l.foldr (fun s rest => s ++ rest) ""

/-- The block of one chiplet with its operation rows numbered by queue position. -/
def chiplet_block (trace : SingleChipletTrace) : String :=
  chiplet_head trace ++ concat_text (trace.computations.map computation_row) ++
  operations_head ++
  concat_text (trace.operations.enum.map fun p => operation_row p.1 p.2) ++ "\n"

/-! ## What the two passes append, as lists -/

/-- The task pass 1 builds for a layout entry: the leaf's task with the batch
bounds of the sub-range moved by the batch offset and the other bounds copied. -/
def part_task (task : ComputationTask) (range : fmap_range) (batch_offset : Nat) :
    ComputationTask :=
  { task with batch_from := range.b.from_ + batch_offset,
              batch_to := range.b.to_ + batch_offset,
              c_from := range.c.from_, c_to := range.c.to_,
              h_from := range.h.from_, h_to := range.h.to_,
              w_from := range.w.from_, w_to := range.w.to_ }

/-- The tasks a leaf contributes in pass 1 when visited with the given batch
offset, each with the tile it goes to: one per layout entry that is non-empty
and whose position is in the lookup, in layout order. -/
def leaf_tasks (env : Env) (xyid_to_idx : XyMap) (lnode : LNode) (batch_offset : Nat) :
    List (Nat × ComputationTask) :=
  lnode.ofm_layout.filterMap fun e =>
    if env.is_empty e.1 then none
    else (xyid_to_idx.find (env.get_xyid e.2)).map fun idx =>
      (idx, part_task (base_task lnode.layer) e.1 batch_offset)

/-- Append the given tasks, in order, to the computation lists of their tiles. -/
def push_tasks (traces : List SingleChipletTrace) (ps : List (Nat × ComputationTask)) :
    List SingleChipletTrace :=
  ps.foldl (fun tr p => push_computation tr p.1 p.2) traces

/-- The tasks a tree contributes in pass 1 when visited with the given batch
offset, in the order of the walk. -/
def contributed_tasks (env : Env) (xyid_to_idx : XyMap) (node : SchNode) (batch_offset : Nat) :
    Option (List (Nat × ComputationTask)) :=
  visit env.tot_batch (fun l b acc => acc ++ leaf_tasks env xyid_to_idx l b) node batch_offset []

/-- The tasks the children of a grouping node contribute, child after child. -/
def children_tasks (env : Env) (xyid_to_idx : XyMap) (children : List SchNode)
    (batch_offset : Nat) : Option (List (Nat × ComputationTask)) :=
  visit_children env.tot_batch (fun l b acc => acc ++ leaf_tasks env xyid_to_idx l b)
    children batch_offset []

/-- The same contribution with the batch bounds moved by `k`. -/
def shift_batch (k : Nat) (p : Nat × ComputationTask) : Nat × ComputationTask :=
  (p.1, { p.2 with batch_from := p.2.batch_from + k, batch_to := p.2.batch_to + k })

/-- One execution of an emitting block of pass 2, with its arguments. -/
inductive Emit where
  | transfer (to_idx from_idx : Nat) (recv_name send_name : String) (size : Nat)
  | dram (to_idx : Nat) (name : String) (size : Nat)
  | compute (to_idx : Nat) (name : String)

/-- Execute the block. -/
def Emit.apply (st : GenState) : Emit → GenState
  | Emit.transfer to_idx from_idx recv_name send_name size =>
    emit_transfer to_idx from_idx recv_name send_name size st
  | Emit.dram to_idx name size => emit_dram to_idx name size st
  | Emit.compute to_idx name => emit_compute to_idx name st

/-- Execute the blocks in order. -/
def run_emits (st : GenState) (es : List Emit) : GenState :=
  es.foldl Emit.apply st

/-- Number of transfer ids the block allocates. -/
def Emit.allocs : Emit → Nat
  | Emit.transfer _ _ _ _ _ => 1
  | Emit.dram _ _ _ => 1
  | Emit.compute _ _ => 0

/-- Number of transfer ids the blocks allocate. -/
def allocs (es : List Emit) : Nat :=
  (es.map Emit.allocs).sum

/-- The blocks executed for one sub-range of a direct predecessor. -/
def direct_emits (env : Env) (xyid_to_idx : XyMap) (layer_node : Node)
    (prev_layerno to_idx : Nat) (prev_entry : fmap_range × pos_t) : List Emit :=
  if env.is_empty prev_entry.1 then []
  else
    match xyid_to_idx.find (env.get_xyid prev_entry.2) with
    | none => []
    | some from_idx =>
      if from_idx ≠ to_idx ∧ env.size prev_entry.1 * 8 > 0 then
        [Emit.transfer to_idx from_idx
          (layer_node.name ++ "_from_" ++ env.node_name prev_layerno)
          (env.node_name prev_layerno ++ "_to_" ++ layer_node.name)
          (env.size prev_entry.1 * 8)]
      else []

/-- The blocks executed for one predecessor of the leaf's layer. -/
def prev_emits (env : Env) (xyid_to_idx : XyMap) (lnode : LNode) (ofmap_range : fmap_range)
    (to_idx prev_layerno : Nat) : List Emit :=
  match env.get_lnode_by_id prev_layerno with
  | none => []
  | some prev_lnode =>
    if lnode.dirp_set.contains prev_layerno then
      prev_lnode.ofm_layout.flatMap
        (direct_emits env xyid_to_idx lnode.layer prev_layerno to_idx)
    else
      [Emit.dram to_idx (lnode.layer.name ++ "_ifmap") (env.size ofmap_range * 8)]

/-- The blocks executed for one entry of the leaf's own layout. -/
def entry_emits (env : Env) (xyid_to_idx : XyMap) (lnode : LNode)
    (entry : fmap_range × pos_t) : List Emit :=
  if env.is_empty entry.1 then []
  else
    match xyid_to_idx.find (env.get_xyid entry.2) with
    | none => []
    | some to_idx =>
      (if lnode.layer.prevs.count ≠ 0 then
        lnode.layer.prevs.elems.flatMap (prev_emits env xyid_to_idx lnode entry.1 to_idx)
      else
        [Emit.dram to_idx (lnode.layer.name ++ "_ifmap") (env.size entry.1 * 8)]) ++
      [Emit.compute to_idx lnode.layer.name]

/-- The blocks pass 2 executes at a leaf, in order. -/
def leaf_emits (env : Env) (xyid_to_idx : XyMap) (lnode : LNode) : List Emit :=
  lnode.ofm_layout.flatMap (entry_emits env xyid_to_idx lnode)

/-- The blocks pass 2 executes on a tree, in the order of the walk. -/
def transfer_emits (env : Env) (xyid_to_idx : XyMap) (node : SchNode) : Option (List Emit) :=
  visit env.tot_batch (fun l _ acc => acc ++ leaf_emits env xyid_to_idx l) node 0 []

/-- The blocks pass 2 executes on the children of a grouping node in one replica. -/
def children_emits (env : Env) (xyid_to_idx : XyMap) (children : List SchNode) :
    Option (List Emit) :=
  visit_children env.tot_batch (fun l _ acc => acc ++ leaf_emits env xyid_to_idx l) children 0 []

/-- The operations the block appends to the queue of tile `i`, in a trace
vector of `n` tiles, when the counter has the value `next`. -/
def Emit.ops (n : Nat) (next : Int) (i : Nat) : Emit → List Operation
  | Emit.transfer to_idx from_idx recv_name send_name size =>
    (if to_idx = i ∧ i < n then
      [{ type := OpType.RECV, peer_id := (from_idx : Int), layer_name := recv_name,
         data_size := size, transfer_id := next }]
    else []) ++
    (if from_idx = i ∧ i < n then
      [{ type := OpType.SEND, peer_id := (to_idx : Int), layer_name := send_name,
         data_size := size, transfer_id := next }]
    else [])
  | Emit.dram to_idx name size =>
    if to_idx = i ∧ i < n then
      [{ type := OpType.RECV, peer_id := -1, layer_name := name, data_size := size,
         transfer_id := next }]
    else []
  | Emit.compute to_idx name =>
    if to_idx = i ∧ i < n then
      [{ type := OpType.COMPUTE, peer_id := -2, layer_name := name, data_size := 0,
         transfer_id := -1 }]
    else []

/-- The operations the blocks append to the queue of tile `i`, started with
the counter at `next`. -/
def emitted_ops (n : Nat) (i : Nat) : Int → List Emit → List Operation
  | _, [] => []
  | next, e :: es => e.ops n next i ++ emitted_ops n i (next + (e.allocs : Int)) es

/-- The operation with its transfer id raised by `d`; a COMPUTE, which carries
no allocated id, is left as it is. -/
def shift_tid (d : Int) (op : Operation) : Operation :=
  if op.type = OpType.COMPUTE then op else { op with transfer_id := op.transfer_id + d }

/-- The operations tile `i` has in `st1` beyond those it has in `st`. -/
def appended (st st1 : GenState) (i : Nat) : List Operation :=
  ((queues_of st1.traces).getD i []).drop ((queues_of st.traces).getD i []).length

/-! ## Where the sizes come from -/

end ChipletTrace

namespace ChipletTrace

/-! ## Notions for the order of ids and for the pairing of the two passes -/

/-- The method `TraceGenerator::generate` together with the generator object
it leaves behind: the trace and the lookup are locals of the call, the member
`next_transfer_id_` keeps the value pass 2 has advanced it to (nothing in
`generate` sets it back), and the other members are not written. -/
def TraceGenerator.generate_run (env : Env) (g : TraceGenerator) :
    Option (FullTrace × TraceGenerator) :=
  let init := mesh_init env g.xlen_ g.ylen_
  match collect_computations env init.2 g.root_ 0 init.1 with
  | none => none
  | some traces =>
    match collect_transfers env init.2 g.root_ 0
        { traces := traces, next_transfer_id_ := g.next_transfer_id_ } with
    | none => none
    | some st =>
      some ({ mesh_x := g.xlen_, mesh_y := g.ylen_, network_name := "DNN",
              total_batch := env.tot_batch, chiplet_traces := st.traces },
            { g with next_transfer_id_ := st.next_transfer_id_ })

/-- The tasks among `ts` that go to tile `i` of `n`, in order. -/
def tile_tasks (n i : Nat) (ts : List (Nat × ComputationTask)) : List ComputationTask :=
  (ts.filter fun p => decide (p.1 = i ∧ i < n)).map Prod.snd

/-- The collaborators of the demo with a total batch of 8. -/
def demo_env8 : Env :=
  { demo_env with tot_batch := 8 }

/-- The two demo leaves under a grouping node with two batch groups. -/
def demo_tree2 : SchNode :=
  SchNode.Cut 2 [SchNode.L demo_producer, SchNode.L demo_consumer]

/-- The operation `b` is a counterpart of `op`: opposite direction, same
transfer id. -/
def counterpart (op b : Operation) : Prop :=
  b.transfer_id = op.transfer_id ∧
    ((op.type = OpType.SEND ∧ b.type = OpType.RECV) ∨
      (op.type = OpType.RECV ∧ b.type = OpType.SEND))

/-- The transfer ids of the non-COMPUTE operations of a queue, front to back. -/
def queue_ids (l : List Operation) : List Int :=
  (l.filter fun o => decide (o.type ≠ OpType.COMPUTE)).map Operation.transfer_id

/-- The invariant of pass 2 about the order of transfer ids: along each queue
they increase, and the RECEIVEs carry every id allocated so far. -/
structure IdInv (n : Nat) (st : GenState) : Prop where
  inv : st.inv n
  increasing : ∀ i, (queue_ids ((queues_of st.traces).getD i [])).Pairwise (· < ·)
  recv_total :
    ((count_ops (fun o => decide (o.type = OpType.RECV)) (queues_of st.traces) : Nat) : Int) =
      st.next_transfer_id_
  recv_exists : ∀ T : Int, 0 ≤ T → T < st.next_transfer_id_ →
    ∃ i, ∃ r ∈ (queues_of st.traces).getD i [], r.type = OpType.RECV ∧ r.transfer_id = T

/-- The labels of the COMPUTE operations of a queue, front to back. -/
def compute_labels (l : List Operation) : List String :=
  (l.filter fun o => decide (o.type = OpType.COMPUTE)).map Operation.layer_name

/-- The layer names of the tasks of a computation list, in order. -/
def task_labels (l : List ComputationTask) : List String :=
  l.map ComputationTask.layer_name

/-- The computation lists of a trace vector. -/
def comps_of (traces : List SingleChipletTrace) : List (List ComputationTask) :=
  traces.map SingleChipletTrace.computations

/-- The labels of the COMPUTE blocks among `es` that go to tile `i` of `n`. -/
def tile_compute_labels (n i : Nat) (es : List Emit) : List String :=
  es.filterMap fun e =>
    match e with
    | Emit.compute to_idx name => if to_idx = i ∧ i < n then some name else none
    | _ => none

/-- The layer names of the tasks among `ts` that go to tile `i` of `n`. -/
def tile_task_labels (n i : Nat) (ts : List (Nat × ComputationTask)) : List String :=
  ts.filterMap fun p => if p.1 = i ∧ i < n then some p.2.layer_name else none

/-- One step of the scan "is a RECEIVE waiting for a COMPUTE": a RECEIVE sets
the flag, a COMPUTE clears it, a SEND leaves it. -/
def pending_step (flag : Bool) (op : Operation) : Bool :=
  match op.type with
  | OpType.RECV => true
  | OpType.COMPUTE => false
  | OpType.SEND => flag

/-- After the queue `l`, is some RECEIVE still waiting for a COMPUTE? -/
def pending (l : List Operation) : Bool :=
  l.foldl pending_step false

/-- No queue of the state ends with a RECEIVE that still waits for a COMPUTE. -/
def NoPending (st : GenState) : Prop :=
  ∀ j, pending ((queues_of st.traces).getD j []) = false

/-- The block only delivers to tile `to_idx`: a transfer whose RECEIVE goes to
`to_idx` from another tile, or a RECEIVE from external memory on `to_idx`. -/
def Emit.feeds (to_idx : Nat) : Emit → Prop
  | Emit.transfer t f _ _ _ => t = to_idx ∧ f ≠ to_idx
  | Emit.dram t _ _ => t = to_idx
  | Emit.compute _ _ => False

end ChipletTrace

namespace ChipletTrace

theorem getD_pop_front (q : Queues) (i j : Nat) :
    (pop_front q i).getD j [] = if i = j then (q.getD j []).tail else q.getD j [] := by
  unfold pop_front
  rw [List.getD_eq_getElem?_getD, List.getD_eq_getElem?_getD, List.getElem?_modify]
  cases h : q[j]? with
  | none => simp
  | some a => by_cases hij : i = j <;> simp [hij]

theorem length_pop_front (q : Queues) (i : Nat) : (pop_front q i).length = q.length := by
  unfold pop_front
  exact List.length_modify _ _ _

theorem queues_ext {q1 q2 : Queues} (hl : q1.length = q2.length)
    (h : ∀ j, q1.getD j [] = q2.getD j []) : q1 = q2 := by
  apply List.ext_getElem hl
  intro n h1 h2
  have := h n
  rw [List.getD_eq_getElem?_getD, List.getD_eq_getElem?_getD,
    List.getElem?_eq_getElem h1, List.getElem?_eq_getElem h2] at this
  simpa using this

theorem pop_front_comm (q : Queues) (i j : Nat) :
    pop_front (pop_front q i) j = pop_front (pop_front q j) i := by
  apply queues_ext
  · simp [length_pop_front]
  · intro k
    simp only [getD_pop_front]
    by_cases h1 : i = k <;> by_cases h2 : j = k <;> simp [h1, h2]

theorem front_pop_front_ne (q : Queues) {i j : Nat} (h : i ≠ j) :
    front (pop_front q i) j = front q j := by
  unfold front
  rw [getD_pop_front, if_neg h]

theorem front_eq_some {q : Queues} {i : Nat} {op : Operation} (h : front q i = some op) :
    i < q.length ∧ q.getD i [] = op :: (q.getD i []).tail := by
  unfold front at h
  constructor
  · by_contra hlt
    rw [List.getD_eq_getElem?_getD, List.getElem?_eq_none (by omega)] at h
    simp at h
  · cases hq : q.getD i [] with
    | nil => rw [hq] at h; simp at h
    | cons a t => rw [hq] at h; simp at h; simp [h]

end ChipletTrace

namespace ChipletTrace

theorem matches_true_iff (a b : Operation) :
    a.matches b = true ↔
      a.transfer_id = b.transfer_id ∧
        ((a.type = OpType.SEND ∧ b.type = OpType.RECV) ∨
          (a.type = OpType.RECV ∧ b.type = OpType.SEND)) := by
  unfold Operation.matches
  cases ha : a.type <;> cases hb : b.type <;> simp

theorem matches_self (a : Operation) : a.matches a = false := by
  cases h : a.matches a with
  | false => rfl
  | true =>
    rw [matches_true_iff] at h
    rcases h with ⟨_, ⟨h1, h2⟩ | ⟨h1, h2⟩⟩ <;> rw [h1] at h2 <;> cases h2

theorem total_ops_pop_front {q : Queues} {i : Nat} {op : Operation} (h : front q i = some op) :
    total_ops (pop_front q i) + 1 = total_ops q := by
  induction q generalizing i with
  | nil => simp [front] at h
  | cons a t ih =>
    cases i with
    | zero =>
      cases a with
      | nil => simp [front] at h
      | cons x xs => simp [pop_front, total_ops, List.modify]; omega
    | succ n =>
      have h2 : front t n = some op := by simpa [front] using h
      have := ih h2
      simp only [pop_front, total_ops, List.modify_succ_cons, List.map_cons, List.sum_cons]
        at this ⊢
      omega

theorem all_empty_iff_total {q : Queues} : all_empty q = true ↔ total_ops q = 0 := by
  induction q with
  | nil => simp [all_empty, total_ops]
  | cons a t ih =>
    simp only [all_empty, total_ops, List.all_cons, Bool.and_eq_true, List.map_cons,
      List.sum_cons] at ih ⊢
    rw [ih]
    cases a <;> simp

theorem front_none_of_all_empty {q : Queues} (h : all_empty q = true) (i : Nat) :
    front q i = none := by
  cases hf : front q i with
  | none => rfl
  | some op =>
    have := total_ops_pop_front hf
    rw [all_empty_iff_total] at h
    omega

theorem exists_front_of_not_all_empty {q : Queues} (h : all_empty q = false) :
    ∃ i op, front q i = some op := by
  induction q with
  | nil => simp [all_empty] at h
  | cons a t ih =>
    cases a with
    | cons x xs => exact ⟨0, x, by simp [front]⟩
    | nil =>
      have h2 : all_empty t = false := by simpa [all_empty] using h
      obtain ⟨i, op, hi⟩ := ih h2
      exact ⟨i + 1, op, by simpa [front] using hi⟩

theorem scan_tile_legal {q q1 : Queues} {i : Nat} (h : scan_tile q i = some q1) :
    LegalStep q q1 := by
  unfold scan_tile at h
  cases hf : front q i with
  | none => simp [hf] at h
  | some op =>
    simp only [hf] at h
    by_cases hc : op.type = OpType.COMPUTE
    · simp only [hc, if_true, Option.some.injEq] at h
      subst h
      exact LegalStep.compute hf hc
    · simp only [hc, if_false] at h
      by_cases hn : op.peer_id < 0
      · simp only [hn, if_true, Option.some.injEq] at h
        subst h
        exact LegalStep.external hf hc hn
      · simp only [hn, if_false] at h
        by_cases hr : op.peer_id < (q.length : Int)
        · simp only [hr, if_true] at h
          cases hp : front q op.peer_id.toNat with
          | none => simp [hp] at h
          | some peer_op =>
            simp only [hp] at h
            by_cases hm : op.matches peer_op = true
            · simp only [hm, if_true, Option.some.injEq] at h
              subst h
              have hnn : 0 ≤ op.peer_id := by omega
              exact LegalStep.rendezvous hf (Int.toNat_of_nonneg hnn).symm (by omega) hp hm
            · simp [hm] at h
        · simp [hr] at h

theorem scan_loop_some {q q1 : Queues} {l : List Nat} (h : scan_loop q l = some q1) :
    ∃ i ∈ l, scan_tile q i = some q1 := by
  induction l with
  | nil => simp [scan_loop] at h
  | cons a t ih =>
    unfold scan_loop at h
    cases hs : scan_tile q a with
    | some q2 =>
      simp only [hs, Option.some.injEq] at h
      subst h
      exact ⟨a, by simp, hs⟩
    | none =>
      simp only [hs] at h
      obtain ⟨i, hi, hq⟩ := ih h
      exact ⟨i, by simp [hi], hq⟩

theorem scan_loop_none {q : Queues} {l : List Nat} :
    scan_loop q l = none ↔ ∀ i ∈ l, scan_tile q i = none := by
  induction l with
  | nil => simp [scan_loop]
  | cons a t ih =>
    unfold scan_loop
    cases hs : scan_tile q a with
    | some q2 => simp [hs]
    | none => simp [hs, ih]

theorem scan_tile_none_of_ge {q : Queues} {i : Nat} (h : q.length ≤ i) : scan_tile q i = none := by
  unfold scan_tile
  cases hf : front q i with
  | none => rfl
  | some op => exact absurd (front_eq_some hf).1 (by omega)

theorem scan_none {q : Queues} : scan q = none ↔ ∀ i, scan_tile q i = none := by
  unfold scan
  rw [scan_loop_none]
  constructor
  · intro h i
    by_cases hi : i < q.length
    · exact h i (by simpa using hi)
    · exact scan_tile_none_of_ge (by omega)
  · intro h i _
    exact h i

theorem scan_legal {q q1 : Queues} (h : scan q = some q1) : LegalStep q q1 := by
  obtain ⟨i, _, hi⟩ := scan_loop_some h
  exact scan_tile_legal hi

theorem legal_step_total {q q1 : Queues} (h : LegalStep q q1) :
    total_ops q1 + 1 = total_ops q ∨ total_ops q1 + 2 = total_ops q := by
  cases h with
  | compute hf _ => exact Or.inl (total_ops_pop_front hf)
  | external hf _ _ => exact Or.inl (total_ops_pop_front hf)
  | @rendezvous i P op peer_op hf hp hl hfp hm =>
    have hne : i ≠ P := by
      intro hiP
      subst hiP
      rw [hf] at hfp
      cases hfp
      rw [matches_self] at hm
      cases hm
    have h1 := total_ops_pop_front hf
    have h2 : front (pop_front q i) P = some peer_op := by
      rw [front_pop_front_ne q hne]; exact hfp
    have h3 := total_ops_pop_front h2
    right; omega

end ChipletTrace

namespace ChipletTrace

theorem scan_total {q q1 : Queues} (h : scan q = some q1) :
    total_ops q1 + 1 = total_ops q ∨ total_ops q1 + 2 = total_ops q :=
  legal_step_total (scan_legal h)

theorem scan_none_of_all_empty {q : Queues} (h : all_empty q = true) : scan q = none := by
  rw [scan_none]
  intro i
  unfold scan_tile
  rw [front_none_of_all_empty h]

/-- With more fuel than operations the loop returns, and what it returns is
described by the queues it stops at. -/
theorem verify_loop_returns (fuel : Nat) (q : Queues) (h : total_ops q < fuel) :
    ∃ b qf, verify_loop fuel q = some (b, qf) ∧ ScanReach q qf ∧
      (b = true → all_empty qf = true) ∧
      (b = false → all_empty qf = false ∧ scan qf = none) := by
  induction fuel generalizing q with
  | zero => omega
  | succ n ih =>
    unfold verify_loop
    cases he : all_empty q with
    | true => exact ⟨true, q, by simp, ScanReach.refl q, fun _ => he, fun hb => (by cases hb)⟩
    | false =>
      cases hs : scan q with
      | none =>
        exact ⟨false, q, by simp, ScanReach.refl q, fun hb => (by cases hb), fun _ => ⟨he, hs⟩⟩
      | some q1 =>
        have ht := scan_total hs
        obtain ⟨b, qf, h1, h2, h3, h4⟩ := ih q1 (by omega)
        exact ⟨b, qf, by simpa using h1, ScanReach.step he hs h2, h3, h4⟩

theorem scan_reach_final_unique {q qf qg : Queues} (h1 : ScanReach q qf) (h2 : ScanReach q qg)
    (hf : all_empty qf = true ∨ scan qf = none) (hg : all_empty qg = true ∨ scan qg = none) :
    qf = qg := by
  induction h1 with
  | refl q =>
    cases h2 with
    | refl => rfl
    | step he hs _ =>
      rcases hf with hf | hf
      · rw [hf] at he; cases he
      · rw [hf] at hs; cases hs
  | step he hs _ ih =>
    cases h2 with
    | refl =>
      rcases hg with hg | hg
      · rw [hg] at he; cases he
      · rw [hg] at hs; cases hs
    | step he2 hs2 hr2 =>
      rw [hs] at hs2
      cases hs2
      exact ih hr2 hf

theorem verify_loop_sound {fuel : Nat} {q qf : Queues}
    (h : verify_loop fuel q = some (true, qf)) : LegalCompletion q := by
  induction fuel generalizing q with
  | zero => simp [verify_loop] at h
  | succ n ih =>
    unfold verify_loop at h
    cases he : all_empty q with
    | true => exact LegalCompletion.done he
    | false =>
      simp only [he] at h
      cases hs : scan q with
      | none => simp [hs] at h
      | some q1 =>
        simp only [hs] at h
        exact LegalCompletion.step (scan_legal hs) (ih h)

theorem verify_deadlock_free_eq {t : FullTrace} {b : Bool} :
    t.verify_deadlock_free = some b ↔ ∃ qf, t.verify_run = some (b, qf) := by
  unfold FullTrace.verify_deadlock_free
  cases h : t.verify_run with
  | none => simp
  | some r =>
    obtain ⟨b2, qf⟩ := r
    simp

end ChipletTrace

namespace ChipletTrace

/-! ### Steps as sets of popped tiles; independence of disjoint steps -/

theorem front_mem {q : Queues} {i : Nat} {op : Operation} (h : front q i = some op) :
    op ∈ q.getD i [] := by
  rw [(front_eq_some h).2]
  exact List.mem_cons_self _ _

theorem mem_pop_front {q : Queues} {i j : Nat} {a : Operation}
    (h : a ∈ (pop_front q i).getD j []) : a ∈ q.getD j [] := by
  rw [getD_pop_front] at h
  by_cases hij : i = j
  · rw [if_pos hij] at h
    exact List.mem_of_mem_tail h
  · rw [if_neg hij] at h
    exact h

theorem peer_symmetric_pop_front {q : Queues} (h : PeerSymmetric q) (i : Nat) :
    PeerSymmetric (pop_front q i) :=
  fun k j a b ha hb hm => h k j a b (mem_pop_front ha) (mem_pop_front hb) hm

theorem peer_symmetric_step {q q1 : Queues} (h : PeerSymmetric q) (hs : LegalStep q q1) :
    PeerSymmetric q1 := by
  cases hs with
  | compute _ _ => exact peer_symmetric_pop_front h _
  | external _ _ _ => exact peer_symmetric_pop_front h _
  | rendezvous _ _ _ _ _ => exact peer_symmetric_pop_front (peer_symmetric_pop_front h _) _

theorem legal_step_iff {q q1 : Queues} : LegalStep q q1 ↔ ∃ l, StepOn q l ∧ q1 = pops q l := by
  constructor
  · intro h
    cases h with
    | @compute i op hf hc => exact ⟨[i], Or.inl ⟨i, op, rfl, hf, Or.inl hc⟩, rfl⟩
    | @external i op hf hc hn => exact ⟨[i], Or.inl ⟨i, op, rfl, hf, Or.inr hn⟩, rfl⟩
    | @rendezvous i P op peer_op hf hp hl hfp hm =>
      exact ⟨[i, P], Or.inr ⟨i, P, op, peer_op, rfl, hf, hp, hfp, hm⟩, rfl⟩
  · rintro ⟨l, hl, rfl⟩
    rcases hl with ⟨i, op, rfl, hf, hc⟩ | ⟨i, P, op, peer_op, rfl, hf, hp, hfp, hm⟩
    · by_cases hcc : op.type = OpType.COMPUTE
      · exact LegalStep.compute hf hcc
      · exact LegalStep.external hf hcc (hc.resolve_left hcc)
    · exact LegalStep.rendezvous hf hp (front_eq_some hfp).1 hfp hm

theorem front_pops {q : Queues} {l : List Nat} {j : Nat} (h : j ∉ l) :
    front (pops q l) j = front q j := by
  induction l generalizing q with
  | nil => rfl
  | cons a t ih =>
    simp only [List.mem_cons, not_or] at h
    show front (pops (pop_front q a) t) j = front q j
    rw [ih h.2, front_pop_front_ne q (Ne.symm h.1)]

theorem step_on_congr {q q1 : Queues} {l : List Nat} (h : StepOn q l)
    (hf : ∀ j ∈ l, front q1 j = front q j) : StepOn q1 l := by
  rcases h with ⟨i, op, rfl, h1, h2⟩ | ⟨i, P, op, peer_op, rfl, h1, h2, h3, h4⟩
  · exact Or.inl ⟨i, op, rfl, by rw [hf i (by simp)]; exact h1, h2⟩
  · exact Or.inr ⟨i, P, op, peer_op, rfl, by rw [hf i (by simp)]; exact h1, h2,
      by rw [hf P (by simp)]; exact h3, h4⟩

theorem pops_pop_front (q : Queues) (l : List Nat) (i : Nat) :
    pops (pop_front q i) l = pop_front (pops q l) i := by
  induction l generalizing q with
  | nil => rfl
  | cons a t ih =>
    show pops (pop_front (pop_front q i) a) t = pop_front (pops (pop_front q a) t) i
    rw [pop_front_comm q i a, ih]

theorem pops_comm (q : Queues) (l1 l2 : List Nat) :
    pops (pops q l1) l2 = pops (pops q l2) l1 := by
  induction l1 generalizing q with
  | nil => rfl
  | cons a t ih =>
    show pops (pops (pop_front q a) t) l2 = pops (pop_front (pops q l2) a) t
    rw [ih, pops_pop_front]

theorem matches_not_free {a b : Operation} (h : a.matches b = true) :
    a.type ≠ OpType.COMPUTE ∧ b.type ≠ OpType.COMPUTE := by
  rw [matches_true_iff] at h
  rcases h with ⟨_, ⟨h1, h2⟩ | ⟨h1, h2⟩⟩ <;> rw [h1, h2] <;> exact ⟨by decide, by decide⟩

theorem matches_symm {a b : Operation} (h : a.matches b = true) : b.matches a = true := by
  rw [matches_true_iff] at h ⊢
  rcases h with ⟨ht, h1 | h1⟩
  · exact ⟨ht.symm, Or.inr ⟨h1.2, h1.1⟩⟩
  · exact ⟨ht.symm, Or.inl ⟨h1.2, h1.1⟩⟩

/-- Under peer symmetry two enabled steps either give the same queues or
touch disjoint tiles. -/
theorem step_on_same_or_disjoint {q : Queues} (hsym : PeerSymmetric q) {l1 l2 : List Nat}
    (h1 : StepOn q l1) (h2 : StepOn q l2) :
    pops q l1 = pops q l2 ∨ ∀ j ∈ l1, j ∉ l2 := by
  rcases h1 with ⟨i, a, rfl, ha, hfa⟩ | ⟨i, P, a, pa, rfl, ha, hpa, hfP, hma⟩ <;>
  rcases h2 with ⟨j, b, rfl, hb, hfb⟩ | ⟨j, Q, b, pb, rfl, hb, hpb, hfQ, hmb⟩
  · by_cases hij : i = j
    · left; rw [hij]
    · right; simpa using hij
  · right
    have hs := hsym j Q b pb (front_mem hb) (front_mem hfQ) hmb
    have hnf := matches_not_free hmb
    intro k hk
    simp only [List.mem_singleton] at hk
    subst hk
    simp only [List.mem_cons, List.mem_singleton, List.not_mem_nil, or_false, not_or]
    constructor
    · intro hkj
      subst hkj
      rw [ha] at hb; cases hb
      rcases hfa with h | h
      · exact hnf.1 h
      · omega
    · intro hkQ
      subst hkQ
      rw [ha] at hfQ; cases hfQ
      rcases hfa with h | h
      · exact hnf.2 h
      · omega
  · right
    have hs := hsym i P a pa (front_mem ha) (front_mem hfP) hma
    have hnf := matches_not_free hma
    intro k hk
    simp only [List.mem_singleton]
    simp only [List.mem_cons, List.mem_singleton, List.not_mem_nil, or_false] at hk
    rcases hk with hk | hk
    · subst hk
      intro hkj
      subst hkj
      rw [ha] at hb; cases hb
      rcases hfb with h | h
      · exact hnf.1 h
      · omega
    · subst hk
      intro hkj
      subst hkj
      rw [hfP] at hb; cases hb
      rcases hfb with h | h
      · exact hnf.2 h
      · omega
  · have hs1 := hsym i P a pa (front_mem ha) (front_mem hfP) hma
    have hs2 := hsym j Q b pb (front_mem hb) (front_mem hfQ) hmb
    by_cases hij : i = j
    · left
      subst hij
      rw [ha] at hb; cases hb
      have : P = Q := by omega
      rw [this]
    by_cases hiQ : i = Q
    · left
      subst hiQ
      rw [ha] at hfQ; cases hfQ
      have : P = j := by omega
      subst this
      exact pop_front_comm q i P
    by_cases hPj : P = j
    · left
      subst hPj
      rw [hfP] at hb; cases hb
      have : i = Q := by omega
      exact absurd this hiQ
    by_cases hPQ : P = Q
    · left
      subst hPQ
      rw [hfP] at hfQ; cases hfQ
      have : i = j := by omega
      exact absurd this hij
    right
    intro k hk
    simp only [List.mem_cons, List.mem_singleton, List.not_mem_nil, or_false] at hk ⊢
    rcases hk with hk | hk <;> subst hk <;> simp [hij, hiQ, hPj, hPQ]

theorem step_on_pops_disjoint {q : Queues} {l1 l2 : List Nat} (h1 : StepOn q l1)
    (hd : ∀ j ∈ l1, j ∉ l2) : StepOn (pops q l2) l1 :=
  step_on_congr h1 (fun j hj => front_pops (hd j hj))

theorem step_on_nonempty {q : Queues} {l : List Nat} (h : StepOn q l) :
    ∃ i op, front q i = some op := by
  rcases h with ⟨i, op, _, h1, _⟩ | ⟨i, _, op, _, _, h1, _⟩ <;> exact ⟨i, op, h1⟩

/-- Under peer symmetry a legal step never destroys the existence of a legal
completion order. -/
theorem legal_completion_step {q : Queues} (hc : LegalCompletion q) :
    ∀ q1, PeerSymmetric q → LegalStep q q1 → LegalCompletion q1 := by
  induction hc with
  | done he =>
    intro q1 _ hs
    obtain ⟨l, hl, _⟩ := legal_step_iff.mp hs
    obtain ⟨i, op, hf⟩ := step_on_nonempty hl
    rw [front_none_of_all_empty he] at hf
    cases hf
  | @step q q2 hs2 hc2 ih =>
    intro q1 hsym hs1
    obtain ⟨l1, hl1, rfl⟩ := legal_step_iff.mp hs1
    obtain ⟨l2, hl2, rfl⟩ := legal_step_iff.mp hs2
    rcases step_on_same_or_disjoint hsym hl1 hl2 with heq | hd
    · rw [heq]; exact hc2
    · have hd2 : ∀ j ∈ l2, j ∉ l1 := fun j hj hj1 => hd j hj1 hj
      have e1 : StepOn (pops q l2) l1 := step_on_pops_disjoint hl1 hd
      have e2 : StepOn (pops q l1) l2 := step_on_pops_disjoint hl2 hd2
      have c3 : LegalCompletion (pops (pops q l2) l1) :=
        ih _ (peer_symmetric_step hsym hs2) (legal_step_iff.mpr ⟨l1, e1, rfl⟩)
      rw [pops_comm] at c3
      exact LegalCompletion.step (legal_step_iff.mpr ⟨l2, e2, rfl⟩) c3

theorem scan_tile_of_step_on {q : Queues} {l : List Nat} (h : StepOn q l) :
    ∃ i q1, scan_tile q i = some q1 := by
  rcases h with ⟨i, op, _, hf, hc⟩ | ⟨i, P, op, peer_op, _, hf, hp, hfp, hm⟩
  · refine ⟨i, pop_front q i, ?_⟩
    unfold scan_tile
    simp only [hf]
    by_cases hcc : op.type = OpType.COMPUTE
    · simp [hcc]
    · simp [hcc, hc.resolve_left hcc]
  · refine ⟨i, pop_front (pop_front q i) P, ?_⟩
    have hnf := matches_not_free hm
    have hlen := (front_eq_some hfp).1
    unfold scan_tile
    simp only [hf, hnf.1, if_false]
    have h1 : ¬ op.peer_id < 0 := by omega
    have h2 : op.peer_id < (q.length : Int) := by omega
    have h3 : op.peer_id.toNat = P := by omega
    simp only [h1, h2, if_true, if_false, h3, hfp, hm]

/-- Under peer symmetry the greedy loop finds every legal completion order. -/
theorem verify_loop_complete (fuel : Nat) (q : Queues) (hc : LegalCompletion q)
    (hsym : PeerSymmetric q) (hfuel : total_ops q < fuel) :
    ∃ qf, verify_loop fuel q = some (true, qf) := by
  induction fuel generalizing q with
  | zero => omega
  | succ n ih =>
    unfold verify_loop
    cases he : all_empty q with
    | true => exact ⟨q, by simp⟩
    | false =>
      cases hs : scan q with
      | none =>
        exfalso
        cases hc with
        | done he2 => rw [he2] at he; cases he
        | step hs2 _ =>
          obtain ⟨l, hl, _⟩ := legal_step_iff.mp hs2
          obtain ⟨i, q1, hq1⟩ := scan_tile_of_step_on hl
          rw [scan_none.mp hs i] at hq1
          cases hq1
      | some q1 =>
        have hl := scan_legal hs
        have ht := legal_step_total hl
        obtain ⟨qf, hqf⟩ := ih q1 (legal_completion_step hc q1 hsym hl)
          (peer_symmetric_step hsym hl) (by omega)
        exact ⟨qf, by simpa using hqf⟩

end ChipletTrace

namespace ChipletTrace

/-! ### Membership along steps; traces without chip-to-chip traffic -/

theorem mem_of_mem_getD {q : Queues} {i : Nat} {a : Operation} (h : a ∈ q.getD i []) :
    ∃ l ∈ q, a ∈ l := by
  rw [List.getD_eq_getElem?_getD] at h
  cases hq : q[i]? with
  | none => rw [hq] at h; simp at h
  | some l =>
    rw [hq] at h
    exact ⟨l, List.getElem?_mem hq, by simpa using h⟩

theorem mem_getD_of_mem {q : Queues} {l : List Operation} (h : l ∈ q) :
    ∃ i, i < q.length ∧ q.getD i [] = l := by
  obtain ⟨i, hi, hl⟩ := List.getElem_of_mem h
  exact ⟨i, hi, by rw [List.getD_eq_getElem?_getD, List.getElem?_eq_getElem hi, hl]; rfl⟩

theorem legal_step_mem {q q1 : Queues} (h : LegalStep q q1) {j : Nat} {a : Operation}
    (ha : a ∈ q1.getD j []) : a ∈ q.getD j [] := by
  cases h with
  | compute _ _ => exact mem_pop_front ha
  | external _ _ _ => exact mem_pop_front ha
  | rendezvous _ _ _ _ _ => exact mem_pop_front (mem_pop_front ha)

theorem legal_step_length {q q1 : Queues} (h : LegalStep q q1) : q1.length = q.length := by
  cases h with
  | compute _ _ => exact length_pop_front _ _
  | external _ _ _ => exact length_pop_front _ _
  | rendezvous _ _ _ _ _ => rw [length_pop_front, length_pop_front]

theorem external_only_step {q q1 : Queues} (h : external_only q) (hs : LegalStep q q1) :
    external_only q1 := by
  intro l hl op hop
  obtain ⟨i, _, hi⟩ := mem_getD_of_mem hl
  have hmem : op ∈ q.getD i [] := legal_step_mem hs (by rw [hi]; exact hop)
  obtain ⟨l0, hl0, hop0⟩ := mem_of_mem_getD hmem
  exact h l0 hl0 op hop0

theorem external_only_scan {q : Queues} (h : external_only q) (he : all_empty q = false) :
    ∃ q1, scan q = some q1 := by
  cases hs : scan q with
  | some q1 => exact ⟨q1, rfl⟩
  | none =>
    exfalso
    obtain ⟨i, op, hf⟩ := exists_front_of_not_all_empty he
    obtain ⟨l0, hl0, hop0⟩ := mem_of_mem_getD (front_mem hf)
    have hfree : op.type = OpType.COMPUTE ∨ op.peer_id < 0 := by
      rcases h l0 hl0 op hop0 with hc | ⟨_, hp⟩
      · exact Or.inl hc
      · exact Or.inr (by omega)
    obtain ⟨k, q1, hk⟩ := scan_tile_of_step_on (Or.inl ⟨i, op, rfl, hf, hfree⟩)
    rw [scan_none.mp hs k] at hk
    cases hk

theorem external_only_verify_loop (fuel : Nat) (q : Queues) (h : external_only q)
    (hfuel : total_ops q < fuel) : ∃ qf, verify_loop fuel q = some (true, qf) := by
  induction fuel generalizing q with
  | zero => omega
  | succ n ih =>
    unfold verify_loop
    cases he : all_empty q with
    | true => exact ⟨q, by simp⟩
    | false =>
      obtain ⟨q1, hs⟩ := external_only_scan h he
      have hl := scan_legal hs
      have ht := legal_step_total hl
      obtain ⟨qf, hqf⟩ := ih q1 (external_only_step h hl) (by omega)
      exact ⟨qf, by simpa [hs] using hqf⟩

/-! ### Which operations one scan removes -/

theorem removed_at_pop_front {q : Queues} {i j : Nat} (h : removed_at q (pop_front q i) j) :
    j = i := by
  unfold removed_at at h
  rw [getD_pop_front] at h
  by_cases hij : i = j
  · exact hij.symm
  · rw [if_neg hij] at h
    omega

theorem removed_at_of_front {q : Queues} {i : Nat} {op : Operation} (h : front q i = some op) :
    removed_at q (pop_front q i) i := by
  unfold removed_at
  rw [getD_pop_front, if_pos rfl, (front_eq_some h).2]
  simp

theorem removed_at_pop_pop {q : Queues} {i P j : Nat}
    (h : removed_at q (pop_front (pop_front q i) P) j) : j = i ∨ j = P := by
  unfold removed_at at h
  rw [getD_pop_front, getD_pop_front] at h
  by_cases h1 : P = j
  · exact Or.inr h1.symm
  · by_cases h2 : i = j
    · exact Or.inl h2.symm
    · rw [if_neg h1, if_neg h2] at h
      omega

theorem removed_at_pop_pop_of_front {q : Queues} {i P : Nat} {a b : Operation} (hne : i ≠ P)
    (ha : front q i = some a) (hb : front q P = some b) :
    removed_at q (pop_front (pop_front q i) P) i ∧
      removed_at q (pop_front (pop_front q i) P) P := by
  unfold removed_at
  constructor
  · rw [getD_pop_front, if_neg (Ne.symm hne), getD_pop_front, if_pos rfl, (front_eq_some ha).2]
    simp
  · rw [getD_pop_front, if_pos rfl, getD_pop_front, if_neg hne, (front_eq_some hb).2]
    simp

theorem rendezvous_ne {q : Queues} {i P : Nat} {a b : Operation} (ha : front q i = some a)
    (hb : front q P = some b) (hm : a.matches b = true) : i ≠ P := by
  intro h
  subst h
  rw [ha] at hb
  cases hb
  rw [matches_self] at hm
  cases hm

/-- What a legal step removes at tile `j` when the head there is a real-peer
transfer: the head of another tile `k` matches it and goes with it. -/
theorem legal_step_removed {q q1 : Queues} (hs : LegalStep q q1) {j : Nat} {op : Operation}
    (hr : removed_at q q1 j) (hf : front q j = some op) (hc : op.type ≠ OpType.COMPUTE)
    (hp : 0 ≤ op.peer_id) :
    ∃ k kop, front q k = some kop ∧ op.matches kop = true ∧ removed_at q q1 k ∧
      (op.peer_id = (k : Int) ∨ kop.peer_id = (j : Int)) ∧
      (PeerSymmetric q → op.peer_id = (k : Int)) := by
  cases hs with
  | @compute i a ha hca =>
    have := removed_at_pop_front hr
    subst this
    rw [ha] at hf; cases hf
    exact absurd hca hc
  | @external i a ha _ hn =>
    have := removed_at_pop_front hr
    subst this
    rw [ha] at hf; cases hf
    omega
  | @rendezvous i P a b ha hpa hl hb hm =>
    have hne := rendezvous_ne ha hb hm
    have hrem := removed_at_pop_pop_of_front hne ha hb
    rcases removed_at_pop_pop hr with h | h
    · subst h
      rw [ha] at hf; cases hf
      exact ⟨P, b, hb, hm, hrem.2, Or.inl hpa, fun _ => hpa⟩
    · subst h
      rw [hb] at hf; cases hf
      exact ⟨i, a, ha, matches_symm hm, hrem.1, Or.inr hpa,
        fun hsym => (hsym i j a op (front_mem ha) (front_mem hb) hm).2⟩

end ChipletTrace

namespace ChipletTrace

/-! ### Appending at the back of a queue -/

theorem map_modify_comm {α β : Type} (g : α → β) (f : α → α) (f2 : β → β)
    (h : ∀ a, g (f a) = f2 (g a)) (i : Nat) (l : List α) :
    (List.modify f i l).map g = List.modify f2 i (l.map g) := by
  induction l generalizing i with
  | nil => cases i <;> simp [List.modify]
  | cons a t ih =>
    cases i with
    | zero => simp [h]
    | succ n => simp [List.modify_succ_cons, ih]

theorem map_modify_same {α β : Type} (g : α → β) (f : α → α)
    (h : ∀ a, g (f a) = g a) (i : Nat) (l : List α) :
    (List.modify f i l).map g = l.map g := by
  induction l generalizing i with
  | nil => cases i <;> simp [List.modify]
  | cons a t ih =>
    cases i with
    | zero => simp [h]
    | succ n => simp [List.modify_succ_cons, ih]

theorem queues_of_push_operation (traces : List SingleChipletTrace) (i : Nat) (op : Operation) :
    queues_of (push_operation traces i op) = push_back (queues_of traces) i op := by
  unfold queues_of push_operation push_back
  exact map_modify_comm SingleChipletTrace.operations _ (fun l => l ++ [op]) (fun _ => rfl) i traces

theorem queues_of_push_computation (traces : List SingleChipletTrace) (i : Nat)
    (task : ComputationTask) :
    queues_of (push_computation traces i task) = queues_of traces := by
  unfold queues_of push_computation
  exact map_modify_same SingleChipletTrace.operations
    (fun ct => { ct with computations := ct.computations ++ [task] }) (fun _ => rfl) i traces

theorem length_push_back (q : Queues) (i : Nat) (op : Operation) :
    (push_back q i op).length = q.length := by
  unfold push_back
  exact List.length_modify _ _ _

theorem getD_push_back (q : Queues) (i j : Nat) (op : Operation) :
    (push_back q i op).getD j [] =
      if i = j ∧ j < q.length then q.getD j [] ++ [op] else q.getD j [] := by
  unfold push_back
  rw [List.getD_eq_getElem?_getD, List.getD_eq_getElem?_getD, List.getElem?_modify]
  by_cases hj : j < q.length
  · rw [List.getElem?_eq_getElem hj]
    by_cases hij : i = j <;> simp [hij, hj]
  · rw [List.getElem?_eq_none (by omega)]
    simp [hj]

theorem mem_push_back {q : Queues} {i j : Nat} {op a : Operation} :
    a ∈ (push_back q i op).getD j [] ↔
      a ∈ q.getD j [] ∨ (j = i ∧ i < q.length ∧ a = op) := by
  rw [getD_push_back]
  by_cases h : i = j ∧ j < q.length
  · rw [if_pos h]
    obtain ⟨rfl, hj⟩ := h
    simp [hj]
  · rw [if_neg h]
    constructor
    · exact Or.inl
    · rintro (h1 | ⟨h1, h2, _⟩)
      · exact h1
      · exact absurd ⟨h1.symm, h1 ▸ h2⟩ h

theorem total_ops_push_back {q : Queues} {i : Nat} (op : Operation) (h : i < q.length) :
    total_ops (push_back q i op) = total_ops q + 1 := by
  induction q generalizing i with
  | nil => simp at h
  | cons a t ih =>
    cases i with
    | zero => simp [push_back, total_ops]; omega
    | succ n =>
      have := ih (i := n) (by simpa using h)
      simp only [push_back, total_ops, List.modify_succ_cons, List.map_cons, List.sum_cons]
        at this ⊢
      omega

theorem count_ops_push_back (p : Operation → Bool) {q : Queues} {i : Nat} (op : Operation)
    (h : i < q.length) :
    count_ops p (push_back q i op) = count_ops p q + (if p op = true then 1 else 0) := by
  induction q generalizing i with
  | nil => simp at h
  | cons a t ih =>
    cases i with
    | zero =>
      simp only [push_back, count_ops, List.modify_zero_cons, List.map_cons, List.sum_cons,
        List.countP_append, List.countP_cons, List.countP_nil]
      omega
    | succ n =>
      have := ih (i := n) (by simpa using h)
      simp only [push_back, count_ops, List.modify_succ_cons, List.map_cons, List.sum_cons]
        at this ⊢
      omega

theorem front_push_back {q : Queues} {j : Nat} {a : Operation} (h : front q j = some a)
    (i : Nat) (op : Operation) : front (push_back q i op) j = some a := by
  unfold front
  rw [getD_push_back]
  have h2 := (front_eq_some h).2
  by_cases hc : i = j ∧ j < q.length
  · rw [if_pos hc, h2]; rfl
  · rw [if_neg hc, h2]; rfl

theorem front_push_back_ne (q : Queues) {i j : Nat} (h : i ≠ j) (op : Operation) :
    front (push_back q i op) j = front q j := by
  unfold front
  rw [getD_push_back, if_neg (fun hc => h hc.1)]

theorem front_push_back_empty {q : Queues} {i : Nat} (h : i < q.length)
    (he : front q i = none) (op : Operation) : front (push_back q i op) i = some op := by
  unfold front at he ⊢
  rw [getD_push_back, if_pos ⟨rfl, h⟩]
  cases hq : q.getD i [] with
  | nil => rfl
  | cons a t => rw [hq] at he; simp at he

theorem pop_front_push_back {q : Queues} {j : Nat} {a : Operation} (h : front q j = some a)
    (i : Nat) (op : Operation) :
    pop_front (push_back q i op) j = push_back (pop_front q j) i op := by
  apply queues_ext
  · simp [length_pop_front, length_push_back]
  · intro k
    rw [getD_pop_front, getD_push_back, getD_push_back, getD_pop_front, length_pop_front]
    have h2 := (front_eq_some h).2
    by_cases hjk : j = k
    · subst hjk
      by_cases hc : i = j ∧ j < q.length
      · rw [if_pos rfl, if_pos hc, if_pos hc, if_pos rfl, h2]; rfl
      · rw [if_pos rfl, if_neg hc, if_neg hc, if_pos rfl]
    · by_cases hc : i = k ∧ k < q.length
      · rw [if_neg hjk, if_pos hc, if_pos hc, if_neg hjk]
      · rw [if_neg hjk, if_neg hc, if_neg hc, if_neg hjk]

theorem push_back_comm (q : Queues) (i j : Nat) (a b : Operation) (h : i ≠ j) :
    push_back (push_back q i a) j b = push_back (push_back q j b) i a := by
  apply queues_ext
  · simp [length_push_back]
  · intro k
    simp only [getD_push_back, length_push_back]
    by_cases h1 : i = k <;> by_cases h2 : j = k <;> by_cases h3 : k < q.length <;>
      simp [h1, h2, h3]
    omega

/-! ### Legal steps survive appending at the back -/

theorem step_on_push_back {q : Queues} {l : List Nat} (h : StepOn q l) (i : Nat)
    (op : Operation) : StepOn (push_back q i op) l := by
  rcases h with ⟨k, a, rfl, h1, h2⟩ | ⟨k, P, a, b, rfl, h1, h2, h3, h4⟩
  · exact Or.inl ⟨k, a, rfl, front_push_back h1 i op, h2⟩
  · exact Or.inr ⟨k, P, a, b, rfl, front_push_back h1 i op, h2, front_push_back h3 i op, h4⟩

theorem pops_push_back {q : Queues} {l : List Nat} (h : StepOn q l) (i : Nat) (op : Operation) :
    pops (push_back q i op) l = push_back (pops q l) i op := by
  rcases h with ⟨k, a, rfl, h1, _⟩ | ⟨k, P, a, b, rfl, h1, _, h3, h4⟩
  · exact pop_front_push_back h1 i op
  · have hne := rendezvous_ne h1 h3 h4
    show pop_front (pop_front (push_back q i op) k) P = push_back (pop_front (pop_front q k) P) i op
    rw [pop_front_push_back h1, pop_front_push_back (by rw [front_pop_front_ne q hne]; exact h3)]

theorem legal_step_push_back {q q1 : Queues} (h : LegalStep q q1) (i : Nat) (op : Operation) :
    LegalStep (push_back q i op) (push_back q1 i op) := by
  obtain ⟨l, hl, rfl⟩ := legal_step_iff.mp h
  exact legal_step_iff.mpr ⟨l, step_on_push_back hl i op, (pops_push_back hl i op).symm⟩

/-- Appending one operation that needs no partner keeps a legal completion order. -/
theorem legal_completion_push_free {q : Queues} (hc : LegalCompletion q) {i : Nat}
    (hi : i < q.length) {op : Operation} (hop : op.type = OpType.COMPUTE ∨ op.peer_id < 0) :
    LegalCompletion (push_back q i op) := by
  induction hc with
  | @done q he =>
    have hf : front (push_back q i op) i = some op :=
      front_push_back_empty hi (front_none_of_all_empty he i) op
    refine LegalCompletion.step (legal_step_iff.mpr ⟨[i], Or.inl ⟨i, op, rfl, hf, hop⟩, rfl⟩) ?_
    apply LegalCompletion.done
    rw [all_empty_iff_total] at he ⊢
    have h1 := total_ops_pop_front hf
    have h2 := total_ops_push_back op hi
    show total_ops (pop_front (push_back q i op) i) = 0
    omega
  | @step q q1 hs _ ih =>
    have hl := legal_step_length hs
    exact LegalCompletion.step (legal_step_push_back hs i op) (ih (by omega))

/-- Appending a RECEIVE at tile `d` and the matching SEND at tile `s` keeps a
legal completion order. -/
theorem legal_completion_push_pair {q : Queues} (hc : LegalCompletion q) {d s : Nat}
    (hd : d < q.length) (hs : s < q.length) (hne : s ≠ d) {r o : Operation}
    (hr : r.peer_id = (s : Int)) (hm : r.matches o = true) :
    LegalCompletion (push_back (push_back q d r) s o) := by
  induction hc with
  | @done q he =>
    have hfd : front (push_back (push_back q d r) s o) d = some r := by
      rw [front_push_back_ne _ hne]
      exact front_push_back_empty hd (front_none_of_all_empty he d) r
    have hfs : front (push_back (push_back q d r) s o) s = some o := by
      apply front_push_back_empty (by rw [length_push_back]; exact hs)
      rw [front_push_back_ne _ (Ne.symm hne)]
      exact front_none_of_all_empty he s
    refine LegalCompletion.step
      (LegalStep.rendezvous hfd hr (by simp [length_push_back, hs]) hfs hm) ?_
    apply LegalCompletion.done
    rw [all_empty_iff_total] at he ⊢
    have h1 := total_ops_pop_front hfd
    have h2 : front (pop_front (push_back (push_back q d r) s o) d) s = some o := by
      rw [front_pop_front_ne _ (Ne.symm hne)]; exact hfs
    have h3 := total_ops_pop_front h2
    have h4 := total_ops_push_back r hd
    have h5 := total_ops_push_back (q := push_back q d r) o (by rw [length_push_back]; exact hs)
    omega
  | @step q q1 hst _ ih =>
    have hl := legal_step_length hst
    exact LegalCompletion.step
      (legal_step_push_back (legal_step_push_back hst d r) s o) (ih (by omega) (by omega))

end ChipletTrace

namespace ChipletTrace

/-! ### Counting operations -/

theorem count_ops_eq_zero {p : Operation → Bool} {q : Queues}
    (h : ∀ i, ∀ op ∈ q.getD i [], p op = false) : count_ops p q = 0 := by
  induction q with
  | nil => rfl
  | cons a t ih =>
    have h0 : List.countP p a = 0 := by
      rw [List.countP_eq_zero]
      intro op hop
      have := h 0 op (by simpa using hop)
      simp [this]
    have ht : count_ops p t = 0 := ih (fun i op hop => h (i + 1) op (by simpa using hop))
    simp only [count_ops, List.map_cons, List.sum_cons] at ht ⊢
    omega

theorem count_ops_pos {p : Operation → Bool} {q : Queues} {i : Nat} {op : Operation}
    (hm : op ∈ q.getD i []) (hp : p op = true) : 1 ≤ count_ops p q := by
  induction q generalizing i with
  | nil => simp at hm
  | cons a t ih =>
    simp only [count_ops, List.map_cons, List.sum_cons]
    cases i with
    | zero =>
      have : 0 < List.countP p a := List.countP_pos_iff.mpr ⟨op, by simpa using hm, hp⟩
      omega
    | succ n =>
      have := ih (i := n) (by simpa using hm)
      simp only [count_ops] at this
      omega

theorem mem_push_pair {q : Queues} {d s i : Nat} {r o a : Operation}
    (h : a ∈ (push_back (push_back q d r) s o).getD i []) :
    a ∈ q.getD i [] ∨ (i = d ∧ a = r) ∨ (i = s ∧ a = o) := by
  rcases mem_push_back.mp h with h1 | ⟨h1, _, h3⟩
  · rcases mem_push_back.mp h1 with h2 | ⟨h2, _, h4⟩
    · exact Or.inl h2
    · exact Or.inr (Or.inl ⟨h2, h4⟩)
  · exact Or.inr (Or.inr ⟨h1, h3⟩)

theorem mem_push_pair_old {q : Queues} {d s i : Nat} {r o a : Operation}
    (h : a ∈ q.getD i []) : a ∈ (push_back (push_back q d r) s o).getD i [] :=
  mem_push_back.mpr (Or.inl (mem_push_back.mpr (Or.inl h)))

theorem mem_push_pair_recv {q : Queues} {d s : Nat} (r o : Operation) (hd : d < q.length) :
    r ∈ (push_back (push_back q d r) s o).getD d [] :=
  mem_push_back.mpr (Or.inl (mem_push_back.mpr (Or.inr ⟨rfl, hd, rfl⟩)))

theorem mem_push_pair_send {q : Queues} {d s : Nat} (r o : Operation) (hs : s < q.length) :
    o ∈ (push_back (push_back q d r) s o).getD s [] :=
  mem_push_back.mpr (Or.inr ⟨rfl, by rw [length_push_back]; exact hs, rfl⟩)

theorem count_ops_push_pair (p : Operation → Bool) {q : Queues} {d s : Nat} (r o : Operation)
    (hd : d < q.length) (hs : s < q.length) :
    count_ops p (push_back (push_back q d r) s o) =
      count_ops p q + (if p r = true then 1 else 0) + (if p o = true then 1 else 0) := by
  rw [count_ops_push_back p o (by rw [length_push_back]; exact hs), count_ops_push_back p r hd]

/-! ### The three emitting blocks keep the invariant -/

theorem gen_inv_push_compute {n : Nat} {q : Queues} {next : Int} (h : GenInv n q next)
    {i : Nat} (hi : i < n) (name : String) :
    GenInv n (push_back q i
      { type := OpType.COMPUTE, peer_id := -2, layer_name := name, data_size := 0,
        transfer_id := -1 }) next := by
  have hlen := h.len
  have hiq : i < q.length := by omega
  refine
    { len := by rw [length_push_back]; exact hlen
      next_nonneg := h.next_nonneg
      fresh := ?_, compute_shape := ?_, sym := ?_
      completion := legal_completion_push_free h.completion hiq (Or.inl rfl)
      uniq_recv := ?_, uniq_send := ?_, send_paired := ?_, recv_paired := ?_, recv_dram := ?_ }
  · intro k op hop hc
    rcases mem_push_back.mp hop with h1 | ⟨_, _, h3⟩
    · exact h.fresh k op h1 hc
    · subst h3; exact absurd rfl hc
  · intro k op hop hc
    rcases mem_push_back.mp hop with h1 | ⟨_, _, h3⟩
    · exact h.compute_shape k op h1 hc
    · subst h3; exact ⟨rfl, rfl, rfl⟩
  · intro k j a b ha hb hm
    have hnf := matches_not_free hm
    rcases mem_push_back.mp ha with h1 | ⟨_, _, h3⟩
    · rcases mem_push_back.mp hb with h2 | ⟨_, _, h4⟩
      · exact h.sym k j a b h1 h2 hm
      · subst h4; exact absurd rfl hnf.2
    · subst h3; exact absurd rfl hnf.1
  · intro T
    rw [count_ops_push_back _ _ hiq]
    simpa using h.uniq_recv T
  · intro T
    rw [count_ops_push_back _ _ hiq]
    simpa using h.uniq_send T
  · intro s op hop hs
    rcases mem_push_back.mp hop with h1 | ⟨_, _, h3⟩
    · obtain ⟨d, e1, e2, e3, r, hr, e4⟩ := h.send_paired s op h1 hs
      exact ⟨d, e1, e2, e3, r, mem_push_back.mpr (Or.inl hr), e4⟩
    · subst h3; cases hs
  · intro d r hr ht hp
    rcases mem_push_back.mp hr with h1 | ⟨_, _, h3⟩
    · obtain ⟨s, e1, e2, e3, op, hop, e4⟩ := h.recv_paired d r h1 ht hp
      exact ⟨s, e1, e2, e3, op, mem_push_back.mpr (Or.inl hop), e4⟩
    · subst h3; cases ht
  · intro d r hr ht hp
    rcases mem_push_back.mp hr with h1 | ⟨_, _, h3⟩
    · obtain ⟨e1, e2⟩ := h.recv_dram d r h1 ht hp
      refine ⟨e1, ?_⟩
      rw [count_ops_push_back _ _ hiq, e2]
      have := (h.fresh d r h1 (by rw [ht]; decide)).1
      have hne : ¬ (-1 : Int) = r.transfer_id := by omega
      simp [hne]
    · subst h3; cases ht

end ChipletTrace

namespace ChipletTrace

theorem gen_inv_push_dram {n : Nat} {q : Queues} {next : Int} (h : GenInv n q next)
    {i : Nat} (hi : i < n) (name : String) (size : Nat) :
    GenInv n (push_back q i
      { type := OpType.RECV, peer_id := -1, layer_name := name, data_size := size,
        transfer_id := next }) (next + 1) := by
  have hlen := h.len
  have hnn := h.next_nonneg
  have hiq : i < q.length := by omega
  have hzero : ∀ (p : Operation → Bool),
      (∀ op : Operation, p op = true → op.transfer_id = next) → count_ops p q = 0 := by
    intro p hp
    apply count_ops_eq_zero
    intro k op hop
    cases hpo : p op with
    | false => rfl
    | true =>
      exfalso
      have ht := hp op hpo
      by_cases hc : op.type = OpType.COMPUTE
      · have := (h.compute_shape k op hop hc).1
        omega
      · have := (h.fresh k op hop hc).2
        omega
  refine
    { len := by rw [length_push_back]; exact hlen
      next_nonneg := by omega
      fresh := ?_, compute_shape := ?_, sym := ?_
      completion := legal_completion_push_free h.completion hiq (Or.inr (by show (-1 : Int) < 0; omega))
      uniq_recv := ?_, uniq_send := ?_, send_paired := ?_, recv_paired := ?_, recv_dram := ?_ }
  · intro k op hop hc
    rcases mem_push_back.mp hop with h1 | ⟨_, _, h3⟩
    · have := h.fresh k op h1 hc
      exact ⟨this.1, by omega⟩
    · subst h3
      exact ⟨hnn, by show next < next + 1; omega⟩
  · intro k op hop hc
    rcases mem_push_back.mp hop with h1 | ⟨_, _, h3⟩
    · exact h.compute_shape k op h1 hc
    · subst h3; cases hc
  · intro k j a b ha hb hm
    have hnf := matches_not_free hm
    have htid := ((matches_true_iff a b).mp hm).1
    rcases mem_push_back.mp ha with h1 | ⟨_, _, h3⟩
    · rcases mem_push_back.mp hb with h2 | ⟨_, _, h4⟩
      · exact h.sym k j a b h1 h2 hm
      · subst h4
        have := (h.fresh k a h1 hnf.1).2
        have e : a.transfer_id = next := htid
        omega
    · rcases mem_push_back.mp hb with h2 | ⟨_, _, h4⟩
      · subst h3
        have := (h.fresh j b h2 hnf.2).2
        have e : next = b.transfer_id := htid
        omega
      · subst h3; subst h4
        rw [matches_self] at hm; cases hm
  · intro T
    rw [count_ops_push_back _ _ hiq]
    by_cases hT : next = T
    · subst hT
      rw [hzero _ (by intro op hp; simp at hp; exact hp.2)]
      simp
    · have := h.uniq_recv T
      simpa [hT] using this
  · intro T
    rw [count_ops_push_back _ _ hiq]
    simpa using h.uniq_send T
  · intro s op hop hs
    rcases mem_push_back.mp hop with h1 | ⟨_, _, h3⟩
    · obtain ⟨d, e1, e2, e3, r, hr, e4⟩ := h.send_paired s op h1 hs
      exact ⟨d, e1, e2, e3, r, mem_push_back.mpr (Or.inl hr), e4⟩
    · subst h3; cases hs
  · intro d r hr ht hp
    rcases mem_push_back.mp hr with h1 | ⟨_, _, h3⟩
    · obtain ⟨s, e1, e2, e3, op, hop, e4⟩ := h.recv_paired d r h1 ht hp
      exact ⟨s, e1, e2, e3, op, mem_push_back.mpr (Or.inl hop), e4⟩
    · subst h3
      have : ¬ (0 : Int) ≤ -1 := by omega
      exact absurd hp this
  · intro d r hr ht hp
    rcases mem_push_back.mp hr with h1 | ⟨_, _, h3⟩
    · obtain ⟨e1, e2⟩ := h.recv_dram d r h1 ht hp
      refine ⟨e1, ?_⟩
      rw [count_ops_push_back _ _ hiq, e2]
      have := (h.fresh d r h1 (by rw [ht]; decide)).2
      have hne : ¬ next = r.transfer_id := by omega
      simp [hne]
    · subst h3
      refine ⟨rfl, ?_⟩
      rw [count_ops_push_back _ _ hiq, hzero _ (by intro op hp; simpa using hp)]
      simp

theorem gen_inv_push_transfer {n : Nat} {q : Queues} {next : Int} (h : GenInv n q next)
    {d s : Nat} (hd : d < n) (hs : s < n) (hne : s ≠ d) (rname sname : String) (size : Nat) :
    GenInv n
      (push_back
        (push_back q d
          { type := OpType.RECV, peer_id := (s : Int), layer_name := rname, data_size := size,
            transfer_id := next })
        s
        { type := OpType.SEND, peer_id := (d : Int), layer_name := sname, data_size := size,
          transfer_id := next })
      (next + 1) := by
  have hlen := h.len
  have hnn := h.next_nonneg
  have hdq : d < q.length := by omega
  have hsq : s < q.length := by omega
  have hzero : ∀ (p : Operation → Bool),
      (∀ op : Operation, p op = true → op.transfer_id = next) → count_ops p q = 0 := by
    intro p hp
    apply count_ops_eq_zero
    intro k op hop
    cases hpo : p op with
    | false => rfl
    | true =>
      exfalso
      have ht := hp op hpo
      by_cases hc : op.type = OpType.COMPUTE
      · have := (h.compute_shape k op hop hc).1
        omega
      · have := (h.fresh k op hop hc).2
        omega
  refine
    { len := by rw [length_push_back, length_push_back]; exact hlen
      next_nonneg := by omega
      fresh := ?_, compute_shape := ?_, sym := ?_
      completion := legal_completion_push_pair h.completion hdq hsq hne rfl (by
        rw [matches_true_iff]; exact ⟨rfl, Or.inr ⟨rfl, rfl⟩⟩)
      uniq_recv := ?_, uniq_send := ?_, send_paired := ?_, recv_paired := ?_, recv_dram := ?_ }
  · intro k op hop hc
    rcases mem_push_pair hop with h1 | ⟨_, h3⟩ | ⟨_, h3⟩
    · have := h.fresh k op h1 hc
      exact ⟨this.1, by omega⟩
    · subst h3
      exact ⟨hnn, by show next < next + 1; omega⟩
    · subst h3
      exact ⟨hnn, by show next < next + 1; omega⟩
  · intro k op hop hc
    rcases mem_push_pair hop with h1 | ⟨_, h3⟩ | ⟨_, h3⟩
    · exact h.compute_shape k op h1 hc
    · subst h3; cases hc
    · subst h3; cases hc
  · intro k j a b ha hb hm
    have hnf := matches_not_free hm
    have hmm := (matches_true_iff a b).mp hm
    have htid := hmm.1
    rcases mem_push_pair ha with h1 | ⟨hk, h3⟩ | ⟨hk, h3⟩
    · have hlt := (h.fresh k a h1 hnf.1).2
      rcases mem_push_pair hb with h2 | ⟨_, h4⟩ | ⟨_, h4⟩
      · exact h.sym k j a b h1 h2 hm
      · subst h4
        have e : a.transfer_id = next := htid
        omega
      · subst h4
        have e : a.transfer_id = next := htid
        omega
    · rcases mem_push_pair hb with h2 | ⟨hj, h4⟩ | ⟨hj, h4⟩
      · subst h3
        have := (h.fresh j b h2 hnf.2).2
        have e : next = b.transfer_id := htid
        omega
      · subst h3; subst h4
        rw [matches_self] at hm; cases hm
      · subst h3; subst h4; subst hk; subst hj
        exact ⟨rfl, rfl⟩
    · rcases mem_push_pair hb with h2 | ⟨hj, h4⟩ | ⟨hj, h4⟩
      · subst h3
        have := (h.fresh j b h2 hnf.2).2
        have e : next = b.transfer_id := htid
        omega
      · subst h3; subst h4; subst hk; subst hj
        exact ⟨rfl, rfl⟩
      · subst h3; subst h4
        rw [matches_self] at hm; cases hm
  · intro T
    rw [count_ops_push_pair _ _ _ hdq hsq]
    by_cases hT : next = T
    · subst hT
      rw [hzero _ (by intro op hp; simp at hp; exact hp.2)]
      simp
    · have := h.uniq_recv T
      simpa [hT] using this
  · intro T
    rw [count_ops_push_pair _ _ _ hdq hsq]
    by_cases hT : next = T
    · subst hT
      rw [hzero _ (by intro op hp; simp at hp; exact hp.2)]
      simp
    · have := h.uniq_send T
      simpa [hT] using this
  · intro k op hop ht
    rcases mem_push_pair hop with h1 | ⟨_, h3⟩ | ⟨hk, h3⟩
    · obtain ⟨d2, e1, e2, e3, r, hr, e4⟩ := h.send_paired k op h1 ht
      exact ⟨d2, e1, e2, e3, r, mem_push_pair_old hr, e4⟩
    · subst h3; cases ht
    · subst h3; subst hk
      exact ⟨d, rfl, Ne.symm hne, hd, _, mem_push_pair_recv _ _ hdq, rfl, rfl, rfl⟩
  · intro k r hr ht hp
    rcases mem_push_pair hr with h1 | ⟨hk, h3⟩ | ⟨_, h3⟩
    · obtain ⟨s2, e1, e2, e3, op, hop, e4⟩ := h.recv_paired k r h1 ht hp
      exact ⟨s2, e1, e2, e3, op, mem_push_pair_old hop, e4⟩
    · subst h3; subst hk
      exact ⟨s, rfl, hne, hs, _, mem_push_pair_send _ _ hsq, rfl, rfl, rfl⟩
    · subst h3; cases ht
  · intro k r hr ht hp
    rcases mem_push_pair hr with h1 | ⟨_, h3⟩ | ⟨_, h3⟩
    · obtain ⟨e1, e2⟩ := h.recv_dram k r h1 ht hp
      refine ⟨e1, ?_⟩
      rw [count_ops_push_pair _ _ _ hdq hsq, e2]
      have := (h.fresh k r h1 (by rw [ht]; decide)).2
      have hne2 : ¬ next = r.transfer_id := by omega
      simp [hne2]
    · subst h3
      have : ¬ ((s : Int) < 0) := by omega
      exact absurd hp this
    · subst h3; cases ht

end ChipletTrace

namespace ChipletTrace

/-! ### Loops keep what their bodies keep -/

theorem foldl_preserves {α β : Type} {P : β → Prop} {f : β → α → β}
    (h : ∀ b a, P b → P (f b a)) (l : List α) (b : β) (hb : P b) : P (l.foldl f b) := by
  induction l generalizing b with
  | nil => exact hb
  | cons a t ih => exact ih (f b a) (h b a hb)

theorem foldlM_option_preserves {α β : Type} {P : β → Prop} {f : β → α → Option β}
    (h : ∀ b a b1, P b → f b a = some b1 → P b1) (l : List α) (b b1 : β) (hb : P b)
    (he : l.foldlM f b = some b1) : P b1 := by
  induction l generalizing b with
  | nil =>
    simp only [List.foldlM_nil] at he
    cases he
    exact hb
  | cons a t ih =>
    simp only [List.foldlM_cons] at he
    cases hf : f b a with
    | none => rw [hf] at he; cases he
    | some b2 =>
      rw [hf] at he
      exact ih b2 (h b a b2 hb hf) he

theorem foldlM_option_total {α β : Type} {f : β → α → Option β}
    (h : ∀ b a, ∃ b1, f b a = some b1) (l : List α) (b : β) :
    ∃ b1, l.foldlM f b = some b1 := by
  induction l generalizing b with
  | nil => exact ⟨b, rfl⟩
  | cons a t ih =>
    obtain ⟨b2, hb2⟩ := h b a
    obtain ⟨b1, hb1⟩ := ih b2
    exact ⟨b1, by simp only [List.foldlM_cons, hb2]; exact hb1⟩

/-! ### Pass 2 keeps every property its emitting blocks keep -/

theorem direct_body_preserves {n : Nat} {P : GenState → Prop} (hP : EmitClosed n P)
    (env : Env) {m : XyMap} (hm : m.bounded n) (layer_node : Node) (prev_layerno : Nat)
    {to_idx : Nat} (hto : to_idx < n) (st : GenState) (entry : fmap_range × pos_t)
    (h : P st) : P (direct_body env m layer_node prev_layerno to_idx st entry) := by
  unfold direct_body
  dsimp only
  split
  · exact h
  · split
    · exact h
    · rename_i from_idx hf
      split
      · rename_i hc
        exact hP.transfer st to_idx from_idx _ _ _ h hto (hm _ _ hf) hc.1 hc.2
      · exact h

theorem prev_body_preserves {n : Nat} {P : GenState → Prop} (hP : EmitClosed n P)
    (env : Env) {m : XyMap} (hm : m.bounded n) (lnode : LNode) (ofmap_range : fmap_range)
    {to_idx : Nat} (hto : to_idx < n) (st : GenState) (prev_layerno : Nat) (h : P st) :
    P (prev_body env m lnode ofmap_range to_idx st prev_layerno) := by
  unfold prev_body
  split
  · exact h
  · split
    · exact foldl_preserves
        (fun b a hb => direct_body_preserves hP env hm lnode.layer prev_layerno hto b a hb) _ _ h
    · exact hP.dram st to_idx _ _ h hto

theorem transfer_body_preserves {n : Nat} {P : GenState → Prop} (hP : EmitClosed n P)
    (env : Env) {m : XyMap} (hm : m.bounded n) (lnode : LNode) (st : GenState)
    (entry : fmap_range × pos_t) (h : P st) : P (transfer_body env m lnode st entry) := by
  unfold transfer_body
  dsimp only
  split
  · exact h
  · split
    · exact h
    · rename_i to_idx hf
      have hto := hm _ _ hf
      apply hP.compute _ _ _ _ hto
      split
      · exact foldl_preserves
          (fun b a hb => prev_body_preserves hP env hm lnode entry.1 hto b a hb) _ _ h
      · exact hP.dram st to_idx _ _ h hto

mutual
theorem collect_transfers_preserves {n : Nat} {P : GenState → Prop} (hP : EmitClosed n P)
    (env : Env) {m : XyMap} (hm : m.bounded n) :
    ∀ (node : SchNode) (batch_offset : Nat) (st st1 : GenState), P st →
      collect_transfers env m node batch_offset st = some st1 → P st1
  | SchNode.null, _, st, st1, h, he => by
    simp only [collect_transfers, Option.some.injEq] at he
    subst he
    exact h
  | SchNode.L lnode, _, st, st1, h, he => by
    simp only [collect_transfers, Option.some.injEq] at he
    subst he
    exact foldl_preserves (fun b a hb => transfer_body_preserves hP env hm lnode b a hb) _ _ h
  | SchNode.Cut bgrp children, batch_offset, st, st1, h, he => by
    simp only [collect_transfers] at he
    by_cases hb : bgrp = 0
    · simp [hb] at he
    · simp only [hb, if_false] at he
      exact foldlM_option_preserves
        (fun acc b acc1 hacc hf =>
          collect_transfers_children_preserves hP env hm children _ acc acc1 hacc hf)
        _ _ _ h he
theorem collect_transfers_children_preserves {n : Nat} {P : GenState → Prop}
    (hP : EmitClosed n P) (env : Env) {m : XyMap} (hm : m.bounded n) :
    ∀ (children : List SchNode) (batch_offset : Nat) (st st1 : GenState), P st →
      collect_transfers_children env m children batch_offset st = some st1 → P st1
  | [], _, st, st1, h, he => by
    simp only [collect_transfers_children, Option.some.injEq] at he
    subst he
    exact h
  | child :: rest, batch_offset, st, st1, h, he => by
    simp only [collect_transfers_children] at he
    cases hc : collect_transfers env m child batch_offset st with
    | none => rw [hc] at he; cases he
    | some acc =>
      rw [hc] at he
      exact collect_transfers_children_preserves hP env hm rest batch_offset acc st1
        (collect_transfers_preserves hP env hm child batch_offset st acc h hc) he
end

mutual
theorem collect_transfers_total (env : Env) (m : XyMap) :
    ∀ (node : SchNode) (batch_offset : Nat) (st : GenState), node.bgrp_pos = true →
      ∃ st1, collect_transfers env m node batch_offset st = some st1
  | SchNode.null, _, st, _ => ⟨st, by simp only [collect_transfers]⟩
  | SchNode.L lnode, _, st, _ =>
    ⟨lnode.ofm_layout.foldl (transfer_body env m lnode) st, by simp only [collect_transfers]⟩
  | SchNode.Cut bgrp children, batch_offset, st, hp => by
    simp only [SchNode.bgrp_pos, Bool.and_eq_true, decide_eq_true_eq] at hp
    have hb : ¬ bgrp = 0 := by omega
    simp only [collect_transfers, hb, if_false]
    exact foldlM_option_total
      (fun acc b => collect_transfers_children_total env m children _ acc hp.2) _ _
theorem collect_transfers_children_total (env : Env) (m : XyMap) :
    ∀ (children : List SchNode) (batch_offset : Nat) (st : GenState),
      SchNode.bgrp_pos.bgrp_pos_children children = true →
      ∃ st1, collect_transfers_children env m children batch_offset st = some st1
  | [], _, st, _ => ⟨st, by simp only [collect_transfers_children]⟩
  | child :: rest, batch_offset, st, hp => by
    simp only [SchNode.bgrp_pos.bgrp_pos_children, Bool.and_eq_true] at hp
    obtain ⟨acc, hacc⟩ := collect_transfers_total env m child batch_offset st hp.1
    obtain ⟨st1, hst1⟩ := collect_transfers_children_total env m rest batch_offset acc hp.2
    exact ⟨st1, by simp only [collect_transfers_children, hacc]; exact hst1⟩
end

end ChipletTrace

namespace ChipletTrace

theorem emit_closed_inv (n : Nat) : EmitClosed n (GenState.inv n) where
  compute := by
    intro st to_idx name h hto
    unfold GenState.inv emit_compute
    dsimp only
    rw [queues_of_push_operation]
    exact gen_inv_push_compute h hto name
  dram := by
    intro st to_idx name size h hto
    unfold GenState.inv emit_dram
    dsimp only
    rw [queues_of_push_operation]
    exact gen_inv_push_dram h hto name size
  transfer := by
    intro st to_idx from_idx rname sname size h hto hfrom hne _
    unfold GenState.inv emit_transfer
    dsimp only
    rw [queues_of_push_operation, queues_of_push_operation]
    exact gen_inv_push_transfer h hto hfrom hne rname sname size

/-! ### Pass 1 leaves the operation queues alone -/

theorem foldl_preserves_mem {α β : Type} {P : β → Prop} {f : β → α → β} (l : List α)
    (h : ∀ b a, a ∈ l → P b → P (f b a)) (b : β) (hb : P b) : P (l.foldl f b) := by
  induction l generalizing b with
  | nil => exact hb
  | cons a t ih =>
    exact ih (fun b2 a2 ha2 hb2 => h b2 a2 (List.mem_cons_of_mem _ ha2) hb2) (f b a)
      (h b a (List.mem_cons_self _ _) hb)

theorem computation_body_preserves {P : List SingleChipletTrace → Prop}
    (hP : ∀ traces idx task, P traces → P (push_computation traces idx task))
    (env : Env) (m : XyMap) (task : ComputationTask) (batch_offset : Nat)
    (traces : List SingleChipletTrace) (entry : fmap_range × pos_t) (h : P traces) :
    P (computation_body env m task batch_offset traces entry) := by
  unfold computation_body
  dsimp only
  split
  · exact h
  · split
    · exact h
    · exact hP _ _ _ h

mutual
theorem collect_computations_preserves {P : List SingleChipletTrace → Prop}
    (hP : ∀ traces idx task, P traces → P (push_computation traces idx task))
    (env : Env) (m : XyMap) :
    ∀ (node : SchNode) (batch_offset : Nat) (traces traces1 : List SingleChipletTrace),
      P traces → collect_computations env m node batch_offset traces = some traces1 →
      P traces1
  | SchNode.null, _, traces, traces1, h, he => by
    simp only [collect_computations, Option.some.injEq] at he
    subst he
    exact h
  | SchNode.L lnode, _, traces, traces1, h, he => by
    simp only [collect_computations, Option.some.injEq] at he
    subst he
    exact foldl_preserves (fun b a hb => computation_body_preserves hP env m _ _ b a hb) _ _ h
  | SchNode.Cut bgrp children, batch_offset, traces, traces1, h, he => by
    simp only [collect_computations] at he
    by_cases hb : bgrp = 0
    · simp [hb] at he
    · simp only [hb, if_false] at he
      exact foldlM_option_preserves
        (fun acc b acc1 hacc hf =>
          collect_computations_children_preserves hP env m children _ acc acc1 hacc hf)
        _ _ _ h he
theorem collect_computations_children_preserves {P : List SingleChipletTrace → Prop}
    (hP : ∀ traces idx task, P traces → P (push_computation traces idx task))
    (env : Env) (m : XyMap) :
    ∀ (children : List SchNode) (batch_offset : Nat) (traces traces1 : List SingleChipletTrace),
      P traces → collect_computations_children env m children batch_offset traces = some traces1 →
      P traces1
  | [], _, traces, traces1, h, he => by
    simp only [collect_computations_children, Option.some.injEq] at he
    subst he
    exact h
  | child :: rest, batch_offset, traces, traces1, h, he => by
    simp only [collect_computations_children] at he
    cases hc : collect_computations env m child batch_offset traces with
    | none => rw [hc] at he; cases he
    | some acc =>
      rw [hc] at he
      exact collect_computations_children_preserves hP env m rest batch_offset acc traces1
        (collect_computations_preserves hP env m child batch_offset traces acc h hc) he
end

mutual
theorem collect_computations_total (env : Env) (m : XyMap) :
    ∀ (node : SchNode) (batch_offset : Nat) (traces : List SingleChipletTrace),
      node.bgrp_pos = true →
      ∃ traces1, collect_computations env m node batch_offset traces = some traces1
  | SchNode.null, _, traces, _ => ⟨traces, by simp only [collect_computations]⟩
  | SchNode.L lnode, batch_offset, traces, _ =>
    ⟨lnode.ofm_layout.foldl (computation_body env m (base_task lnode.layer) batch_offset) traces,
      by simp only [collect_computations]⟩
  | SchNode.Cut bgrp children, batch_offset, traces, hp => by
    simp only [SchNode.bgrp_pos, Bool.and_eq_true, decide_eq_true_eq] at hp
    have hb : ¬ bgrp = 0 := by omega
    simp only [collect_computations, hb, if_false]
    exact foldlM_option_total
      (fun acc b => collect_computations_children_total env m children _ acc hp.2) _ _
theorem collect_computations_children_total (env : Env) (m : XyMap) :
    ∀ (children : List SchNode) (batch_offset : Nat) (traces : List SingleChipletTrace),
      SchNode.bgrp_pos.bgrp_pos_children children = true →
      ∃ traces1, collect_computations_children env m children batch_offset traces = some traces1
  | [], _, traces, _ => ⟨traces, by simp only [collect_computations_children]⟩
  | child :: rest, batch_offset, traces, hp => by
    simp only [SchNode.bgrp_pos.bgrp_pos_children, Bool.and_eq_true] at hp
    obtain ⟨acc, hacc⟩ := collect_computations_total env m child batch_offset traces hp.1
    obtain ⟨t1, ht1⟩ := collect_computations_children_total env m rest batch_offset acc hp.2
    exact ⟨t1, by simp only [collect_computations_children, hacc]; exact ht1⟩
end

theorem collect_computations_queues (env : Env) (m : XyMap) (node : SchNode)
    (batch_offset : Nat) (traces traces1 : List SingleChipletTrace)
    (he : collect_computations env m node batch_offset traces = some traces1) :
    queues_of traces1 = queues_of traces :=
  collect_computations_preserves (P := fun t => queues_of t = queues_of traces)
    (fun t idx task ht => by
      show queues_of (push_computation t idx task) = queues_of traces
      rw [queues_of_push_computation]; exact ht)
    env m node batch_offset traces traces1 rfl he

/-! ### The mesh loops of `generate` -/

theorem bounded_assign {m : XyMap} {n : Nat} (hm : m.bounded n) (xyid idx : Nat)
    (hidx : idx < n) : (m.assign xyid idx).bounded n := by
  intro k v hf
  unfold XyMap.assign XyMap.find at hf
  by_cases hk : xyid = k
  · simp only [hk, if_true, Option.some.injEq] at hf
    omega
  · simp only [hk, if_false] at hf
    exact hm k v hf

theorem mesh_index_lt {xlen ylen x y : Nat} (hx : x < xlen) (hy : y < ylen) :
    y * xlen + x < xlen * ylen := by
  have h1 : (y + 1) * xlen ≤ ylen * xlen := Nat.mul_le_mul_right xlen hy
  have h2 : (y + 1) * xlen = y * xlen + xlen := by ring
  have h3 : ylen * xlen = xlen * ylen := Nat.mul_comm _ _
  omega

theorem mesh_init_spec (env : Env) (xlen ylen : Nat) :
    queues_of (mesh_init env xlen ylen).1 = List.replicate (xlen * ylen) [] ∧
      (mesh_init env xlen ylen).2.bounded (xlen * ylen) := by
  unfold mesh_init
  apply foldl_preserves_mem
    (P := fun acc : List SingleChipletTrace × XyMap =>
      queues_of acc.1 = List.replicate (xlen * ylen) [] ∧ acc.2.bounded (xlen * ylen))
  · intro acc y hy hacc
    apply foldl_preserves_mem
      (P := fun acc : List SingleChipletTrace × XyMap =>
        queues_of acc.1 = List.replicate (xlen * ylen) [] ∧ acc.2.bounded (xlen * ylen))
    · intro acc2 x hx h2
      unfold mesh_body
      dsimp only
      constructor
      · unfold queues_of
        exact (map_modify_same SingleChipletTrace.operations
          (fun ct => { ct with chiplet_id := ((y * xlen + x : Nat) : Int), pos_x := x, pos_y := y })
          (fun _ => rfl) _ _).trans h2.1
      · exact bounded_assign h2.2 _ _
          (mesh_index_lt (List.mem_range.mp hx) (List.mem_range.mp hy))
    · exact hacc
  · constructor
    · simp [queues_of, SingleChipletTrace.blank]
    · intro k v hf
      simp [XyMap.find] at hf

theorem getD_replicate_nil (n i : Nat) :
    (List.replicate n ([] : List Operation)).getD i [] = [] := by
  rw [List.getD_eq_getElem?_getD]
  by_cases h : i < n
  · rw [List.getElem?_eq_getElem (by simpa using h)]
    simp
  · rw [List.getElem?_eq_none (by simpa using h)]
    rfl

theorem gen_inv_init (n : Nat) : GenInv n (List.replicate n []) 0 := by
  have hmem : ∀ i, ∀ op ∈ (List.replicate n ([] : List Operation)).getD i [], False := by
    intro i op hop
    rw [getD_replicate_nil] at hop
    simp at hop
  have hcount : ∀ p : Operation → Bool, count_ops p (List.replicate n []) = 0 :=
    fun p => count_ops_eq_zero (fun i op hop => (hmem i op hop).elim)
  exact
    { len := by simp
      next_nonneg := le_refl _
      fresh := fun i op hop => (hmem i op hop).elim
      compute_shape := fun i op hop => (hmem i op hop).elim
      sym := fun i _ a _ ha => (hmem i a ha).elim
      completion := LegalCompletion.done (by simp [all_empty])
      uniq_recv := fun T => by rw [hcount]; omega
      uniq_send := fun T => by rw [hcount]; omega
      send_paired := fun i op hop => (hmem i op hop).elim
      recv_paired := fun i op hop => (hmem i op hop).elim
      recv_dram := fun i op hop => (hmem i op hop).elim }

/-- What `generate` returns satisfies the pass-2 invariant. -/
theorem generate_inv (env : Env) (root : SchNode) (xlen ylen : Nat) (t : FullTrace)
    (h : (TraceGenerator.new root xlen ylen).generate env = some t) :
    ∃ next, GenInv (xlen * ylen) t.chip_ops next := by
  unfold TraceGenerator.generate TraceGenerator.new at h
  dsimp only at h
  obtain ⟨hq, hm⟩ := mesh_init_spec env xlen ylen
  cases h1 : collect_computations env (mesh_init env xlen ylen).2 root 0
      (mesh_init env xlen ylen).1 with
  | none => rw [h1] at h; cases h
  | some traces =>
    rw [h1] at h
    dsimp only at h
    have hq1 := collect_computations_queues env _ root 0 _ traces h1
    cases h2 : collect_transfers env (mesh_init env xlen ylen).2 root 0
        { traces := traces, next_transfer_id_ := 0 } with
    | none => rw [h2] at h; cases h
    | some st =>
      rw [h2] at h
      simp only [Option.some.injEq] at h
      subst h
      have h0 : GenState.inv (xlen * ylen) { traces := traces, next_transfer_id_ := 0 } := by
        unfold GenState.inv
        dsimp only
        rw [hq1, hq]
        exact gen_inv_init _
      exact ⟨st.next_transfer_id_,
        collect_transfers_preserves (emit_closed_inv _) env hm root 0 _ st h0 h2⟩

/-- On a tree without zero batch-group counts `generate` returns a trace. -/
theorem generate_total (env : Env) (root : SchNode) (xlen ylen : Nat)
    (hp : root.bgrp_pos = true) :
    ∃ t, (TraceGenerator.new root xlen ylen).generate env = some t := by
  unfold TraceGenerator.generate TraceGenerator.new
  dsimp only
  obtain ⟨traces, h1⟩ := collect_computations_total env (mesh_init env xlen ylen).2 root 0
    (mesh_init env xlen ylen).1 hp
  obtain ⟨st, h2⟩ := collect_transfers_total env (mesh_init env xlen ylen).2 root 0
    { traces := traces, next_transfer_id_ := 0 } hp
  rw [h1]
  dsimp only
  rw [h2]
  exact ⟨_, rfl⟩

end ChipletTrace

namespace ChipletTrace

/-! ### From the invariant to the verdict; fuel does not matter -/

theorem verify_of_inv {n : Nat} {t : FullTrace} {next : Int}
    (h : GenInv n t.chip_ops next) : t.verify_deadlock_free = some true := by
  obtain ⟨qf, hqf⟩ := verify_loop_complete (total_ops t.chip_ops + 1) t.chip_ops h.completion
    h.sym (by omega)
  unfold FullTrace.verify_deadlock_free FullTrace.verify_run
  rw [hqf]
  rfl

theorem verify_loop_fuel (f1 f2 : Nat) (q : Queues) (h1 : total_ops q < f1)
    (h2 : total_ops q < f2) : verify_loop f1 q = verify_loop f2 q := by
  obtain ⟨b1, q1, e1, r1, t1, n1⟩ := verify_loop_returns f1 q h1
  obtain ⟨b2, q2, e2, r2, t2, n2⟩ := verify_loop_returns f2 q h2
  have hfin : ∀ (b : Bool) (qf : Queues), (b = true → all_empty qf = true) →
      (b = false → all_empty qf = false ∧ scan qf = none) →
      all_empty qf = true ∨ scan qf = none := by
    intro b qf ht hn
    cases b with
    | true => exact Or.inl (ht rfl)
    | false => exact Or.inr (hn rfl).2
  have hq : q1 = q2 := scan_reach_final_unique r1 r2 (hfin b1 q1 t1 n1) (hfin b2 q2 t2 n2)
  subst hq
  have hb : b1 = b2 := by
    cases b1 <;> cases b2
    · rfl
    · have := (n1 rfl).1; rw [t2 rfl] at this; cases this
    · have := (n2 rfl).1; rw [t1 rfl] at this; cases this
    · rfl
  rw [e1, e2, hb]

theorem verify_false_iff (t : FullTrace) :
    t.verify_deadlock_free = some false ↔
      ∃ qf, ScanReach t.chip_ops qf ∧ all_empty qf = false ∧ scan qf = none := by
  obtain ⟨b, qf, e, r, ht, hn⟩ :=
    verify_loop_returns (total_ops t.chip_ops + 1) t.chip_ops (by omega)
  have hv : t.verify_deadlock_free = some b := by
    unfold FullTrace.verify_deadlock_free FullTrace.verify_run
    rw [e]; rfl
  rw [hv]
  constructor
  · intro hb
    simp only [Option.some.injEq] at hb
    exact ⟨qf, r, hn hb⟩
  · rintro ⟨qg, rg, hg1, hg2⟩
    cases b with
    | false => rfl
    | true =>
      have := scan_reach_final_unique r rg (Or.inl (ht rfl)) (Or.inr hg2)
      subst this
      rw [ht rfl] at hg1
      cases hg1

end ChipletTrace

namespace ChipletTrace

/-! ### A single leaf without predecessors -/

theorem foldl_skip {α β : Type} {f : β → α → β} {l : List α}
    (h : ∀ e ∈ l, ∀ b, f b e = b) (b : β) : l.foldl f b = b := by
  induction l generalizing b with
  | nil => rfl
  | cons a t ih =>
    rw [List.foldl_cons, h a (List.mem_cons_self _ _) b]
    exact ih (fun e he => h e (List.mem_cons_of_mem _ he)) b

theorem transfer_body_empty (env : Env) (m : XyMap) (lnode : LNode) (st : GenState)
    (entry : fmap_range × pos_t) (h : env.is_empty entry.1 = true) :
    transfer_body env m lnode st entry = st := by
  unfold transfer_body
  dsimp only
  rw [if_pos h]

theorem transfer_body_first_layer (env : Env) (m : XyMap) (lnode : LNode) (st : GenState)
    (entry : fmap_range × pos_t) (to_idx : Nat) (he : env.is_empty entry.1 = false)
    (hf : m.find (env.get_xyid entry.2) = some to_idx) (hprev : lnode.layer.prevs.count = 0) :
    transfer_body env m lnode st entry =
      emit_compute to_idx lnode.layer.name
        (emit_dram to_idx (lnode.layer.name ++ "_ifmap") (env.size entry.1 * 8) st) := by
  unfold transfer_body
  dsimp only
  rw [if_neg (by rw [he]; decide), hf]
  dsimp only
  rw [if_neg (by rw [hprev]; exact fun h => h rfl)]

theorem single_leaf_queues (env : Env) (lnode : LNode) (xlen ylen : Nat)
    (pre post : List (fmap_range × pos_t)) (r : fmap_range) (pos : pos_t)
    (hprev : lnode.layer.prevs.count = 0)
    (hlayout : lnode.ofm_layout = pre ++ (r, pos) :: post)
    (hrest : ∀ e ∈ pre ++ post, env.is_empty e.1 = true)
    (hr : env.is_empty r = false)
    (htile : (mesh_init env xlen ylen).2.find (env.get_xyid pos) = some 0) :
    ∃ t, (TraceGenerator.new (SchNode.L lnode) xlen ylen).generate env = some t ∧
      t.chip_ops =
        push_back
          (push_back (List.replicate (xlen * ylen) []) 0
            { type := OpType.RECV, peer_id := -1, layer_name := lnode.layer.name ++ "_ifmap",
              data_size := env.size r * 8, transfer_id := 0 })
          0
          { type := OpType.COMPUTE, peer_id := -2, layer_name := lnode.layer.name,
            data_size := 0, transfer_id := -1 } := by
  obtain ⟨hq, _⟩ := mesh_init_spec env xlen ylen
  refine ⟨_, rfl, ?_⟩
  have hq1 := collect_computations_queues env (mesh_init env xlen ylen).2 (SchNode.L lnode) 0
    (mesh_init env xlen ylen).1 _ rfl
  have hpre : ∀ e ∈ pre, ∀ b, transfer_body env (mesh_init env xlen ylen).2 lnode b e = b :=
    fun e he b => transfer_body_empty env _ lnode b e (hrest e (List.mem_append_left _ he))
  have hpost : ∀ e ∈ post, ∀ b, transfer_body env (mesh_init env xlen ylen).2 lnode b e = b :=
    fun e he b => transfer_body_empty env _ lnode b e (hrest e (List.mem_append_right _ he))
  show queues_of (List.foldl (transfer_body env (mesh_init env xlen ylen).2 lnode) _
    lnode.ofm_layout).traces = _
  rw [hlayout, List.foldl_append, List.foldl_cons, foldl_skip hpre, foldl_skip hpost,
    transfer_body_first_layer env _ lnode _ (r, pos) 0 hr htile hprev]
  unfold emit_compute emit_dram
  dsimp only
  rw [queues_of_push_operation, queues_of_push_operation]
  rw [hlayout] at hq1
  show push_back (push_back (queues_of (List.foldl
    (computation_body env (mesh_init env xlen ylen).2 (base_task lnode.layer) 0)
    (mesh_init env xlen ylen).1 (pre ++ (r, pos) :: post))) 0 _) 0 _ = _
  rw [hq1, hq]
  rfl

theorem chip_ops_mem {t : FullTrace} {l : List Operation} (h : l ∈ t.chip_ops) :
    ∃ ct ∈ t.chiplet_traces, ct.operations = l := by
  unfold FullTrace.chip_ops at h
  exact List.mem_map.mp h

end ChipletTrace

namespace ChipletTrace

/-! ### The queues the verifier stops at when it reports a deadlock -/

theorem scan_tile_none_blocked {q : Queues} {i : Nat} {op : Operation}
    (hs : scan_tile q i = none) (hf : front q i = some op) :
    op.type ≠ OpType.COMPUTE ∧ 0 ≤ op.peer_id ∧
      ((q.length : Int) ≤ op.peer_id ∨ front q op.peer_id.toNat = none ∨
        ∃ peer_op, front q op.peer_id.toNat = some peer_op ∧ op.matches peer_op = false) := by
  unfold scan_tile at hs
  simp only [hf] at hs
  by_cases hc : op.type = OpType.COMPUTE
  · simp [hc] at hs
  · simp only [hc, if_false] at hs
    by_cases hn : op.peer_id < 0
    · simp [hn] at hs
    · simp only [hn, if_false] at hs
      refine ⟨hc, by omega, ?_⟩
      by_cases hr : op.peer_id < (q.length : Int)
      · simp only [hr, if_true] at hs
        cases hp : front q op.peer_id.toNat with
        | none => exact Or.inr (Or.inl rfl)
        | some peer_op =>
          simp only [hp] at hs
          cases hm : op.matches peer_op with
          | false => exact Or.inr (Or.inr ⟨peer_op, rfl, hm⟩)
          | true => simp [hm] at hs
      · exact Or.inl (by omega)

theorem diagnostic_loop_eq (q : Queues) (l : List Nat)
    (h : ∀ i op, front q i = some op → op.type ≠ OpType.COMPUTE) :
    diagnostic_loop q l = l.filterMap fun i => (front q i).map (blocked_line i) := by
  induction l with
  | nil => rfl
  | cons i rest ih =>
    unfold diagnostic_loop
    cases hf : front q i with
    | none => simp [List.filterMap_cons, hf, ih]
    | some op =>
      have hc := h i op hf
      have hline : diagnostic_line i op = blocked_line i op := by
        unfold diagnostic_line blocked_line
        cases ht : op.type with
        | COMPUTE => exact absurd ht hc
        | RECV => simp [OpType.name]
        | SEND => simp [OpType.name]
      simp [List.filterMap_cons, hf, ih, hline]

end ChipletTrace

namespace ChipletTrace

/-! ### The matching invariant gives peer symmetry -/

theorem mem_positions {q : Queues} {i k : Nat} {a : Operation} :
    (i, k, a) ∈ positions q ↔ ∃ l, q[i]? = some l ∧ l[k]? = some a := by
  unfold positions
  simp only [List.mem_flatMap, List.mem_map, Prod.exists, Prod.mk.injEq]
  constructor
  · rintro ⟨i2, l, hil, k2, a2, hka, rfl, rfl, rfl⟩
    exact ⟨l, List.mk_mem_enum_iff_getElem?.mp hil, List.mk_mem_enum_iff_getElem?.mp hka⟩
  · rintro ⟨l, hl, ha⟩
    exact ⟨i, l, List.mk_mem_enum_iff_getElem?.mpr hl, k, a,
      List.mk_mem_enum_iff_getElem?.mpr ha, rfl, rfl, rfl⟩

theorem positions_of_mem {q : Queues} {i : Nat} {a : Operation} (h : a ∈ q.getD i []) :
    ∃ k, (i, k, a) ∈ positions q := by
  rw [List.getD_eq_getElem?_getD] at h
  cases hq : q[i]? with
  | none => rw [hq] at h; simp at h
  | some l =>
    rw [hq] at h
    have hl : a ∈ l := by simpa using h
    obtain ⟨k, hk⟩ := List.mem_iff_getElem?.mp hl
    exact ⟨k, mem_positions.mpr ⟨l, hq, hk⟩⟩

theorem positions_same_place {q : Queues} {i k : Nat} {a b : Operation}
    (ha : (i, k, a) ∈ positions q) (hb : (i, k, b) ∈ positions q) : a = b := by
  obtain ⟨l1, h1, h2⟩ := mem_positions.mp ha
  obtain ⟨l2, h3, h4⟩ := mem_positions.mp hb
  rw [h1] at h3
  cases h3
  rw [h2] at h4
  cases h4
  rfl

theorem peer_of_matching {q : Queues} (h : MatchingInvariant q) {i j k l : Nat}
    {a b : Operation} (ha : (i, k, a) ∈ positions q) (hb : (j, l, b) ∈ positions q)
    (hm : a.matches b = true) : a.peer_id = (j : Int) := by
  have hnf := matches_not_free hm
  have htid := ((matches_true_iff a b).mp hm).1
  have hself : ¬ (j = i ∧ l = k) := by
    rintro ⟨rfl, rfl⟩
    have := positions_same_place ha hb
    subst this
    rw [matches_self] at hm
    cases hm
  obtain ⟨h1, h2⟩ := h (i, k, a) ha hnf.1
  by_cases hp : 0 ≤ a.peer_id
  · obtain ⟨_, _, r, hr, hrP, _, _, huniq⟩ := h1 hp
    rcases huniq (j, l, b) hb htid.symm with hx | hx
    · exact absurd hx hself
    · have : (j : Int) = (r.1 : Int) := by
        have := hx.1
        simp only at this
        rw [this]
      rw [this]
      exact hrP.symm
  · have hneg : a.peer_id < 0 := by omega
    exact absurd (h2 hneg (j, l, b) hb htid.symm) hself

theorem peer_symmetric_of_matching {q : Queues} (h : MatchingInvariant q) : PeerSymmetric q := by
  intro i j a b ha hb hm
  obtain ⟨k, hk⟩ := positions_of_mem ha
  obtain ⟨l, hl⟩ := positions_of_mem hb
  exact ⟨peer_of_matching h hk hl hm, peer_of_matching h hl hk (matches_symm hm)⟩

/-! ### Sequences of legal steps -/

theorem legal_steps_completion {q qf : Queues} (hs : LegalSteps q qf)
    (hc : LegalCompletion qf) : LegalCompletion q := by
  induction hs with
  | refl q => exact hc
  | step h1 _ ih => exact LegalCompletion.step h1 (ih hc)

theorem legal_completion_steps {q qf : Queues} (hs : LegalSteps q qf)
    (hsym : PeerSymmetric q) (hc : LegalCompletion q) :
    LegalCompletion qf ∧ PeerSymmetric qf := by
  induction hs with
  | refl q => exact ⟨hc, hsym⟩
  | step h1 _ ih =>
    exact ih (peer_symmetric_step hsym h1) (legal_completion_step hc _ hsym h1)

theorem stuck_completion_empty {q : Queues} (hst : Stuck q) (hc : LegalCompletion q) :
    all_empty q = true := by
  cases hc with
  | done he => exact he
  | step h1 _ => exact absurd h1 (hst _)

theorem exists_maximal_steps (n : Nat) (q : Queues) (hn : total_ops q ≤ n) :
    ∃ qf, LegalSteps q qf ∧ Stuck qf := by
  induction n generalizing q with
  | zero =>
    refine ⟨q, LegalSteps.refl q, fun q1 hs => ?_⟩
    have := legal_step_total hs
    omega
  | succ n ih =>
    by_cases hst : Stuck q
    · exact ⟨q, LegalSteps.refl q, hst⟩
    · unfold Stuck at hst
      push_neg at hst
      obtain ⟨q1, hs⟩ := hst
      have := legal_step_total hs
      obtain ⟨qf, h1, h2⟩ := ih q1 (by omega)
      exact ⟨qf, LegalSteps.step hs h1, h2⟩

theorem scan_reach_steps {q qf : Queues} (h : ScanReach q qf) : LegalSteps q qf := by
  induction h with
  | refl q => exact LegalSteps.refl q
  | step _ hs _ ih => exact LegalSteps.step (scan_legal hs) ih

end ChipletTrace

namespace ChipletTrace

/-! ### `first`, `next` and the bit-set iteration -/

theorem scan_from_spec (s : Bitset) (k i : Nat) (h : i + k = s.size) :
    i ≤ s.scan_from k i ∧ s.scan_from k i ≤ s.size ∧
      (s.scan_from k i < s.size → s.contains (s.scan_from k i) = true) ∧
      ∀ j, i ≤ j → j < s.scan_from k i → s.contains j = false := by
  induction k generalizing i with
  | zero =>
    unfold Bitset.scan_from
    refine ⟨by omega, le_refl _, fun hlt => absurd hlt (lt_irrefl _), fun j h1 h2 => ?_⟩
    omega
  | succ k ih =>
    unfold Bitset.scan_from
    by_cases hc : s.contains i = true
    · rw [if_pos hc]
      exact ⟨le_refl _, by omega, fun _ => hc, fun j h1 h2 => by omega⟩
    · rw [if_neg hc]
      obtain ⟨h1, h2, h3, h4⟩ := ih (i + 1) (by omega)
      refine ⟨by omega, h2, h3, fun j hj1 hj2 => ?_⟩
      by_cases hji : j = i
      · subst hji
        simpa using hc
      · exact h4 j (by omega) hj2

theorem contains_lt_size {s : Bitset} {i : Nat} (h : s.contains i = true) : i < s.size := by
  unfold Bitset.contains at h
  unfold Bitset.size
  by_contra hge
  rw [List.getD_eq_getElem?_getD, List.getElem?_eq_none (by omega)] at h
  simp at h

/-- The set indices from `i` on, in ascending order. -/
theorem elems_eq_filter_range' (s : Bitset) :
    s.elems = (List.range' 0 s.size).filter fun i => s.contains i := by
  unfold Bitset.elems
  rw [List.range_eq_range']

theorem filter_range'_skip (s : Bitset) (i r : Nat) (hir : i ≤ r) (hr : r ≤ s.size)
    (h : ∀ j, i ≤ j → j < r → s.contains j = false) :
    (List.range' i (s.size - i)).filter (fun j => s.contains j) =
      (List.range' r (s.size - r)).filter (fun j => s.contains j) := by
  obtain ⟨d, rfl⟩ : ∃ d, r = i + d := ⟨r - i, by omega⟩
  clear hir
  induction d generalizing i with
  | zero => rfl
  | succ d ih =>
    have hsz : s.size - i = (s.size - (i + 1)) + 1 := by omega
    rw [hsz, List.range'_succ, List.filter_cons, h i (le_refl _) (by omega)]
    simp only [Bool.false_eq_true, if_false]
    have := ih (i + 1) (by omega) (fun j h1 h2 => h j (by omega) (by omega))
    rw [this]
    congr 2 <;> omega

theorem iterate_spec (s : Bitset) (n : Nat) :
    ∀ (fuel cur : Nat), s.size - cur ≤ n → s.size - cur < fuel → cur ≤ s.size →
      (cur < s.size → s.contains cur = true) →
      s.iterate fuel cur =
        some ((List.range' cur (s.size - cur)).filter fun j => s.contains j) := by
  induction n with
  | zero =>
    intro fuel cur h1 h2 h3 _
    have hcur : cur = s.size := by omega
    cases fuel with
    | zero => omega
    | succ f =>
      unfold Bitset.iterate
      rw [if_pos hcur, hcur]
      simp
  | succ n ih =>
    intro fuel cur h1 h2 h3 h4
    cases fuel with
    | zero => omega
    | succ f =>
      unfold Bitset.iterate
      by_cases hcur : cur = s.size
      · rw [if_pos hcur, hcur]
        simp
      · rw [if_neg hcur]
        have hlt : cur < s.size := by omega
        obtain ⟨g1, g2, g3, g4⟩ :=
          scan_from_spec s (s.size - (cur + 1)) (cur + 1) (by omega)
        have hnext : s.next cur = s.scan_from (s.size - (cur + 1)) (cur + 1) := rfl
        rw [← hnext] at g1 g2 g3 g4
        rw [ih f (s.next cur) (by omega) (by omega) g2 g3]
        have hsz : s.size - cur = (s.size - (cur + 1)) + 1 := by omega
        rw [hsz, List.range'_succ, List.filter_cons, h4 hlt]
        simp only [if_true, Option.map_some']
        rw [filter_range'_skip s (cur + 1) (s.next cur) g1 g2 g4]

theorem visited_eq_elems (s : Bitset) : s.visited = some s.elems := by
  unfold Bitset.visited
  obtain ⟨_, g2, g3, _⟩ := scan_from_spec s s.size 0 (by omega)
  have hfirst : s.first = s.scan_from s.size 0 := rfl
  rw [← hfirst] at g2 g3
  rw [iterate_spec s (s.size - s.first) (s.size + 1) s.first (le_refl _) (by omega) g2 g3,
    elems_eq_filter_range']
  have hskip := filter_range'_skip s 0 s.first (Nat.zero_le _) g2
    (fun j _ hj => (scan_from_spec s s.size 0 (by omega)).2.2.2 j (Nat.zero_le _) hj)
  rw [← hskip]
  rfl

theorem length_filter_getD (l : List Bool) :
    ((List.range l.length).filter fun i => l.getD i false).length = l.countP fun b => b := by
  induction l with
  | nil => rfl
  | cons a t ih =>
    rw [List.length_cons, List.range_succ_eq_map, List.filter_cons, List.filter_map,
      List.countP_cons]
    have h0 : (a :: t).getD 0 false = a := rfl
    have hcomp : ((fun i => (a :: t).getD i false) ∘ Nat.succ) = fun i => t.getD i false := by
      funext i
      rfl
    cases a with
    | true => simp only [h0, if_true, List.length_cons, List.length_map, hcomp, ih]
    | false =>
      simp only [h0, List.length_map, hcomp, ih]
      simpa using ih

theorem elems_length (s : Bitset) : s.elems.length = s.count :=
  length_filter_getD s

theorem mem_elems {s : Bitset} {i : Nat} : i ∈ s.elems ↔ i < s.size ∧ s.contains i = true := by
  unfold Bitset.elems
  simp [List.mem_filter, List.mem_range]

theorem elems_sorted (s : Bitset) : s.elems.Pairwise (· < ·) :=
  List.Pairwise.sublist (List.filter_sublist _) (List.pairwise_lt_range _)

end ChipletTrace

namespace ChipletTrace

/-! ### Both passes are instances of the tree walker -/

mutual
theorem collect_computations_eq_visit (env : Env) (m : XyMap) :
    ∀ (node : SchNode) (bo : Nat) (traces : List SingleChipletTrace),
      collect_computations env m node bo traces =
        visit env.tot_batch (computations_leaf env m) node bo traces
  | SchNode.null, _, _ => by simp only [collect_computations, visit]
  | SchNode.L lnode, _, _ => by simp only [collect_computations, visit, computations_leaf]
  | SchNode.Cut bgrp children, bo, traces => by
    simp only [collect_computations, visit]
    by_cases hb : bgrp = 0
    · simp only [hb, if_true]
    · simp only [hb, if_false]
      congr 1
      funext acc b
      exact collect_computations_children_eq_visit env m children _ acc
theorem collect_computations_children_eq_visit (env : Env) (m : XyMap) :
    ∀ (children : List SchNode) (bo : Nat) (traces : List SingleChipletTrace),
      collect_computations_children env m children bo traces =
        visit_children env.tot_batch (computations_leaf env m) children bo traces
  | [], _, _ => by simp only [collect_computations_children, visit_children]
  | child :: rest, bo, traces => by
    simp only [collect_computations_children, visit_children]
    rw [collect_computations_eq_visit env m child bo traces]
    cases visit env.tot_batch (computations_leaf env m) child bo traces with
    | none => rfl
    | some acc => exact collect_computations_children_eq_visit env m rest bo acc
end

mutual
theorem collect_transfers_eq_visit (env : Env) (m : XyMap) :
    ∀ (node : SchNode) (bo : Nat) (st : GenState),
      collect_transfers env m node bo st =
        visit env.tot_batch (fun lnode _ s => transfers_leaf env m lnode s) node bo st
  | SchNode.null, _, _ => by simp only [collect_transfers, visit]
  | SchNode.L lnode, _, _ => by simp only [collect_transfers, visit, transfers_leaf]
  | SchNode.Cut bgrp children, bo, st => by
    simp only [collect_transfers, visit]
    by_cases hb : bgrp = 0
    · simp only [hb, if_true]
    · simp only [hb, if_false]
      congr 1
      funext acc b
      exact collect_transfers_children_eq_visit env m children _ acc
theorem collect_transfers_children_eq_visit (env : Env) (m : XyMap) :
    ∀ (children : List SchNode) (bo : Nat) (st : GenState),
      collect_transfers_children env m children bo st =
        visit_children env.tot_batch (fun lnode _ s => transfers_leaf env m lnode s)
          children bo st
  | [], _, _ => by simp only [collect_transfers_children, visit_children]
  | child :: rest, bo, st => by
    simp only [collect_transfers_children, visit_children]
    rw [collect_transfers_eq_visit env m child bo st]
    cases visit env.tot_batch (fun lnode _ s => transfers_leaf env m lnode s) child bo st with
    | none => rfl
    | some acc => exact collect_transfers_children_eq_visit env m rest bo acc
end

/-! ### Two walks that agree at the leaves agree on the tree -/

theorem foldlM_opt_rel {α σ τ : Type} {R : σ → τ → Prop} {f1 : σ → α → Option σ}
    {f2 : τ → α → Option τ} (l : List α)
    (h : ∀ a ∈ l, ∀ s t, R s t → OptRel R (f1 s a) (f2 t a)) (s : σ) (t : τ) (hst : R s t) :
    OptRel R (l.foldlM f1 s) (l.foldlM f2 t) := by
  induction l generalizing s t with
  | nil => exact hst
  | cons a rest ih =>
    simp only [List.foldlM_cons]
    have h1 := h a (List.mem_cons_self _ _) s t hst
    cases hf1 : f1 s a with
    | none =>
      cases hf2 : f2 t a with
      | none => trivial
      | some t1 => rw [hf1, hf2] at h1; exact h1.elim
    | some s1 =>
      cases hf2 : f2 t a with
      | none => rw [hf1, hf2] at h1; exact h1.elim
      | some t1 =>
        rw [hf1, hf2] at h1
        exact ih (fun a2 ha2 => h a2 (List.mem_cons_of_mem _ ha2)) s1 t1 h1

mutual
theorem visit_sim {σ τ : Type} (tot : Nat) (g : LNode → LNode) (B : Nat → Nat → Prop)
    (hB : ∀ a b k, B a b → B (a + k) (b + k)) (R : σ → τ → Prop)
    (leaf1 : LNode → Nat → σ → σ) (leaf2 : LNode → Nat → τ → τ) :
    ∀ (node : SchNode),
      (∀ l ∈ node.leaves, ∀ a b s t, B a b → R s t → R (leaf1 l a s) (leaf2 (g l) b t)) →
      ∀ (a b : Nat) (s : σ) (t : τ), B a b → R s t →
        OptRel R (visit tot leaf1 node a s) (visit tot leaf2 (node.map g) b t)
  | SchNode.null, _, _, _, _, _, _, hst => by
    simp only [visit, SchNode.map]
    exact hst
  | SchNode.L lnode, hleaf, a, b, s, t, hab, hst => by
    simp only [visit, SchNode.map]
    exact hleaf lnode (by simp [SchNode.leaves]) a b s t hab hst
  | SchNode.Cut bgrp children, hleaf, a, b, s, t, hab, hst => by
    simp only [visit, SchNode.map]
    by_cases hb : bgrp = 0
    · simp only [hb, if_true]
      trivial
    · simp only [hb, if_false]
      exact foldlM_opt_rel _
        (fun i _ s1 t1 h1 =>
          visit_children_sim tot g B hB R leaf1 leaf2 children
            (fun l hl => hleaf l (by simpa [SchNode.leaves] using hl))
            (a + i * (tot / bgrp)) (b + i * (tot / bgrp)) s1 t1 (hB a b _ hab) h1)
        s t hst
theorem visit_children_sim {σ τ : Type} (tot : Nat) (g : LNode → LNode)
    (B : Nat → Nat → Prop) (hB : ∀ a b k, B a b → B (a + k) (b + k)) (R : σ → τ → Prop)
    (leaf1 : LNode → Nat → σ → σ) (leaf2 : LNode → Nat → τ → τ) :
    ∀ (children : List SchNode),
      (∀ l ∈ SchNode.leaves_children children, ∀ a b s t, B a b → R s t →
        R (leaf1 l a s) (leaf2 (g l) b t)) →
      ∀ (a b : Nat) (s : σ) (t : τ), B a b → R s t →
        OptRel R (visit_children tot leaf1 children a s)
          (visit_children tot leaf2 (SchNode.map_children g children) b t)
  | [], _, _, _, _, _, _, hst => by
    simp only [visit_children, SchNode.map_children]
    exact hst
  | child :: rest, hleaf, a, b, s, t, hab, hst => by
    simp only [visit_children, SchNode.map_children]
    have h1 := visit_sim tot g B hB R leaf1 leaf2 child
      (fun l hl => hleaf l (by simp [SchNode.leaves_children, hl])) a b s t hab hst
    cases hv1 : visit tot leaf1 child a s with
    | none =>
      cases hv2 : visit tot leaf2 (child.map g) b t with
      | none => trivial
      | some t1 => rw [hv1, hv2] at h1; exact h1.elim
    | some s1 =>
      cases hv2 : visit tot leaf2 (child.map g) b t with
      | none => rw [hv1, hv2] at h1; exact h1.elim
      | some t1 =>
        rw [hv1, hv2] at h1
        exact visit_children_sim tot g B hB R leaf1 leaf2 rest
          (fun l hl => hleaf l (by simp [SchNode.leaves_children, hl])) a b s1 t1 hab h1
end

mutual
theorem map_id_node : ∀ (node : SchNode), node.map (fun l => l) = node
  | SchNode.null => by simp only [SchNode.map]
  | SchNode.L _ => by simp only [SchNode.map]
  | SchNode.Cut bgrp children => by
    simp only [SchNode.map]
    rw [map_id_children children]
theorem map_id_children :
    ∀ (children : List SchNode), SchNode.map_children (fun l => l) children = children
  | [] => by simp only [SchNode.map_children]
  | child :: rest => by
    simp only [SchNode.map_children]
    rw [map_id_node child, map_id_children rest]
end

theorem opt_rel_eq {α : Type} {o1 o2 : Option α} (h : OptRel (fun a b => a = b) o1 o2) :
    o1 = o2 := by
  cases o1 <;> cases o2
  · rfl
  · exact h.elim
  · exact h.elim
  · exact congrArg some h

end ChipletTrace

namespace ChipletTrace

/-! ### Skipped sub-ranges can be removed from the tree -/

theorem foldl_filter_skip {α β : Type} {f : β → α → β} {keep : α → Bool} (l : List α)
    (h : ∀ b x, keep x = false → f b x = b) (b : β) :
    (l.filter keep).foldl f b = l.foldl f b := by
  induction l generalizing b with
  | nil => rfl
  | cons x t ih =>
    cases hk : keep x with
    | true => rw [List.filter_cons_of_pos hk, List.foldl_cons, List.foldl_cons, ih]
    | false =>
      rw [List.filter_cons_of_neg (by simp [hk]), List.foldl_cons, h b x hk, ih]

theorem computation_body_skip (env : Env) (m : XyMap) (task : ComputationTask) (bo : Nat)
    (traces : List SingleChipletTrace) (e : fmap_range × pos_t)
    (h : env.is_empty e.1 = true ∨ m.find (env.get_xyid e.2) = none) :
    computation_body env m task bo traces e = traces := by
  unfold computation_body
  dsimp only
  rcases h with h | h
  · rw [if_pos h]
  · rw [h]
    split <;> rfl

theorem transfer_body_skip (env : Env) (m : XyMap) (lnode : LNode) (st : GenState)
    (e : fmap_range × pos_t)
    (h : env.is_empty e.1 = true ∨ m.find (env.get_xyid e.2) = none) :
    transfer_body env m lnode st e = st := by
  unfold transfer_body
  dsimp only
  rcases h with h | h
  · rw [if_pos h]
  · rw [h]
    split <;> rfl

theorem direct_body_skip (env : Env) (m : XyMap) (layer_node : Node) (p to_idx : Nat)
    (st : GenState) (e : fmap_range × pos_t)
    (h : env.is_empty e.1 = true ∨ m.find (env.get_xyid e.2) = none) :
    direct_body env m layer_node p to_idx st e = st := by
  unfold direct_body
  dsimp only
  rcases h with h | h
  · rw [if_pos h]
  · rw [h]
    split <;> rfl

theorem direct_body_zero_size (env : Env) (m : XyMap) (layer_node : Node) (p to_idx : Nat)
    (st : GenState) (e : fmap_range × pos_t) (h : env.size e.1 = 0) :
    direct_body env m layer_node p to_idx st e = st := by
  unfold direct_body
  dsimp only
  split
  · rfl
  · split
    · rfl
    · rw [if_neg (by rw [h]; simp)]

theorem computations_leaf_prune (env : Env) (m : XyMap) (keep : fmap_range × pos_t → Bool)
    (hkeep : ∀ e, keep e = false →
      env.is_empty e.1 = true ∨ m.find (env.get_xyid e.2) = none)
    (l : LNode) (bo : Nat) (traces : List SingleChipletTrace) :
    computations_leaf env m l bo traces =
      computations_leaf (env.prune keep) m (l.prune keep) bo traces := by
  show _ = (l.ofm_layout.filter keep).foldl
    (computation_body env m (base_task l.layer) bo) traces
  rw [foldl_filter_skip _ (fun b x hx => computation_body_skip env m _ bo b x (hkeep x hx))]
  rfl

theorem prev_body_prune (env : Env) (m : XyMap) (keep : fmap_range × pos_t → Bool)
    (hkeep : ∀ e, keep e = false →
      env.is_empty e.1 = true ∨ m.find (env.get_xyid e.2) = none)
    (l : LNode) (r : fmap_range) (to_idx : Nat) (st : GenState) (p : Nat) :
    prev_body (env.prune keep) m (l.prune keep) r to_idx st p =
      prev_body env m l r to_idx st p := by
  unfold prev_body
  show (match (env.get_lnode_by_id p).map (LNode.prune keep) with
    | none => st
    | some prev_lnode =>
      if l.dirp_set.contains p = true then
        prev_lnode.ofm_layout.foldl (direct_body env m l.layer p to_idx) st
      else emit_dram to_idx (l.layer.name ++ "_ifmap") (env.size r * 8) st) = _
  cases env.get_lnode_by_id p with
  | none => rfl
  | some pl =>
    show (if l.dirp_set.contains p = true then
        (pl.ofm_layout.filter keep).foldl (direct_body env m l.layer p to_idx) st
      else emit_dram to_idx (l.layer.name ++ "_ifmap") (env.size r * 8) st) = _
    rw [foldl_filter_skip _
      (fun b x hx => direct_body_skip env m l.layer p to_idx b x (hkeep x hx))]

theorem transfer_body_prune (env : Env) (m : XyMap) (keep : fmap_range × pos_t → Bool)
    (hkeep : ∀ e, keep e = false →
      env.is_empty e.1 = true ∨ m.find (env.get_xyid e.2) = none)
    (l : LNode) (st : GenState) (e : fmap_range × pos_t) :
    transfer_body (env.prune keep) m (l.prune keep) st e = transfer_body env m l st e := by
  unfold transfer_body
  dsimp only
  have hfun : prev_body (env.prune keep) m (l.prune keep) e.1 =
      prev_body env m l e.1 := by
    funext to_idx s p
    exact prev_body_prune env m keep hkeep l e.1 to_idx s p
  show (if env.is_empty e.1 = true then st
    else match m.find (env.get_xyid e.2) with
      | none => st
      | some to_idx =>
        emit_compute to_idx l.layer.name
          (if l.layer.prevs.count ≠ 0 then
            List.foldl (prev_body (env.prune keep) m (l.prune keep) e.1 to_idx) st
              l.layer.prevs.elems
          else emit_dram to_idx (l.layer.name ++ "_ifmap") (env.size e.1 * 8) st)) = _
  rw [hfun]

theorem transfers_leaf_prune (env : Env) (m : XyMap) (keep : fmap_range × pos_t → Bool)
    (hkeep : ∀ e, keep e = false →
      env.is_empty e.1 = true ∨ m.find (env.get_xyid e.2) = none)
    (l : LNode) (st : GenState) :
    transfers_leaf env m l st = transfers_leaf (env.prune keep) m (l.prune keep) st := by
  have hfun : transfer_body (env.prune keep) m (l.prune keep) = transfer_body env m l := by
    funext s e
    exact transfer_body_prune env m keep hkeep l s e
  show _ = (l.ofm_layout.filter keep).foldl (transfer_body (env.prune keep) m (l.prune keep)) st
  rw [hfun, foldl_filter_skip _ (fun b x hx => transfer_body_skip env m l b x (hkeep x hx))]
  rfl

theorem generate_prune (env : Env) (root : SchNode) (xlen ylen : Nat)
    (keep : fmap_range × pos_t → Bool)
    (hkeep : ∀ e, keep e = false →
      env.is_empty e.1 = true ∨
        (mesh_init env xlen ylen).2.find (env.get_xyid e.2) = none) :
    (TraceGenerator.new root xlen ylen).generate env =
      (TraceGenerator.new (root.map (LNode.prune keep)) xlen ylen).generate (env.prune keep) := by
  have h1 : ∀ traces, collect_computations env (mesh_init env xlen ylen).2 root 0 traces =
      collect_computations (env.prune keep) (mesh_init env xlen ylen).2
        (root.map (LNode.prune keep)) 0 traces := by
    intro traces
    rw [collect_computations_eq_visit, collect_computations_eq_visit]
    exact opt_rel_eq (visit_sim env.tot_batch (LNode.prune keep) (fun a b => a = b)
      (fun a b k h => by rw [h]) (fun a b => a = b) _ _ root
      (fun l _ a b s t hab hst => by
        rw [hab, hst]
        exact computations_leaf_prune env _ keep hkeep l b t)
      0 0 traces traces rfl rfl)
  have h2 : ∀ st, collect_transfers env (mesh_init env xlen ylen).2 root 0 st =
      collect_transfers (env.prune keep) (mesh_init env xlen ylen).2
        (root.map (LNode.prune keep)) 0 st := by
    intro st
    rw [collect_transfers_eq_visit, collect_transfers_eq_visit]
    exact opt_rel_eq (visit_sim env.tot_batch (LNode.prune keep) (fun a b => a = b)
      (fun a b k h => by rw [h]) (fun a b => a = b) _ _ root
      (fun l _ a b s t hab hst => by
        rw [hst]
        exact transfers_leaf_prune env _ keep hkeep l t)
      0 0 st st rfl rfl)
  unfold TraceGenerator.generate TraceGenerator.new
  dsimp only
  show _ = (match collect_computations (env.prune keep) (mesh_init env xlen ylen).2
      (root.map (LNode.prune keep)) 0 (mesh_init env xlen ylen).1 with
    | none => none
    | some traces =>
      match collect_transfers (env.prune keep) (mesh_init env xlen ylen).2
          (root.map (LNode.prune keep)) 0 { traces := traces, next_transfer_id_ := 0 } with
      | none => none
      | some st =>
        some { mesh_x := xlen, mesh_y := ylen, network_name := "DNN",
               total_batch := env.tot_batch, chiplet_traces := st.traces })
  rw [← h1]
  cases collect_computations env (mesh_init env xlen ylen).2 root 0
      (mesh_init env xlen ylen).1 with
  | none => rfl
  | some traces =>
    dsimp only
    rw [← h2]

end ChipletTrace

namespace ChipletTrace

/-! ### The mesh loops fill every entry of the trace vector -/

theorem foldl_range_inv {β : Type} (P : Nat → β → Prop) (f : β → Nat → β) (n : Nat)
    (h : ∀ i, i < n → ∀ b, P i b → P (i + 1) (f b i)) (b0 : β) (h0 : P 0 b0) :
    P n ((List.range n).foldl f b0) := by
  induction n with
  | zero => exact h0
  | succ n ih =>
    rw [List.range_succ, List.foldl_append, List.foldl_cons, List.foldl_nil]
    exact h n (Nat.lt_succ_self n) _ (ih (fun i hi b hb => h i (Nat.lt_succ_of_lt hi) b hb))

theorem mesh_body_filled (env : Env) {xlen y x : Nat} (hx : x < xlen)
    (acc : List SingleChipletTrace × XyMap) (h : mesh_filled xlen (y * xlen + x) acc.1) :
    mesh_filled xlen (y * xlen + (x + 1)) (mesh_body env xlen y acc x).1 := by
  intro i hi ct hct
  unfold mesh_body at hct
  dsimp only at hct
  rw [List.getElem?_modify] at hct
  cases hget : acc.1[i]? with
  | none => rw [hget] at hct; simp at hct
  | some ct0 =>
    rw [hget] at hct
    simp only [Option.map_eq_map, Option.map_some', Option.some.injEq] at hct
    by_cases hik : y * xlen + x = i
    · rw [if_pos hik] at hct
      subst hct
      subst hik
      refine ⟨rfl, ?_, ?_⟩
      · show x = (y * xlen + x) % xlen
        rw [Nat.add_comm, Nat.add_mul_mod_self_right, Nat.mod_eq_of_lt hx]
      · show y = (y * xlen + x) / xlen
        rw [Nat.add_comm, Nat.add_mul_div_right _ _ (by omega), Nat.div_eq_of_lt hx]
        omega
    · rw [if_neg hik] at hct
      subst hct
      exact h i (by omega) ct0 hget

theorem mesh_body_length (env : Env) (xlen y x : Nat) (acc : List SingleChipletTrace × XyMap) :
    (mesh_body env xlen y acc x).1.length = acc.1.length := by
  unfold mesh_body
  dsimp only
  exact List.length_modify _ _ _

theorem mesh_init_filled (env : Env) (xlen ylen : Nat) :
    (mesh_init env xlen ylen).1.length = xlen * ylen ∧
      mesh_filled xlen (xlen * ylen) (mesh_init env xlen ylen).1 := by
  unfold mesh_init
  have hrow : ∀ y, y < ylen → ∀ acc : List SingleChipletTrace × XyMap,
      (acc.1.length = xlen * ylen ∧ mesh_filled xlen (y * xlen) acc.1) →
      (((List.range xlen).foldl (mesh_body env xlen y) acc).1.length = xlen * ylen ∧
        mesh_filled xlen ((y + 1) * xlen) ((List.range xlen).foldl (mesh_body env xlen y) acc).1) := by
    intro y _ acc hacc
    have := foldl_range_inv
      (fun x (a : List SingleChipletTrace × XyMap) =>
        a.1.length = xlen * ylen ∧ mesh_filled xlen (y * xlen + x) a.1)
      (mesh_body env xlen y) xlen
      (fun x hx a ha => ⟨by rw [mesh_body_length]; exact ha.1, mesh_body_filled env hx a ha.2⟩)
      acc hacc
    have he : (y + 1) * xlen = y * xlen + xlen := by ring
    rw [he]
    exact this
  have := foldl_range_inv
    (fun y (a : List SingleChipletTrace × XyMap) =>
      a.1.length = xlen * ylen ∧ mesh_filled xlen (y * xlen) a.1)
    (fun acc y => (List.range xlen).foldl (mesh_body env xlen y) acc) ylen
    (fun y hy a ha => hrow y hy a ha)
    (List.replicate (xlen * ylen) SingleChipletTrace.blank, [])
    ⟨by simp, fun i hi => by omega⟩
  dsimp only at this
  rw [Nat.mul_comm ylen xlen] at this
  exact this

/-! ### The passes leave the identity fields alone -/

theorem ids_of_push_operation (traces : List SingleChipletTrace) (i : Nat) (op : Operation) :
    ids_of (push_operation traces i op) = ids_of traces := by
  unfold ids_of push_operation
  exact map_modify_same (fun ct : SingleChipletTrace => (ct.chiplet_id, ct.pos_x, ct.pos_y))
    (fun ct => { ct with operations := ct.operations ++ [op] }) (fun _ => rfl) i traces

theorem ids_of_push_computation (traces : List SingleChipletTrace) (i : Nat)
    (task : ComputationTask) : ids_of (push_computation traces i task) = ids_of traces := by
  unfold ids_of push_computation
  exact map_modify_same (fun ct : SingleChipletTrace => (ct.chiplet_id, ct.pos_x, ct.pos_y))
    (fun ct => { ct with computations := ct.computations ++ [task] }) (fun _ => rfl) i traces

theorem emit_closed_ids (n : Nat) (ids : List (Int × Nat × Nat)) :
    EmitClosed n (fun st => ids_of st.traces = ids) where
  compute := by
    intro st to_idx name h _
    unfold emit_compute
    dsimp only
    rw [ids_of_push_operation]
    exact h
  dram := by
    intro st to_idx name size h _
    unfold emit_dram
    dsimp only
    rw [ids_of_push_operation]
    exact h
  transfer := by
    intro st to_idx from_idx rname sname size h _ _ _ _
    unfold emit_transfer
    dsimp only
    rw [ids_of_push_operation, ids_of_push_operation]
    exact h

theorem generate_ids (env : Env) (root : SchNode) (xlen ylen : Nat) (t : FullTrace)
    (h : (TraceGenerator.new root xlen ylen).generate env = some t) :
    ids_of t.chiplet_traces = ids_of (mesh_init env xlen ylen).1 := by
  unfold TraceGenerator.generate TraceGenerator.new at h
  dsimp only at h
  cases h1 : collect_computations env (mesh_init env xlen ylen).2 root 0
      (mesh_init env xlen ylen).1 with
  | none => rw [h1] at h; cases h
  | some traces =>
    rw [h1] at h
    dsimp only at h
    have hid1 : ids_of traces = ids_of (mesh_init env xlen ylen).1 :=
      collect_computations_preserves
        (P := fun tr => ids_of tr = ids_of (mesh_init env xlen ylen).1)
        (fun tr idx task htr => by
          show ids_of (push_computation tr idx task) = _
          rw [ids_of_push_computation]; exact htr)
        env _ root 0 _ traces rfl h1
    cases h2 : collect_transfers env (mesh_init env xlen ylen).2 root 0
        { traces := traces, next_transfer_id_ := 0 } with
    | none => rw [h2] at h; cases h
    | some st =>
      rw [h2] at h
      simp only [Option.some.injEq] at h
      subst h
      exact collect_transfers_preserves (emit_closed_ids (xlen * ylen) _) env
        (mesh_init_spec env xlen ylen).2 root 0 _ st hid1 h2

theorem ids_getElem? {traces : List SingleChipletTrace} {i : Nat} {ct : SingleChipletTrace}
    (h : traces[i]? = some ct) : (ids_of traces)[i]? = some (ct.chiplet_id, ct.pos_x, ct.pos_y) := by
  unfold ids_of
  rw [List.getElem?_map, h]
  rfl

end ChipletTrace

namespace ChipletTrace

/-! ### The report loops write one row per element, in order -/

theorem foldl_append_rows {α : Type} (f : α → String) (l : List α) (os : String) :
    l.foldl (fun o x => o ++ f x) os = os ++ concat_text (l.map f) := by
  induction l generalizing os with
  | nil => simp [concat_text]
  | cons x t ih =>
    rw [List.foldl_cons, ih]
    simp only [List.map_cons, concat_text, List.foldr_cons]
    rw [String.append_assoc]

theorem foldl_print_operation (ops : List Operation) (os : String) (k : Nat) :
    (ops.foldl print_operation (os, k)).1 =
      os ++ concat_text ((ops.enumFrom k).map fun p => operation_row p.1 p.2) := by
  induction ops generalizing os k with
  | nil => simp [concat_text]
  | cons op t ih =>
    rw [List.foldl_cons]
    show (t.foldl print_operation (os ++ operation_row k op, k + 1)).1 = _
    rw [ih]
    simp only [List.enumFrom_cons, List.map_cons, concat_text, List.foldr_cons]
    rw [String.append_assoc]

theorem print_chiplet_eq (os : String) (trace : SingleChipletTrace) :
    print_chiplet os trace = os ++ chiplet_block trace := by
  unfold print_chiplet chiplet_block
  dsimp only
  rw [foldl_print_operation, foldl_append_rows]
  simp only [List.enum, String.append_assoc]

theorem print_eq (t : FullTrace) (os : String) :
    t.print os = os ++ print_header t ++ concat_text (t.chiplet_traces.map chiplet_block) := by
  unfold FullTrace.print
  have h : ∀ (l : List SingleChipletTrace) (o : String),
      l.foldl print_chiplet o = o ++ concat_text (l.map chiplet_block) := by
    intro l
    induction l with
    | nil => intro o; simp [concat_text]
    | cons x rest ih =>
      intro o
      rw [List.foldl_cons, ih, print_chiplet_eq]
      simp only [List.map_cons, concat_text, List.foldr_cons]
      rw [String.append_assoc]
  exact h _ _

theorem operation_rows_getElem? (ops : List Operation) (i : Nat) :
    (ops.enum.map fun p => operation_row p.1 p.2)[i]? = ops[i]?.map (operation_row i) := by
  rw [List.getElem?_map, List.getElem?_enum]
  cases ops[i]? <;> rfl

end ChipletTrace

namespace ChipletTrace

/-! ### The loops of the passes as lists of appended items -/

theorem foldl_flatMap_run {α β ε : Type} {f : β → α → β} {g : α → List ε} {app : β → ε → β}
    (h : ∀ s x, f s x = (g x).foldl app s) (l : List α) (s : β) :
    l.foldl f s = (l.flatMap g).foldl app s := by
  induction l generalizing s with
  | nil => rfl
  | cons x t ih =>
    rw [List.foldl_cons, List.flatMap_cons, List.foldl_append, h, ih]

theorem foldl_filterMap_run {α β ε : Type} {f : β → α → β} {g : α → Option ε} {app : β → ε → β}
    (h : ∀ s x, f s x = match g x with | none => s | some y => app s y) (l : List α) (s : β) :
    l.foldl f s = (l.filterMap g).foldl app s := by
  induction l generalizing s with
  | nil => rfl
  | cons x t ih =>
    rw [List.foldl_cons, List.filterMap_cons, h]
    cases hg : g x with
    | none => simp only [hg]; exact ih s
    | some y => simp only [hg, List.foldl_cons]; exact ih _

theorem computations_leaf_eq (env : Env) (m : XyMap) (l : LNode) (bo : Nat)
    (traces : List SingleChipletTrace) :
    computations_leaf env m l bo traces = push_tasks traces (leaf_tasks env m l bo) := by
  unfold computations_leaf push_tasks leaf_tasks
  apply foldl_filterMap_run
  intro s e
  unfold computation_body
  dsimp only
  by_cases he : env.is_empty e.1 = true
  · simp only [he, if_true]
  · simp only [he]
    cases m.find (env.get_xyid e.2) with
    | none => rfl
    | some idx => rfl

theorem direct_body_eq (env : Env) (m : XyMap) (layer_node : Node) (p to_idx : Nat)
    (st : GenState) (e : fmap_range × pos_t) :
    direct_body env m layer_node p to_idx st e =
      run_emits st (direct_emits env m layer_node p to_idx e) := by
  unfold direct_body direct_emits run_emits
  dsimp only
  split
  · rfl
  · split
    · rfl
    · split <;> rfl

theorem prev_body_eq (env : Env) (m : XyMap) (l : LNode) (r : fmap_range) (to_idx : Nat)
    (st : GenState) (p : Nat) :
    prev_body env m l r to_idx st p = run_emits st (prev_emits env m l r to_idx p) := by
  unfold prev_body prev_emits
  split
  · rfl
  · split
    · exact foldl_flatMap_run (fun s x => direct_body_eq env m l.layer p to_idx s x) _ st
    · rfl

theorem transfer_body_eq (env : Env) (m : XyMap) (l : LNode) (st : GenState)
    (e : fmap_range × pos_t) :
    transfer_body env m l st e = run_emits st (entry_emits env m l e) := by
  unfold transfer_body entry_emits
  dsimp only
  split
  · rfl
  · split
    · rfl
    · rename_i to_idx _
      unfold run_emits
      rw [List.foldl_append]
      split
      · rw [foldl_flatMap_run (fun s x => prev_body_eq env m l e.1 to_idx s x) _ st]
        rfl
      · rfl

theorem transfers_leaf_eq (env : Env) (m : XyMap) (l : LNode) (st : GenState) :
    transfers_leaf env m l st = run_emits st (leaf_emits env m l) := by
  unfold transfers_leaf leaf_emits
  exact foldl_flatMap_run (fun s x => transfer_body_eq env m l s x) _ st

/-! ### A walk whose leaves append lists appends the list of the walk -/

theorem foldl_snoc_eq_append {ε : Type} (acc es : List ε) :
    es.foldl (fun a x => a ++ [x]) acc = acc ++ es := by
  induction es generalizing acc with
  | nil => simp
  | cons x t ih => rw [List.foldl_cons, ih]; simp

theorem opt_rel_map {σ τ : Type} {R : σ → τ → Prop} {f : τ → σ}
    (hR : ∀ s t, R s t → s = f t) {o1 : Option σ} {o2 : Option τ} (h : OptRel R o1 o2) :
    o1 = o2.map f := by
  cases o1 <;> cases o2
  · rfl
  · exact h.elim
  · exact h.elim
  · exact congrArg some (hR _ _ h)

theorem visit_events {σ ε : Type} (tot : Nat) (leaf : LNode → Nat → σ → σ)
    (ev : LNode → Nat → List ε) (app : σ → ε → σ)
    (hleaf : ∀ l a s, leaf l a s = (ev l a).foldl app s) (node : SchNode) (a : Nat) (s : σ) :
    visit tot leaf node a s =
      (visit tot (fun l b acc => acc ++ ev l b) node a []).map fun es => es.foldl app s := by
  have h := visit_sim tot (fun l => l) (fun x y => x = y) (fun x y k hxy => by rw [hxy])
    (fun (s1 : σ) (acc : List ε) => s1 = acc.foldl app s) leaf
    (fun l b acc => acc ++ ev l b) node
    (fun l _ x y s1 acc hxy hs => by
      have hxy2 : x = y := hxy
      have hs2 : s1 = acc.foldl app s := hs
      show leaf l x s1 = (acc ++ ev l y).foldl app s
      rw [hleaf, hs2, hxy2, List.foldl_append])
    a a s [] rfl rfl
  rw [map_id_node] at h
  exact opt_rel_map (fun _ _ hst => hst) h

theorem visit_children_events {σ ε : Type} (tot : Nat) (leaf : LNode → Nat → σ → σ)
    (ev : LNode → Nat → List ε) (app : σ → ε → σ)
    (hleaf : ∀ l a s, leaf l a s = (ev l a).foldl app s) (children : List SchNode) (a : Nat)
    (s : σ) :
    visit_children tot leaf children a s =
      (visit_children tot (fun l b acc => acc ++ ev l b) children a []).map
        fun es => es.foldl app s := by
  have h := visit_children_sim tot (fun l => l) (fun x y => x = y)
    (fun x y k hxy => by rw [hxy])
    (fun (s1 : σ) (acc : List ε) => s1 = acc.foldl app s) leaf
    (fun l b acc => acc ++ ev l b) children
    (fun l _ x y s1 acc hxy hs => by
      have hxy2 : x = y := hxy
      have hs2 : s1 = acc.foldl app s := hs
      show leaf l x s1 = (acc ++ ev l y).foldl app s
      rw [hleaf, hs2, hxy2, List.foldl_append])
    a a s [] rfl rfl
  rw [map_id_children] at h
  exact opt_rel_map (fun _ _ hst => hst) h

theorem visit_append_frame {ε : Type} (tot : Nat) (ev : LNode → Nat → List ε)
    (node : SchNode) (a : Nat) (acc : List ε) :
    visit tot (fun l b x => x ++ ev l b) node a acc =
      (visit tot (fun l b x => x ++ ev l b) node a []).map fun es => acc ++ es := by
  have h := visit_events tot (fun l b x => x ++ ev l b) ev (fun x e => x ++ [e])
    (fun l b x => (foldl_snoc_eq_append x (ev l b)).symm) node a acc
  rw [h]
  congr 1
  funext es
  exact foldl_snoc_eq_append acc es

theorem visit_children_append_frame {ε : Type} (tot : Nat) (ev : LNode → Nat → List ε)
    (children : List SchNode) (a : Nat) (acc : List ε) :
    visit_children tot (fun l b x => x ++ ev l b) children a acc =
      (visit_children tot (fun l b x => x ++ ev l b) children a []).map fun es => acc ++ es := by
  have h := visit_children_events tot (fun l b x => x ++ ev l b) ev (fun x e => x ++ [e])
    (fun l b x => (foldl_snoc_eq_append x (ev l b)).symm) children a acc
  rw [h]
  congr 1
  funext es
  exact foldl_snoc_eq_append acc es

theorem visit_offset_free {σ : Type} (tot : Nat) (leaf : LNode → σ → σ) (node : SchNode)
    (a b : Nat) (s : σ) :
    visit tot (fun l _ x => leaf l x) node a s = visit tot (fun l _ x => leaf l x) node b s := by
  have h := visit_sim tot (fun l => l) (fun _ _ => True) (fun _ _ _ _ => trivial)
    (fun (x y : σ) => x = y) (fun l _ x => leaf l x) (fun l _ x => leaf l x) node
    (fun l _ _ _ x y _ hxy => by rw [hxy]) a b s s trivial rfl
  rw [map_id_node] at h
  exact opt_rel_eq h

theorem visit_children_offset_free {σ : Type} (tot : Nat) (leaf : LNode → σ → σ)
    (children : List SchNode) (a b : Nat) (s : σ) :
    visit_children tot (fun l _ x => leaf l x) children a s =
      visit_children tot (fun l _ x => leaf l x) children b s := by
  have h := visit_children_sim tot (fun l => l) (fun _ _ => True) (fun _ _ _ _ => trivial)
    (fun (x y : σ) => x = y) (fun l _ x => leaf l x) (fun l _ x => leaf l x) children
    (fun l _ _ _ x y _ hxy => by rw [hxy]) a b s s trivial rfl
  rw [map_id_children] at h
  exact opt_rel_eq h

end ChipletTrace

namespace ChipletTrace

/-! ### Pass 1 as a list of contributed tasks -/

theorem collect_computations_eq_tasks (env : Env) (m : XyMap) (node : SchNode) (bo : Nat)
    (traces : List SingleChipletTrace) :
    collect_computations env m node bo traces =
      (contributed_tasks env m node bo).map (push_tasks traces) := by
  rw [collect_computations_eq_visit]
  exact visit_events env.tot_batch (computations_leaf env m) (leaf_tasks env m)
    (fun tr p => push_computation tr p.1 p.2)
    (fun l a s => computations_leaf_eq env m l a s) node bo traces

theorem contributed_tasks_cut (env : Env) (m : XyMap) (G : Nat) (children : List SchNode)
    (bo : Nat) (hG : 1 ≤ G) :
    contributed_tasks env m (SchNode.Cut G children) bo =
      (List.range G).foldlM
        (fun acc b =>
          (children_tasks env m children (bo + b * (env.tot_batch / G))).map fun ts => acc ++ ts)
        [] := by
  unfold contributed_tasks children_tasks
  have hG0 : ¬ G = 0 := by omega
  simp only [visit, hG0, if_false]
  congr 1
  funext acc b
  exact visit_children_append_frame env.tot_batch (leaf_tasks env m) children _ acc

theorem children_tasks_nil (env : Env) (m : XyMap) (bo : Nat) :
    children_tasks env m [] bo = some [] := by
  unfold children_tasks
  simp only [visit_children]

theorem children_tasks_cons (env : Env) (m : XyMap) (child : SchNode) (rest : List SchNode)
    (bo : Nat) :
    children_tasks env m (child :: rest) bo =
      (contributed_tasks env m child bo).bind fun ts =>
        (children_tasks env m rest bo).map fun ts2 => ts ++ ts2 := by
  unfold children_tasks contributed_tasks
  simp only [visit_children]
  cases visit env.tot_batch (fun l b acc => acc ++ leaf_tasks env m l b) child bo [] with
  | none => rfl
  | some ts =>
    exact visit_children_append_frame env.tot_batch (leaf_tasks env m) rest bo ts

theorem leaf_tasks_shift (env : Env) (m : XyMap) (l : LNode) (a k : Nat) :
    leaf_tasks env m l (a + k) = (leaf_tasks env m l a).map (shift_batch k) := by
  unfold leaf_tasks
  rw [List.map_filterMap]
  congr 1
  funext e
  cases he : env.is_empty e.1 with
  | true => simp
  | false =>
    cases m.find (env.get_xyid e.2) with
    | none => simp
    | some idx => simp [shift_batch, part_task, Nat.add_assoc]

theorem contributed_tasks_shift (env : Env) (m : XyMap) (node : SchNode) (a k : Nat) :
    contributed_tasks env m node (a + k) =
      (contributed_tasks env m node a).map (List.map (shift_batch k)) := by
  unfold contributed_tasks
  have h := visit_sim env.tot_batch (fun l => l) (fun x y => x = y + k)
    (fun x y j hxy => by rw [hxy]; omega)
    (fun (acc1 acc2 : List (Nat × ComputationTask)) => acc1 = acc2.map (shift_batch k))
    (fun l b acc => acc ++ leaf_tasks env m l b) (fun l b acc => acc ++ leaf_tasks env m l b)
    node
    (fun l _ x y acc1 acc2 hxy hacc => by
      have hxy2 : x = y + k := hxy
      have hacc2 : acc1 = acc2.map (shift_batch k) := hacc
      show acc1 ++ leaf_tasks env m l x = (acc2 ++ leaf_tasks env m l y).map (shift_batch k)
      rw [hxy2, hacc2, leaf_tasks_shift, List.map_append])
    (a + k) a [] [] rfl rfl
  rw [map_id_node] at h
  exact opt_rel_map (fun _ _ hst => hst) h

theorem children_tasks_shift (env : Env) (m : XyMap) (children : List SchNode) (a k : Nat) :
    children_tasks env m children (a + k) =
      (children_tasks env m children a).map (List.map (shift_batch k)) := by
  unfold children_tasks
  have h := visit_children_sim env.tot_batch (fun l => l) (fun x y => x = y + k)
    (fun x y j hxy => by rw [hxy]; omega)
    (fun (acc1 acc2 : List (Nat × ComputationTask)) => acc1 = acc2.map (shift_batch k))
    (fun l b acc => acc ++ leaf_tasks env m l b) (fun l b acc => acc ++ leaf_tasks env m l b)
    children
    (fun l _ x y acc1 acc2 hxy hacc => by
      have hxy2 : x = y + k := hxy
      have hacc2 : acc1 = acc2.map (shift_batch k) := hacc
      show acc1 ++ leaf_tasks env m l x = (acc2 ++ leaf_tasks env m l y).map (shift_batch k)
      rw [hxy2, hacc2, leaf_tasks_shift, List.map_append])
    (a + k) a [] [] rfl rfl
  rw [map_id_children] at h
  exact opt_rel_map (fun _ _ hst => hst) h

theorem contributed_tasks_two_groups (env : Env) (m : XyMap) (children : List SchNode)
    (ts : List (Nat × ComputationTask)) (htot : env.tot_batch = 8)
    (hts : children_tasks env m children 0 = some ts) :
    contributed_tasks env m (SchNode.Cut 2 children) 0 =
      some (ts ++ ts.map (shift_batch 4)) := by
  rw [contributed_tasks_cut env m 2 children 0 (by omega), htot]
  have h4 : children_tasks env m children (0 + 1 * (8 / 2)) = some (ts.map (shift_batch 4)) := by
    have := children_tasks_shift env m children 0 4
    rw [hts] at this
    simpa using this
  have h0 : children_tasks env m children (0 + 0 * (8 / 2)) = some ts := by simpa using hts
  have hr : List.range 2 = [0, 1] := rfl
  rw [hr]
  simp only [List.foldlM_cons, List.foldlM_nil, h0, h4, Option.map_some', List.nil_append,
    Option.bind_eq_bind, Option.some_bind, Option.pure_def]

end ChipletTrace

namespace ChipletTrace

/-! ### Pass 2 as a list of executed blocks -/

theorem collect_transfers_eq_emits (env : Env) (m : XyMap) (node : SchNode) (bo : Nat)
    (st : GenState) :
    collect_transfers env m node bo st = (transfer_emits env m node).map (run_emits st) := by
  rw [collect_transfers_eq_visit]
  unfold transfer_emits
  rw [visit_offset_free env.tot_batch (fun l (acc : List Emit) => acc ++ leaf_emits env m l)
    node 0 bo []]
  exact visit_events env.tot_batch (fun l _ s => transfers_leaf env m l s)
    (fun l _ => leaf_emits env m l) Emit.apply
    (fun l _ s => transfers_leaf_eq env m l s) node bo st

theorem collect_transfers_children_eq_emits (env : Env) (m : XyMap) (children : List SchNode)
    (bo : Nat) (st : GenState) :
    collect_transfers_children env m children bo st =
      (children_emits env m children).map (run_emits st) := by
  rw [collect_transfers_children_eq_visit]
  unfold children_emits
  rw [visit_children_offset_free env.tot_batch
    (fun l (acc : List Emit) => acc ++ leaf_emits env m l) children 0 bo []]
  exact visit_children_events env.tot_batch (fun l _ s => transfers_leaf env m l s)
    (fun l _ => leaf_emits env m l) Emit.apply
    (fun l _ s => transfers_leaf_eq env m l s) children bo st

theorem run_emits_append (st : GenState) (a b : List Emit) :
    run_emits st (a ++ b) = run_emits (run_emits st a) b := by
  unfold run_emits
  exact List.foldl_append _ _ _ _

theorem run_emits_cons (st : GenState) (e : Emit) (es : List Emit) :
    run_emits st (e :: es) = run_emits (e.apply st) es := rfl

theorem apply_next (st : GenState) (e : Emit) :
    (e.apply st).next_transfer_id_ = st.next_transfer_id_ + (e.allocs : Int) := by
  cases e <;> simp [Emit.apply, Emit.allocs, emit_transfer, emit_dram, emit_compute]

theorem length_push_operation (traces : List SingleChipletTrace) (i : Nat) (op : Operation) :
    (push_operation traces i op).length = traces.length := by
  unfold push_operation
  exact List.length_modify _ _ _

theorem apply_length (st : GenState) (e : Emit) :
    (e.apply st).traces.length = st.traces.length := by
  cases e <;>
    simp [Emit.apply, emit_transfer, emit_dram, emit_compute, length_push_operation]

theorem length_queues_of (traces : List SingleChipletTrace) :
    (queues_of traces).length = traces.length := by
  unfold queues_of
  exact List.length_map _ _

theorem apply_queue (st : GenState) (e : Emit) (i : Nat) :
    (queues_of (e.apply st).traces).getD i [] =
      (queues_of st.traces).getD i [] ++ e.ops st.traces.length st.next_transfer_id_ i := by
  cases e with
  | transfer to_idx from_idx rn sn size =>
    simp only [Emit.apply, emit_transfer, Emit.ops, queues_of_push_operation, getD_push_back,
      length_push_back, length_queues_of]
    by_cases h1 : to_idx = i <;> by_cases h2 : from_idx = i <;>
      by_cases h3 : i < st.traces.length <;> simp [h1, h2, h3]
  | dram to_idx name size =>
    simp only [Emit.apply, emit_dram, Emit.ops, queues_of_push_operation, getD_push_back,
      length_queues_of]
    by_cases h1 : to_idx = i <;> by_cases h3 : i < st.traces.length <;> simp [h1, h3]
  | compute to_idx name =>
    simp only [Emit.apply, emit_compute, Emit.ops, queues_of_push_operation, getD_push_back,
      length_queues_of]
    by_cases h1 : to_idx = i <;> by_cases h3 : i < st.traces.length <;> simp [h1, h3]

theorem run_emits_next (st : GenState) (es : List Emit) :
    (run_emits st es).next_transfer_id_ = st.next_transfer_id_ + (allocs es : Int) := by
  induction es generalizing st with
  | nil => simp [run_emits, allocs]
  | cons e t ih =>
    rw [run_emits_cons, ih, apply_next]
    simp only [allocs, List.map_cons, List.sum_cons, Nat.cast_add]
    omega

theorem run_emits_length (st : GenState) (es : List Emit) :
    (run_emits st es).traces.length = st.traces.length := by
  induction es generalizing st with
  | nil => rfl
  | cons e t ih => rw [run_emits_cons, ih, apply_length]

theorem run_emits_queue (st : GenState) (es : List Emit) (i : Nat) :
    (queues_of (run_emits st es).traces).getD i [] =
      (queues_of st.traces).getD i [] ++
        emitted_ops st.traces.length i st.next_transfer_id_ es := by
  induction es generalizing st with
  | nil => simp [run_emits, emitted_ops]
  | cons e t ih =>
    rw [run_emits_cons, ih, apply_queue, apply_length, apply_next]
    simp only [emitted_ops, List.append_assoc]

/-! ### Raising the counter raises the allocated ids and nothing else -/

theorem shift_tid_zero (op : Operation) : shift_tid 0 op = op := by
  unfold shift_tid
  split
  · rfl
  · simp

theorem shift_tid_add (d1 d2 : Int) (op : Operation) :
    shift_tid d2 (shift_tid d1 op) = shift_tid (d1 + d2) op := by
  unfold shift_tid
  by_cases hc : op.type = OpType.COMPUTE
  · simp [hc]
  · simp [hc, Int.add_assoc]

theorem ops_shift (n : Nat) (next d : Int) (i : Nat) (e : Emit) :
    e.ops n (next + d) i = (e.ops n next i).map (shift_tid d) := by
  cases e with
  | transfer to_idx from_idx rn sn size =>
    simp only [Emit.ops]
    by_cases h1 : to_idx = i <;> by_cases h2 : from_idx = i <;> by_cases h3 : i < n <;>
      simp [h1, h2, h3, shift_tid]
  | dram to_idx name size =>
    simp only [Emit.ops]
    by_cases h1 : to_idx = i <;> by_cases h3 : i < n <;> simp [h1, h3, shift_tid]
  | compute to_idx name =>
    simp only [Emit.ops]
    by_cases h1 : to_idx = i <;> by_cases h3 : i < n <;> simp [h1, h3, shift_tid]

theorem emitted_ops_shift (n i : Nat) (next d : Int) (es : List Emit) :
    emitted_ops n i (next + d) es = (emitted_ops n i next es).map (shift_tid d) := by
  induction es generalizing next with
  | nil => rfl
  | cons e t ih =>
    simp only [emitted_ops, List.map_append]
    rw [ops_shift, ← ih]
    congr 2
    omega

/-! ### A grouping node runs the blocks of its children once per batch group -/

theorem foldlM_const_some {α β : Type} (f : β → β) (l : List α) (s : β) :
    l.foldlM (fun acc _ => some (f acc)) s = some (f^[l.length] s) := by
  induction l generalizing s with
  | nil => rfl
  | cons a t ih =>
    simp only [List.foldlM_cons, List.length_cons, Function.iterate_succ_apply]
    exact ih (f s)

theorem replicas_spec (es : List Emit) (G : Nat) (st : GenState) :
    ((fun s => run_emits s es)^[G] st).next_transfer_id_ =
        st.next_transfer_id_ + (G : Int) * (allocs es : Int) ∧
      ∀ i, (queues_of ((fun s => run_emits s es)^[G] st).traces).getD i [] =
        (queues_of st.traces).getD i [] ++
          (List.range G).flatMap fun b =>
            (emitted_ops st.traces.length i st.next_transfer_id_ es).map
              (shift_tid ((b : Int) * (allocs es : Int))) := by
  induction G generalizing st with
  | zero => simp
  | succ G ih =>
    rw [Function.iterate_succ_apply]
    obtain ⟨h1, h2⟩ := ih (run_emits st es)
    constructor
    · rw [h1, run_emits_next]
      push_cast
      ring
    · intro i
      rw [h2 i, run_emits_queue, run_emits_length, run_emits_next, List.range_succ_eq_map,
        List.flatMap_cons, List.append_assoc]
      congr 2
      · simp only [Nat.cast_zero, zero_mul]
        rw [List.map_congr_left (fun op _ => shift_tid_zero op), List.map_id']
      · rw [List.flatMap_map]
        congr 1
        funext b
        rw [emitted_ops_shift, List.map_map]
        congr 1
        funext op
        simp only [Function.comp_apply, shift_tid_add]
        congr 1
        push_cast
        ring

end ChipletTrace

namespace ChipletTrace

/-! ### Every executed block has in-range tiles and a size with a known origin -/

end ChipletTrace

namespace ChipletTrace

/-! ### Auxiliary facts for the statements about the generated trace -/

theorem leaf_tasks_bounds (env : Env) (m : XyMap) (l : LNode) (a : Nat)
    (p : Nat × ComputationTask) (hp : p ∈ leaf_tasks env m l a) :
    ∃ e ∈ l.ofm_layout, env.is_empty e.1 = false ∧ m.find (env.get_xyid e.2) = some p.1 ∧
      p.2 = part_task (base_task l.layer) e.1 a := by
  unfold leaf_tasks at hp
  obtain ⟨e, he, hpe⟩ := List.mem_filterMap.mp hp
  refine ⟨e, he, ?_⟩
  cases hemp : env.is_empty e.1 with
  | true => simp [hemp] at hpe
  | false =>
    cases hf : m.find (env.get_xyid e.2) with
    | none => simp [hemp, hf] at hpe
    | some idx =>
      simp only [hemp, hf, Option.map_some', Bool.false_eq_true, if_false,
        Option.some.injEq] at hpe
      subst hpe
      exact ⟨rfl, rfl, rfl⟩

theorem contributed_tasks_leaf (env : Env) (m : XyMap) (l : LNode) (a : Nat) :
    contributed_tasks env m (SchNode.L l) a = some (leaf_tasks env m l a) := by
  unfold contributed_tasks
  simp only [visit, List.nil_append]

theorem length_chip_ops (t : FullTrace) : t.chip_ops.length = t.chiplet_traces.length := by
  unfold FullTrace.chip_ops
  exact List.length_map _ _

theorem generate_layout (env : Env) (root : SchNode) (xlen ylen : Nat) (t : FullTrace)
    (h : (TraceGenerator.new root xlen ylen).generate env = some t) :
    t.chiplet_traces.length = xlen * ylen ∧
      ∀ i, i < xlen * ylen → ∃ ct, t.chiplet_traces[i]? = some ct ∧
        ct.chiplet_id = (i : Int) ∧ ct.pos_x = i % xlen ∧ ct.pos_y = i / xlen := by
  obtain ⟨next, hinv⟩ := generate_inv env root xlen ylen t h
  have hlen : t.chiplet_traces.length = xlen * ylen := by
    rw [← length_chip_ops]; exact hinv.len
  refine ⟨hlen, fun i hi => ?_⟩
  obtain ⟨hlen0, hfill⟩ := mesh_init_filled env xlen ylen
  have hids := generate_ids env root xlen ylen t h
  have h1 : t.chiplet_traces[i]? = some (t.chiplet_traces[i]) :=
    List.getElem?_eq_getElem (by omega)
  have h0 : (mesh_init env xlen ylen).1[i]? = some ((mesh_init env xlen ylen).1[i]) :=
    List.getElem?_eq_getElem (by omega)
  have e1 := ids_getElem? h1
  have e0 := ids_getElem? h0
  rw [hids, e0] at e1
  simp only [Option.some.injEq, Prod.mk.injEq] at e1
  obtain ⟨g1, g2, g3⟩ := hfill i hi _ h0
  exact ⟨_, h1, by rw [← e1.1]; exact g1, by rw [← e1.2.1]; exact g2, by rw [← e1.2.2]; exact g3⟩

theorem generate_peers (env : Env) (root : SchNode) (xlen ylen : Nat) (t : FullTrace)
    (h : (TraceGenerator.new root xlen ylen).generate env = some t) :
    ∀ ct ∈ t.chiplet_traces, ∀ op ∈ ct.operations, 0 ≤ op.peer_id →
      op.peer_id < ((xlen * ylen : Nat) : Int) := by
  obtain ⟨next, hinv⟩ := generate_inv env root xlen ylen t h
  intro ct hct op hop hp
  have hl : ct.operations ∈ t.chip_ops := by
    unfold FullTrace.chip_ops
    exact List.mem_map_of_mem _ hct
  obtain ⟨j, _, hj⟩ := mem_getD_of_mem hl
  have hmem : op ∈ t.chip_ops.getD j [] := by rw [hj]; exact hop
  cases ht : op.type with
  | COMPUTE =>
    have := (hinv.compute_shape j op hmem ht).2.1
    omega
  | SEND =>
    obtain ⟨d, e1, _, e3, _⟩ := hinv.send_paired j op hmem ht
    omega
  | RECV =>
    obtain ⟨s, e1, _, e3, _⟩ := hinv.recv_paired j op hmem ht hp
    omega

theorem appended_run (st : GenState) (es : List Emit) (i : Nat) :
    appended st (run_emits st es) i =
      emitted_ops st.traces.length i st.next_transfer_id_ es := by
  unfold appended
  rw [run_emits_queue]
  exact List.drop_left _ _

theorem cut_eq_replicas (env : Env) (m : XyMap) (G : Nat) (children : List SchNode)
    (bo : Nat) (st : GenState) (hG : 1 ≤ G) {es : List Emit}
    (hes : children_emits env m children = some es) :
    collect_transfers env m (SchNode.Cut G children) bo st =
      some ((fun s => run_emits s es)^[G] st) := by
  have hG0 : ¬ G = 0 := by omega
  simp only [collect_transfers, hG0, if_false]
  have hfun : (fun acc b =>
      collect_transfers_children env m children (bo + b * (env.tot_batch / G)) acc) =
      fun acc (_ : Nat) => some (run_emits acc es) := by
    funext acc b
    rw [collect_transfers_children_eq_emits, hes]
    rfl
  rw [hfun, foldlM_const_some, List.length_range]

end ChipletTrace

namespace ChipletTrace

/-! ### An accepted trace pairs every real-peer transfer -/

theorem mem_getD_pop_front_or_head {q : Queues} {k i : Nat} {op : Operation}
    (h : op ∈ q.getD i []) :
    op ∈ (pop_front q k).getD i [] ∨ (k = i ∧ front q i = some op) := by
  rw [getD_pop_front]
  by_cases hki : k = i
  · rw [if_pos hki]
    cases hq : q.getD i [] with
    | nil => rw [hq] at h; simp at h
    | cons a tl =>
      rw [hq] at h
      rcases List.mem_cons.mp h with h1 | h1
      · right
        refine ⟨hki, ?_⟩
        unfold front
        rw [hq, h1]
        rfl
      · left; exact h1
  · rw [if_neg hki]
    exact Or.inl h

theorem step_counterpart {q q1 : Queues} (hs : LegalStep q q1) {i : Nat} {op : Operation}
    (hop : op ∈ q.getD i []) (hc : op.type ≠ OpType.COMPUTE) (hp : 0 ≤ op.peer_id) :
    op ∈ q1.getD i [] ∨ ∃ j, j ≠ i ∧ ∃ b ∈ q.getD j [], op.matches b = true := by
  cases hs with
  | @compute k a ha hca =>
    rcases mem_getD_pop_front_or_head (k := k) hop with h1 | ⟨hk, hf⟩
    · exact Or.inl h1
    · subst hk
      rw [ha] at hf; cases hf
      exact absurd hca hc
  | @external k a ha _ hn =>
    rcases mem_getD_pop_front_or_head (k := k) hop with h1 | ⟨hk, hf⟩
    · exact Or.inl h1
    · subst hk
      rw [ha] at hf; cases hf
      omega
  | @rendezvous k P a b ha hpa hl hb hm =>
    have hne := rendezvous_ne ha hb hm
    rcases mem_getD_pop_front_or_head (k := k) hop with h1 | ⟨hk, hf⟩
    · rcases mem_getD_pop_front_or_head (q := pop_front q k) (k := P) h1 with h2 | ⟨hP, hf⟩
      · exact Or.inl h2
      · subst hP
        rw [front_pop_front_ne q hne, hb] at hf
        cases hf
        exact Or.inr ⟨k, hne, a, front_mem ha, matches_symm hm⟩
    · subst hk
      rw [ha] at hf; cases hf
      exact Or.inr ⟨P, Ne.symm hne, b, front_mem hb, hm⟩

theorem mem_of_all_empty {q : Queues} (h : all_empty q = true) {i : Nat} {op : Operation}
    (hop : op ∈ q.getD i []) : False := by
  obtain ⟨l, hl, hol⟩ := mem_of_mem_getD hop
  unfold all_empty at h
  rw [List.all_eq_true] at h
  have := h l hl
  cases l with
  | nil => simp at hol
  | cons a t => simp at this

theorem verify_loop_true_paired {fuel : Nat} {q qf : Queues}
    (h : verify_loop fuel q = some (true, qf)) {i : Nat} {op : Operation}
    (hop : op ∈ q.getD i []) (hc : op.type ≠ OpType.COMPUTE) (hp : 0 ≤ op.peer_id) :
    ∃ j, j ≠ i ∧ ∃ b ∈ q.getD j [], op.matches b = true := by
  induction fuel generalizing q with
  | zero => simp [verify_loop] at h
  | succ n ih =>
    unfold verify_loop at h
    cases he : all_empty q with
    | true => exact (mem_of_all_empty he hop).elim
    | false =>
      simp only [he] at h
      cases hs : scan q with
      | none => simp [hs] at h
      | some q1 =>
        simp only [hs] at h
        have hl := scan_legal hs
        rcases step_counterpart hl hop hc hp with h1 | h1
        · obtain ⟨j, hj, b, hb, hm⟩ := ih h h1
          exact ⟨j, hj, b, legal_step_mem hl hb, hm⟩
        · exact h1

theorem matches_iff_counterpart (op b : Operation) :
    op.matches b = true ↔ counterpart op b := by
  rw [matches_true_iff]
  unfold counterpart
  constructor
  · rintro ⟨h1, h2⟩
    exact ⟨h1.symm, h2⟩
  · rintro ⟨h1, h2⟩
    exact ⟨h1.symm, h2⟩

end ChipletTrace

namespace ChipletTrace

/-! ### The order of the transfer ids -/

theorem queue_ids_append (l : List Operation) (op : Operation) :
    queue_ids (l ++ [op]) =
      if op.type = OpType.COMPUTE then queue_ids l else queue_ids l ++ [op.transfer_id] := by
  unfold queue_ids
  by_cases h : op.type = OpType.COMPUTE <;> simp [List.filter_append, List.filter_cons, h]

theorem mem_queue_ids {l : List Operation} {x : Int} :
    x ∈ queue_ids l ↔ ∃ op ∈ l, op.type ≠ OpType.COMPUTE ∧ op.transfer_id = x := by
  unfold queue_ids
  simp only [List.mem_map, List.mem_filter, decide_eq_true_eq]
  constructor
  · rintro ⟨op, ⟨h1, h2⟩, h3⟩
    exact ⟨op, h1, h2, h3⟩
  · rintro ⟨op, h1, h2, h3⟩
    exact ⟨op, ⟨h1, h2⟩, h3⟩

theorem increasing_push {q : Queues}
    (hinc : ∀ i, (queue_ids (q.getD i [])).Pairwise (· < ·)) (k : Nat) (op : Operation)
    (hb : ∀ x ∈ queue_ids (q.getD k []), x < op.transfer_id) (i : Nat) :
    (queue_ids ((push_back q k op).getD i [])).Pairwise (· < ·) := by
  rw [getD_push_back]
  split
  · rename_i hk
    obtain ⟨rfl, _⟩ := hk
    rw [queue_ids_append]
    split
    · exact hinc k
    · rw [List.pairwise_append]
      refine ⟨hinc k, List.pairwise_singleton _ _, ?_⟩
      intro a ha b hb2
      rw [List.mem_singleton] at hb2
      subst hb2
      exact hb a ha
  · exact hinc i

theorem queue_ids_lt {n : Nat} {q : Queues} {next : Int} (h : GenInv n q next) (k : Nat) :
    ∀ x ∈ queue_ids (q.getD k []), x < next := by
  intro x hx
  obtain ⟨op, hop, hc, rfl⟩ := mem_queue_ids.mp hx
  exact (h.fresh k op hop hc).2

theorem emit_closed_id_inv (n : Nat) : EmitClosed n (IdInv n) where
  compute := by
    intro st to_idx name h hto
    have hlen : to_idx < (queues_of st.traces).length := by rw [h.inv.len]; exact hto
    refine ⟨(emit_closed_inv n).compute st to_idx name h.inv hto, ?_, ?_, ?_⟩
    · intro i
      show (queue_ids ((queues_of (push_operation st.traces to_idx _)).getD i [])).Pairwise _
      rw [queues_of_push_operation, getD_push_back]
      split
      · rename_i hk
        obtain ⟨rfl, _⟩ := hk
        rw [queue_ids_append, if_pos rfl]
        exact h.increasing to_idx
      · exact h.increasing i
    · show ((count_ops _ (queues_of (push_operation st.traces to_idx _)) : Nat) : Int) =
        st.next_transfer_id_
      rw [queues_of_push_operation, count_ops_push_back _ _ hlen]
      simpa using h.recv_total
    · intro T h0 h1
      obtain ⟨i, r, hr, hr1, hr2⟩ := h.recv_exists T h0 h1
      refine ⟨i, r, ?_, hr1, hr2⟩
      show r ∈ (queues_of (push_operation st.traces to_idx _)).getD i []
      rw [queues_of_push_operation]
      exact mem_push_back.mpr (Or.inl hr)
  dram := by
    intro st to_idx name size h hto
    have hlen : to_idx < (queues_of st.traces).length := by rw [h.inv.len]; exact hto
    refine ⟨(emit_closed_inv n).dram st to_idx name size h.inv hto, ?_, ?_, ?_⟩
    · intro i
      show (queue_ids ((queues_of (push_operation st.traces to_idx _)).getD i [])).Pairwise _
      rw [queues_of_push_operation]
      exact increasing_push h.increasing to_idx _ (queue_ids_lt h.inv to_idx) i
    · show ((count_ops _ (queues_of (push_operation st.traces to_idx _)) : Nat) : Int) =
        st.next_transfer_id_ + 1
      rw [queues_of_push_operation, count_ops_push_back _ _ hlen]
      have := h.recv_total
      simp only [decide_True, if_true, Nat.cast_add, Nat.cast_one]
      omega
    · intro T h0 h1
      have h1b : T < st.next_transfer_id_ + 1 := h1
      by_cases hT : T = st.next_transfer_id_
      · refine ⟨to_idx,
          ({ type := OpType.RECV, peer_id := -1, layer_name := name, data_size := size,
             transfer_id := st.next_transfer_id_ } : Operation), ?_, rfl, hT.symm⟩
        show _ ∈ (queues_of (push_operation st.traces to_idx _)).getD to_idx []
        rw [queues_of_push_operation]
        exact mem_push_back.mpr (Or.inr ⟨rfl, hlen, rfl⟩)
      · obtain ⟨i, r, hr, hr1, hr2⟩ := h.recv_exists T h0 (by omega)
        refine ⟨i, r, ?_, hr1, hr2⟩
        show r ∈ (queues_of (push_operation st.traces to_idx _)).getD i []
        rw [queues_of_push_operation]
        exact mem_push_back.mpr (Or.inl hr)
  transfer := by
    intro st to_idx from_idx rname sname size h hto hfrom hne hsize
    have hlen : to_idx < (queues_of st.traces).length := by rw [h.inv.len]; exact hto
    have hlen2 : from_idx < (push_back (queues_of st.traces) to_idx
        { type := OpType.RECV, peer_id := (from_idx : Int), layer_name := rname,
          data_size := size, transfer_id := st.next_transfer_id_ }).length := by
      rw [length_push_back, h.inv.len]; exact hfrom
    refine ⟨(emit_closed_inv n).transfer st to_idx from_idx rname sname size h.inv hto hfrom hne
      hsize, ?_, ?_, ?_⟩
    · intro i
      show (queue_ids ((queues_of (push_operation (push_operation st.traces to_idx _)
        from_idx _)).getD i [])).Pairwise _
      rw [queues_of_push_operation, queues_of_push_operation]
      refine increasing_push
        (increasing_push h.increasing to_idx _ (queue_ids_lt h.inv to_idx)) from_idx _ ?_ i
      rw [getD_push_back, if_neg (fun hc => hne hc.1.symm)]
      exact queue_ids_lt h.inv from_idx
    · show ((count_ops _ (queues_of (push_operation (push_operation st.traces to_idx _)
        from_idx _)) : Nat) : Int) = st.next_transfer_id_ + 1
      rw [queues_of_push_operation, queues_of_push_operation, count_ops_push_back _ _ hlen2,
        count_ops_push_back _ _ hlen]
      have := h.recv_total
      simp only [decide_True, if_true, Nat.cast_add, Nat.cast_one]
      simp
      omega
    · intro T h0 h1
      have h1b : T < st.next_transfer_id_ + 1 := h1
      by_cases hT : T = st.next_transfer_id_
      · refine ⟨to_idx,
          ({ type := OpType.RECV, peer_id := (from_idx : Int), layer_name := rname,
             data_size := size, transfer_id := st.next_transfer_id_ } : Operation),
          ?_, rfl, hT.symm⟩
        show _ ∈ (queues_of (push_operation (push_operation st.traces to_idx _)
          from_idx _)).getD to_idx []
        rw [queues_of_push_operation, queues_of_push_operation]
        exact mem_push_back.mpr (Or.inl (mem_push_back.mpr (Or.inr ⟨rfl, hlen, rfl⟩)))
      · obtain ⟨i, r, hr, hr1, hr2⟩ := h.recv_exists T h0 (by omega)
        refine ⟨i, r, ?_, hr1, hr2⟩
        show r ∈ (queues_of (push_operation (push_operation st.traces to_idx _)
          from_idx _)).getD i []
        rw [queues_of_push_operation, queues_of_push_operation]
        exact mem_push_back.mpr (Or.inl (mem_push_back.mpr (Or.inl hr)))

/-- What `generate` returns satisfies the invariant on the order of ids. -/
theorem generate_id_inv (env : Env) (root : SchNode) (xlen ylen : Nat) (t : FullTrace)
    (h : (TraceGenerator.new root xlen ylen).generate env = some t) :
    ∃ st : GenState, t.chiplet_traces = st.traces ∧ IdInv (xlen * ylen) st := by
  unfold TraceGenerator.generate TraceGenerator.new at h
  dsimp only at h
  obtain ⟨hq, hm⟩ := mesh_init_spec env xlen ylen
  cases h1 : collect_computations env (mesh_init env xlen ylen).2 root 0
      (mesh_init env xlen ylen).1 with
  | none => rw [h1] at h; cases h
  | some traces =>
    rw [h1] at h
    dsimp only at h
    have hq1 := collect_computations_queues env _ root 0 _ traces h1
    cases h2 : collect_transfers env (mesh_init env xlen ylen).2 root 0
        { traces := traces, next_transfer_id_ := 0 } with
    | none => rw [h2] at h; cases h
    | some st =>
      rw [h2] at h
      simp only [Option.some.injEq] at h
      subst h
      have hqs : queues_of traces = List.replicate (xlen * ylen) [] := by rw [hq1, hq]
      have h0 : IdInv (xlen * ylen) { traces := traces, next_transfer_id_ := 0 } := by
        refine ⟨?_, ?_, ?_, ?_⟩
        · unfold GenState.inv
          dsimp only
          rw [hqs]
          exact gen_inv_init _
        · intro i
          dsimp only
          rw [hqs, getD_replicate_nil]
          exact List.Pairwise.nil
        · dsimp only
          rw [hqs]
          have : count_ops (fun o => decide (o.type = OpType.RECV))
              (List.replicate (xlen * ylen) []) = 0 :=
            count_ops_eq_zero (fun i op hop => by
              rw [getD_replicate_nil] at hop
              simp at hop)
          rw [this]
          rfl
        · intro T h0 h1
          dsimp only at h1
          omega
      exact ⟨st, rfl, collect_transfers_preserves (emit_closed_id_inv _) env hm root 0 _ st h0 h2⟩

end ChipletTrace

namespace ChipletTrace

/-! ### The COMPUTE labels of a tile are the layer names of its tasks -/

theorem compute_labels_append (a b : List Operation) :
    compute_labels (a ++ b) = compute_labels a ++ compute_labels b := by
  unfold compute_labels
  rw [List.filter_append, List.map_append]

theorem tile_compute_labels_append (n i : Nat) (a b : List Emit) :
    tile_compute_labels n i (a ++ b) = tile_compute_labels n i a ++ tile_compute_labels n i b := by
  unfold tile_compute_labels
  exact List.filterMap_append _ _ _

theorem tile_task_labels_append (n i : Nat) (a b : List (Nat × ComputationTask)) :
    tile_task_labels n i (a ++ b) = tile_task_labels n i a ++ tile_task_labels n i b := by
  unfold tile_task_labels
  exact List.filterMap_append _ _ _

theorem compute_labels_ops (n : Nat) (next : Int) (i : Nat) (e : Emit) :
    compute_labels (e.ops n next i) = tile_compute_labels n i [e] := by
  cases e with
  | transfer to_idx from_idx rn sn size =>
    simp only [Emit.ops, compute_labels, tile_compute_labels, List.filterMap_cons,
      List.filterMap_nil]
    by_cases h1 : to_idx = i ∧ i < n <;> by_cases h2 : from_idx = i ∧ i < n <;>
      simp [h1, h2, List.filter_cons]
  | dram to_idx name size =>
    simp only [Emit.ops, compute_labels, tile_compute_labels, List.filterMap_cons,
      List.filterMap_nil]
    by_cases h1 : to_idx = i ∧ i < n <;> simp [h1, List.filter_cons]
  | compute to_idx name =>
    simp only [Emit.ops, compute_labels, tile_compute_labels, List.filterMap_cons,
      List.filterMap_nil]
    by_cases h1 : to_idx = i ∧ i < n <;> simp [h1, List.filter_cons]

theorem compute_labels_emitted (n i : Nat) (next : Int) (es : List Emit) :
    compute_labels (emitted_ops n i next es) = tile_compute_labels n i es := by
  induction es generalizing next with
  | nil => rfl
  | cons e t ih =>
    simp only [emitted_ops]
    rw [compute_labels_append, ih, compute_labels_ops]
    exact (tile_compute_labels_append n i [e] t).symm

theorem getD_modify_append {α : Type} (q : List (List α)) (i j : Nat) (x : α) :
    (List.modify (fun l => l ++ [x]) i q).getD j [] =
      if i = j ∧ j < q.length then q.getD j [] ++ [x] else q.getD j [] := by
  rw [List.getD_eq_getElem?_getD, List.getD_eq_getElem?_getD, List.getElem?_modify]
  by_cases hj : j < q.length
  · rw [List.getElem?_eq_getElem hj]
    by_cases hij : i = j <;> simp [hij, hj]
  · rw [List.getElem?_eq_none (by omega)]
    simp [hj]

theorem comps_of_push_computation (traces : List SingleChipletTrace) (i : Nat)
    (task : ComputationTask) :
    comps_of (push_computation traces i task) =
      List.modify (fun l => l ++ [task]) i (comps_of traces) := by
  unfold comps_of push_computation
  exact map_modify_comm SingleChipletTrace.computations _ (fun l => l ++ [task]) (fun _ => rfl)
    i traces

theorem comps_of_push_operation (traces : List SingleChipletTrace) (i : Nat) (op : Operation) :
    comps_of (push_operation traces i op) = comps_of traces := by
  unfold comps_of push_operation
  exact map_modify_same SingleChipletTrace.computations
    (fun ct => { ct with operations := ct.operations ++ [op] }) (fun _ => rfl) i traces

theorem length_push_computation (traces : List SingleChipletTrace) (i : Nat)
    (task : ComputationTask) : (push_computation traces i task).length = traces.length := by
  unfold push_computation
  exact List.length_modify _ _ _

theorem length_comps_of (traces : List SingleChipletTrace) :
    (comps_of traces).length = traces.length := by
  unfold comps_of
  exact List.length_map _ _

theorem task_labels_push_tasks (traces : List SingleChipletTrace)
    (ts : List (Nat × ComputationTask)) (i : Nat) :
    task_labels ((comps_of (push_tasks traces ts)).getD i []) =
      task_labels ((comps_of traces).getD i []) ++ tile_task_labels traces.length i ts := by
  induction ts generalizing traces with
  | nil => simp [push_tasks, tile_task_labels]
  | cons p t ih =>
    have hstep : push_tasks traces (p :: t) = push_tasks (push_computation traces p.1 p.2) t :=
      rfl
    rw [hstep, ih, length_push_computation, comps_of_push_computation, getD_modify_append,
      length_comps_of]
    have hsplit : tile_task_labels traces.length i (p :: t) =
        tile_task_labels traces.length i [p] ++ tile_task_labels traces.length i t :=
      tile_task_labels_append _ _ [p] t
    rw [hsplit]
    by_cases h : p.1 = i ∧ i < traces.length
    · rw [if_pos h]
      simp [task_labels, tile_task_labels, h]
    · rw [if_neg h]
      simp [task_labels, tile_task_labels, h]

theorem comps_of_apply (st : GenState) (e : Emit) :
    comps_of (e.apply st).traces = comps_of st.traces := by
  cases e <;>
    simp [Emit.apply, emit_transfer, emit_dram, emit_compute, comps_of_push_operation]

theorem comps_of_run_emits (st : GenState) (es : List Emit) :
    comps_of (run_emits st es).traces = comps_of st.traces := by
  induction es generalizing st with
  | nil => rfl
  | cons e t ih => rw [run_emits_cons, ih, comps_of_apply]

theorem base_task_layer_name (layer_node : Node) :
    (base_task layer_node).layer_name = layer_node.name := by
  unfold base_task
  dsimp only
  split <;> rfl

theorem part_task_layer_name (task : ComputationTask) (r : fmap_range) (bo : Nat) :
    (part_task task r bo).layer_name = task.layer_name := rfl

end ChipletTrace

namespace ChipletTrace

/-! ### Both passes visit the same layout entries -/

theorem direct_emits_feeds (env : Env) (m : XyMap) (layer_node : Node)
    (prev_layerno to_idx : Nat) (pe : fmap_range × pos_t) :
    ∀ e ∈ direct_emits env m layer_node prev_layerno to_idx pe, e.feeds to_idx := by
  intro e he
  unfold direct_emits at he
  split at he
  · simp at he
  · split at he
    · simp at he
    · split at he
      · rename_i hc
        rw [List.mem_singleton] at he
        subst he
        exact ⟨rfl, hc.1⟩
      · simp at he

theorem prev_emits_feeds (env : Env) (m : XyMap) (l : LNode) (r : fmap_range)
    (to_idx p : Nat) : ∀ e ∈ prev_emits env m l r to_idx p, e.feeds to_idx := by
  intro e he
  unfold prev_emits at he
  split at he
  · simp at he
  · split at he
    · obtain ⟨pe, _, hpe⟩ := List.mem_flatMap.mp he
      exact direct_emits_feeds env m _ _ _ pe e hpe
    · rw [List.mem_singleton] at he
      subst he
      exact rfl

/-- The blocks of one layout entry: nothing, or blocks that deliver to the
entry's tile followed by that tile's COMPUTE. -/
theorem entry_emits_shape (env : Env) (m : XyMap) (l : LNode) (entry : fmap_range × pos_t) :
    (entry_emits env m l entry = [] ∧
        (env.is_empty entry.1 = true ∨ m.find (env.get_xyid entry.2) = none)) ∨
      ∃ to_idx pre, env.is_empty entry.1 = false ∧
        m.find (env.get_xyid entry.2) = some to_idx ∧
        entry_emits env m l entry = pre ++ [Emit.compute to_idx l.layer.name] ∧
        ∀ e ∈ pre, e.feeds to_idx := by
  unfold entry_emits
  cases he : env.is_empty entry.1 with
  | true => exact Or.inl ⟨by simp, Or.inl rfl⟩
  | false =>
    cases hf : m.find (env.get_xyid entry.2) with
    | none => exact Or.inl ⟨by simp, Or.inr rfl⟩
    | some to_idx =>
      refine Or.inr ⟨to_idx,
        (if l.layer.prevs.count ≠ 0 then
          l.layer.prevs.elems.flatMap (prev_emits env m l entry.1 to_idx)
        else [Emit.dram to_idx (l.layer.name ++ "_ifmap") (env.size entry.1 * 8)]),
        rfl, rfl, by simp, ?_⟩
      intro e hmem
      split at hmem
      · obtain ⟨p, _, hp⟩ := List.mem_flatMap.mp hmem
        exact prev_emits_feeds env m l entry.1 to_idx p e hp
      · rw [List.mem_singleton] at hmem
        subst hmem
        exact rfl

theorem tile_compute_labels_feeds (n i to_idx : Nat) (pre : List Emit)
    (h : ∀ e ∈ pre, e.feeds to_idx) : tile_compute_labels n i pre = [] := by
  unfold tile_compute_labels
  rw [List.filterMap_eq_nil_iff]
  intro e he
  have := h e he
  cases e with
  | transfer _ _ _ _ _ => rfl
  | dram _ _ _ => rfl
  | compute _ _ => exact this.elim

theorem leaf_labels (env : Env) (m : XyMap) (l : LNode) (bo n i : Nat) :
    tile_compute_labels n i (leaf_emits env m l) = tile_task_labels n i (leaf_tasks env m l bo) := by
  unfold leaf_emits leaf_tasks
  induction l.ofm_layout with
  | nil => rfl
  | cons entry rest ih =>
    rw [List.flatMap_cons, tile_compute_labels_append, ih]
    have hcons : entry :: rest = [entry] ++ rest := rfl
    rw [hcons, List.filterMap_append, tile_task_labels_append]
    congr 1
    rcases entry_emits_shape env m l entry with ⟨h0, h1⟩ | ⟨to_idx, pre, h1, h2, h3, h4⟩
    · rw [h0]
      rcases h1 with h1 | h1
      · simp [tile_compute_labels, tile_task_labels, h1]
      · cases he : env.is_empty entry.1 <;>
          simp [tile_compute_labels, tile_task_labels, h1, he]
    · rw [h3, tile_compute_labels_append, tile_compute_labels_feeds n i to_idx pre h4]
      simp only [List.filterMap_cons, List.filterMap_nil, h1, h2, Option.map_some',
        tile_compute_labels, tile_task_labels, List.nil_append, Bool.false_eq_true, if_false]
      by_cases hc : to_idx = i ∧ i < n
      · simp [hc, part_task_layer_name, base_task_layer_name]
      · simp [hc]

theorem tree_labels (env : Env) (m : XyMap) (root : SchNode) (n i : Nat)
    {es : List Emit} {ts : List (Nat × ComputationTask)}
    (hes : transfer_emits env m root = some es)
    (hts : contributed_tasks env m root 0 = some ts) :
    tile_compute_labels n i es = tile_task_labels n i ts := by
  unfold transfer_emits at hes
  unfold contributed_tasks at hts
  have h := visit_sim env.tot_batch (fun l => l) (fun _ _ => True) (fun _ _ _ _ => trivial)
    (fun (acc : List Emit) (tacc : List (Nat × ComputationTask)) =>
      tile_compute_labels n i acc = tile_task_labels n i tacc)
    (fun l _ acc => acc ++ leaf_emits env m l)
    (fun l b acc => acc ++ leaf_tasks env m l b) root
    (fun l _ _ b acc tacc _ hacc => by
      have hacc2 : tile_compute_labels n i acc = tile_task_labels n i tacc := hacc
      show tile_compute_labels n i (acc ++ leaf_emits env m l) =
        tile_task_labels n i (tacc ++ leaf_tasks env m l b)
      rw [tile_compute_labels_append, tile_task_labels_append, hacc2, leaf_labels env m l b n i])
    0 0 [] [] trivial rfl
  rw [map_id_node, hes, hts] at h
  exact h

end ChipletTrace

namespace ChipletTrace

/-! ### Every RECEIVE is followed by a COMPUTE -/

theorem pending_append (a b : List Operation) :
    pending (a ++ b) = b.foldl pending_step (pending a) := by
  unfold pending
  exact List.foldl_append _ _ _ _

theorem foldl_pending_feeds {n : Nat} {next : Int} {e : Emit} {to_idx j : Nat}
    (h : e.feeds to_idx) (hj : j ≠ to_idx) (flag : Bool) :
    (e.ops n next j).foldl pending_step flag = flag := by
  cases e with
  | transfer t f rn sn size =>
    obtain ⟨h1, _⟩ := h
    subst h1
    have h2 : ¬ (t = j ∧ j < n) := fun hc => hj hc.1.symm
    simp only [Emit.ops, if_neg h2, List.nil_append]
    split
    · rfl
    · rfl
  | dram t name size =>
    have h1 : t = to_idx := h
    subst h1
    have h2 : ¬ (t = j ∧ j < n) := fun hc => hj hc.1.symm
    simp only [Emit.ops, if_neg h2]
    rfl
  | compute _ _ => exact h.elim

theorem pending_run_feeds {to_idx j : Nat} (hj : j ≠ to_idx) (es : List Emit)
    (h : ∀ e ∈ es, e.feeds to_idx) (st : GenState) :
    pending ((queues_of (run_emits st es).traces).getD j []) =
      pending ((queues_of st.traces).getD j []) := by
  induction es generalizing st with
  | nil => rfl
  | cons e t ih =>
    rw [run_emits_cons, ih (fun e2 he2 => h e2 (List.mem_cons_of_mem _ he2)), apply_queue,
      pending_append]
    exact foldl_pending_feeds (h e (List.mem_cons_self _ _)) hj _

theorem pending_out_of_range (st : GenState) (j : Nat) (h : st.traces.length ≤ j) :
    pending ((queues_of st.traces).getD j []) = false := by
  rw [List.getD_eq_getElem?_getD, List.getElem?_eq_none (by rw [length_queues_of]; exact h)]
  rfl

theorem pending_apply_compute (st : GenState) (to_idx : Nat) (name : String) (j : Nat) :
    pending ((queues_of ((Emit.compute to_idx name).apply st).traces).getD j []) =
      if to_idx = j ∧ j < st.traces.length then false
      else pending ((queues_of st.traces).getD j []) := by
  rw [apply_queue, pending_append]
  simp only [Emit.ops]
  split
  · rfl
  · rfl

theorem entry_no_pending (env : Env) (m : XyMap) (l : LNode) (entry : fmap_range × pos_t)
    (st : GenState) (h : NoPending st) : NoPending (run_emits st (entry_emits env m l entry)) := by
  rcases entry_emits_shape env m l entry with ⟨h0, _⟩ | ⟨to_idx, pre, _, _, h3, h4⟩
  · rw [h0]
    exact h
  · rw [h3, run_emits_append]
    intro j
    show pending ((queues_of ((Emit.compute to_idx l.layer.name).apply
      (run_emits st pre)).traces).getD j []) = false
    rw [pending_apply_compute]
    split
    · rfl
    · rename_i hc
      by_cases hj : j = to_idx
      · subst hj
        exact pending_out_of_range _ _ (by
          have : ¬ j < (run_emits st pre).traces.length := fun hlt => hc ⟨rfl, hlt⟩
          omega)
      · rw [pending_run_feeds hj pre h4]
        exact h j

theorem leaf_no_pending (env : Env) (m : XyMap) (l : LNode) (st : GenState)
    (h : NoPending st) : NoPending (run_emits st (leaf_emits env m l)) := by
  unfold leaf_emits
  induction l.ofm_layout generalizing st with
  | nil => exact h
  | cons entry rest ih =>
    rw [List.flatMap_cons, run_emits_append]
    exact ih _ (entry_no_pending env m l entry st h)

theorem tree_no_pending (env : Env) (m : XyMap) (root : SchNode) {es : List Emit}
    (hes : transfer_emits env m root = some es) (st : GenState) (h : NoPending st) :
    NoPending (run_emits st es) := by
  unfold transfer_emits at hes
  have hsim := visit_sim env.tot_batch (fun l => l) (fun _ _ => True) (fun _ _ _ _ => trivial)
    (fun (acc : List Emit) (_ : Unit) => ∀ s, NoPending s → NoPending (run_emits s acc))
    (fun l _ acc => acc ++ leaf_emits env m l) (fun _ _ u => u) root
    (fun l _ _ _ acc _ _ hacc => by
      have hacc2 : ∀ s, NoPending s → NoPending (run_emits s acc) := hacc
      show ∀ s, NoPending s → NoPending (run_emits s (acc ++ leaf_emits env m l))
      intro s hs
      rw [run_emits_append]
      exact leaf_no_pending env m l _ (hacc2 s hs))
    0 0 [] () trivial (fun s hs => hs)
  rw [hes] at hsim
  cases hv : visit env.tot_batch (fun (_ : LNode) (_ : Nat) (u : Unit) => u)
      (root.map fun l => l) 0 () with
  | none => rw [hv] at hsim; exact hsim.elim
  | some u => rw [hv] at hsim; exact hsim st h

/-- When the scan ends with the flag down, every RECEIVE of the queue has a
COMPUTE behind it, and so has the front of the queue if the flag was up. -/
theorem pending_followed (l : List Operation) :
    ∀ (flag : Bool), l.foldl pending_step flag = false →
      (∀ (k : Nat) (r : Operation), l[k]? = some r → r.type = OpType.RECV →
        ∃ (k2 : Nat) (c : Operation), k < k2 ∧ l[k2]? = some c ∧ c.type = OpType.COMPUTE) ∧
      (flag = true →
        ∃ (k2 : Nat) (c : Operation), l[k2]? = some c ∧ c.type = OpType.COMPUTE) := by
  induction l with
  | nil =>
    intro flag h
    refine ⟨fun k r hk => by simp at hk, fun hf => ?_⟩
    rw [List.foldl_nil] at h
    rw [h] at hf
    cases hf
  | cons op t ih =>
    intro flag h
    rw [List.foldl_cons] at h
    obtain ⟨ih1, ih2⟩ := ih (pending_step flag op) h
    constructor
    · intro k r hk hr
      cases k with
      | zero =>
        simp only [List.getElem?_cons_zero, Option.some.injEq] at hk
        subst hk
        have hstep : pending_step flag op = true := by
          unfold pending_step
          rw [hr]
        obtain ⟨k2, c, hc1, hc2⟩ := ih2 hstep
        exact ⟨k2 + 1, c, Nat.succ_pos _, by rw [List.getElem?_cons_succ]; exact hc1, hc2⟩
      | succ k1 =>
        rw [List.getElem?_cons_succ] at hk
        obtain ⟨k2, c, hlt, hc1, hc2⟩ := ih1 k1 r hk hr
        exact ⟨k2 + 1, c, by omega, by rw [List.getElem?_cons_succ]; exact hc1, hc2⟩
    · intro hf
      cases hty : op.type with
      | COMPUTE => exact ⟨0, op, List.getElem?_cons_zero, hty⟩
      | SEND =>
        have hstep : pending_step flag op = true := by
          unfold pending_step
          rw [hty]
          exact hf
        obtain ⟨k2, c, hc1, hc2⟩ := ih2 hstep
        exact ⟨k2 + 1, c, by rw [List.getElem?_cons_succ]; exact hc1, hc2⟩
      | RECV =>
        have hstep : pending_step flag op = true := by
          unfold pending_step
          rw [hty]
        obtain ⟨k2, c, hc1, hc2⟩ := ih2 hstep
        exact ⟨k2 + 1, c, by rw [List.getElem?_cons_succ]; exact hc1, hc2⟩

/-! ### The two properties on what `generate` returns -/

theorem mesh_init_comps (env : Env) (xlen ylen : Nat) :
    comps_of (mesh_init env xlen ylen).1 = List.replicate (xlen * ylen) [] := by
  unfold mesh_init
  apply foldl_preserves_mem
    (P := fun acc : List SingleChipletTrace × XyMap =>
      comps_of acc.1 = List.replicate (xlen * ylen) [])
  · intro acc y _ hacc
    apply foldl_preserves_mem
      (P := fun acc : List SingleChipletTrace × XyMap =>
        comps_of acc.1 = List.replicate (xlen * ylen) [])
    · intro acc2 x _ h2
      unfold mesh_body
      dsimp only
      unfold comps_of
      exact (map_modify_same SingleChipletTrace.computations
        (fun ct => { ct with chiplet_id := ((y * xlen + x : Nat) : Int), pos_x := x, pos_y := y })
        (fun _ => rfl) _ _).trans h2
    · exact hacc
  · simp [comps_of, SingleChipletTrace.blank]

theorem length_push_tasks (traces : List SingleChipletTrace)
    (ts : List (Nat × ComputationTask)) : (push_tasks traces ts).length = traces.length := by
  induction ts generalizing traces with
  | nil => rfl
  | cons p t ih =>
    have hstep : push_tasks traces (p :: t) = push_tasks (push_computation traces p.1 p.2) t :=
      rfl
    rw [hstep, ih, length_push_computation]

theorem getD_replicate_nil_tasks (n i : Nat) :
    (List.replicate n ([] : List ComputationTask)).getD i [] = [] := by
  rw [List.getD_eq_getElem?_getD]
  by_cases h : i < n
  · rw [List.getElem?_eq_getElem (by simpa using h)]
    simp
  · rw [List.getElem?_eq_none (by simpa using h)]
    rfl

/-- On what `generate` returns, the COMPUTE labels of each tile are the layer
names of its tasks, and no queue ends with a RECEIVE waiting for a COMPUTE. -/
theorem generate_labels (env : Env) (root : SchNode) (xlen ylen : Nat) (t : FullTrace)
    (h : (TraceGenerator.new root xlen ylen).generate env = some t) (i : Nat) :
    compute_labels (t.chip_ops.getD i []) =
        task_labels ((comps_of t.chiplet_traces).getD i []) ∧
      pending (t.chip_ops.getD i []) = false := by
  unfold TraceGenerator.generate TraceGenerator.new at h
  dsimp only at h
  obtain ⟨hq, _⟩ := mesh_init_spec env xlen ylen
  have hc := mesh_init_comps env xlen ylen
  rw [collect_computations_eq_tasks] at h
  cases hts : contributed_tasks env (mesh_init env xlen ylen).2 root 0 with
  | none => rw [hts] at h; cases h
  | some ts =>
    rw [hts] at h
    simp only [Option.map_some'] at h
    rw [collect_transfers_eq_emits] at h
    cases hes : transfer_emits env (mesh_init env xlen ylen).2 root with
    | none => rw [hes] at h; cases h
    | some es =>
      rw [hes] at h
      simp only [Option.map_some', Option.some.injEq] at h
      subst h
      have hq1 : queues_of (push_tasks (mesh_init env xlen ylen).1 ts) =
          List.replicate (xlen * ylen) [] := by
        have := collect_computations_queues env (mesh_init env xlen ylen).2 root 0
          (mesh_init env xlen ylen).1 (push_tasks (mesh_init env xlen ylen).1 ts)
          (by rw [collect_computations_eq_tasks, hts]; rfl)
        rw [this, hq]
      constructor
      · show compute_labels ((queues_of (run_emits _ es).traces).getD i []) =
          task_labels ((comps_of (run_emits _ es).traces).getD i [])
        rw [run_emits_queue, comps_of_run_emits, compute_labels_append, compute_labels_emitted]
        dsimp only
        rw [hq1, getD_replicate_nil, task_labels_push_tasks, hc, getD_replicate_nil_tasks,
          length_push_tasks]
        simp only [compute_labels, task_labels, List.filter_nil, List.map_nil, List.nil_append]
        exact tree_labels env _ root _ i hes hts
      · show pending ((queues_of (run_emits _ es).traces).getD i []) = false
        refine tree_no_pending env _ root hes _ ?_ i
        intro j
        dsimp only
        rw [hq1, getD_replicate_nil]
        rfl

end ChipletTrace

namespace ChipletTrace

/-! ### Auxiliary facts for the claims on ids, counterparts and labels -/

theorem recv_ids_exact {n : Nat} {st : GenState} (h : IdInv n st) (T : Int) :
    count_ops (fun o => decide (o.type = OpType.RECV ∧ o.transfer_id = T))
        (queues_of st.traces) =
      if 0 ≤ T ∧
          T < ((count_ops (fun o => decide (o.type = OpType.RECV)) (queues_of st.traces) : Nat) :
            Int) then 1
      else 0 := by
  rw [h.recv_total]
  by_cases hT : 0 ≤ T ∧ T < st.next_transfer_id_
  · rw [if_pos hT]
    obtain ⟨i, r, hr, hr1, hr2⟩ := h.recv_exists T hT.1 hT.2
    have h1 : 1 ≤ count_ops (fun o => decide (o.type = OpType.RECV ∧ o.transfer_id = T))
        (queues_of st.traces) :=
      count_ops_pos hr (by simp [hr1, hr2])
    have h2 := h.inv.uniq_recv T
    omega
  · rw [if_neg hT]
    apply count_ops_eq_zero
    intro i op hop
    rw [decide_eq_false_iff_not]
    rintro ⟨h1, h2⟩
    have := h.inv.fresh i op hop (by rw [h1]; decide)
    rw [h2] at this
    exact hT this

theorem verify_returns (t : FullTrace) : ∃ b, t.verify_deadlock_free = some b := by
  obtain ⟨b, qf, e, _⟩ := verify_loop_returns (total_ops t.chip_ops + 1) t.chip_ops (by omega)
  exact ⟨b, verify_deadlock_free_eq.mpr ⟨qf, e⟩⟩

theorem verify_true_paired {t : FullTrace} (h : t.verify_deadlock_free = some true) {i : Nat}
    {op : Operation} (hop : op ∈ t.chip_ops.getD i [])
    (hty : op.type = OpType.SEND ∨ op.type = OpType.RECV) (hp : 0 ≤ op.peer_id) :
    ∃ j, j ≠ i ∧ ∃ b ∈ t.chip_ops.getD j [], counterpart op b := by
  obtain ⟨qf, hrun⟩ := verify_deadlock_free_eq.mp h
  have hc : op.type ≠ OpType.COMPUTE := by
    rcases hty with h1 | h1 <;> rw [h1] <;> decide
  obtain ⟨j, hj, b, hb, hm⟩ := verify_loop_true_paired hrun hop hc hp
  exact ⟨j, hj, b, hb, (matches_iff_counterpart op b).mp hm⟩

theorem tile_of_mem {t : FullTrace} {ct : SingleChipletTrace} (h : ct ∈ t.chiplet_traces) :
    ∃ i, t.chip_ops.getD i [] = ct.operations ∧
      (comps_of t.chiplet_traces).getD i [] = ct.computations := by
  obtain ⟨i, hi⟩ := List.mem_iff_getElem?.mp h
  refine ⟨i, ?_, ?_⟩
  · unfold FullTrace.chip_ops
    rw [List.getD_eq_getElem?_getD, List.getElem?_map, hi]
    rfl
  · unfold comps_of
    rw [List.getD_eq_getElem?_getD, List.getElem?_map, hi]
    rfl

theorem labels_pointwise {ops : List Operation} {tasks : List ComputationTask}
    (h : compute_labels ops = task_labels tasks) :
    (ops.filter fun o => decide (o.type = OpType.COMPUTE)).length = tasks.length ∧
      ∀ (i : Nat) (c : Operation) (task : ComputationTask),
        (ops.filter fun o => decide (o.type = OpType.COMPUTE))[i]? = some c →
        tasks[i]? = some task → c.layer_name = task.layer_name := by
  unfold compute_labels task_labels at h
  constructor
  · have := congrArg List.length h
    simpa using this
  · intro i c task hc ht
    have := congrArg (fun l => l[i]?) h
    simp only [List.getElem?_map, hc, ht, Option.map_some', Option.some.injEq] at this
    exact this

end ChipletTrace

namespace ChipletTrace

/-! ### What pass 1 leaves on each tile -/

theorem tile_tasks_append (n i : Nat) (a b : List (Nat × ComputationTask)) :
    tile_tasks n i (a ++ b) = tile_tasks n i a ++ tile_tasks n i b := by
  unfold tile_tasks
  rw [List.filter_append, List.map_append]

theorem comps_push_tasks (traces : List SingleChipletTrace)
    (ts : List (Nat × ComputationTask)) (i : Nat) :
    (comps_of (push_tasks traces ts)).getD i [] =
      (comps_of traces).getD i [] ++ tile_tasks traces.length i ts := by
  induction ts generalizing traces with
  | nil => simp [push_tasks, tile_tasks]
  | cons p t ih =>
    have hstep : push_tasks traces (p :: t) = push_tasks (push_computation traces p.1 p.2) t :=
      rfl
    rw [hstep, ih, length_push_computation, comps_of_push_computation, getD_modify_append,
      length_comps_of]
    have hsplit : tile_tasks traces.length i (p :: t) =
        tile_tasks traces.length i [p] ++ tile_tasks traces.length i t :=
      tile_tasks_append _ _ [p] t
    rw [hsplit]
    by_cases h : p.1 = i ∧ i < traces.length
    · rw [if_pos h]
      simp [tile_tasks, List.filter_cons, h]
    · rw [if_neg h]
      simp [tile_tasks, List.filter_cons, h]

theorem queues_of_push_tasks (traces : List SingleChipletTrace)
    (ts : List (Nat × ComputationTask)) : queues_of (push_tasks traces ts) = queues_of traces := by
  induction ts generalizing traces with
  | nil => rfl
  | cons p t ih =>
    have hstep : push_tasks traces (p :: t) = push_tasks (push_computation traces p.1 p.2) t :=
      rfl
    rw [hstep, ih, queues_of_push_computation]

/-- The result of pass 1 on a tree, tile by tile: the lists of operations are
left alone and each computation list grows by the tasks of the walk that go to
its tile. -/
theorem collect_computations_tiles (env : Env) (m : XyMap) (node : SchNode) (a : Nat)
    (traces traces1 : List SingleChipletTrace)
    (h : collect_computations env m node a traces = some traces1) :
    ∃ ts, contributed_tasks env m node a = some ts ∧ traces1.length = traces.length ∧
      queues_of traces1 = queues_of traces ∧
      ∀ i, (comps_of traces1).getD i [] =
        (comps_of traces).getD i [] ++ tile_tasks traces.length i ts := by
  rw [collect_computations_eq_tasks] at h
  cases hts : contributed_tasks env m node a with
  | none => rw [hts] at h; cases h
  | some ts =>
    rw [hts] at h
    simp only [Option.map_some', Option.some.injEq] at h
    subst h
    exact ⟨ts, rfl, length_push_tasks traces ts, queues_of_push_tasks traces ts,
      comps_push_tasks traces ts⟩

theorem collect_computations_two_groups (env : Env) (m : XyMap) (children : List SchNode)
    (ts : List (Nat × ComputationTask)) (htot : env.tot_batch = 8)
    (hts : children_tasks env m children 0 = some ts) (traces : List SingleChipletTrace) :
    ∃ traces1, collect_computations env m (SchNode.Cut 2 children) 0 traces = some traces1 ∧
      ∀ i, (comps_of traces1).getD i [] =
        (comps_of traces).getD i [] ++ tile_tasks traces.length i ts ++
          tile_tasks traces.length i (ts.map (shift_batch 4)) := by
  refine ⟨push_tasks traces (ts ++ ts.map (shift_batch 4)), ?_, ?_⟩
  · rw [collect_computations_eq_tasks, contributed_tasks_two_groups env m children ts htot hts]
    rfl
  · intro i
    rw [comps_push_tasks, tile_tasks_append, List.append_assoc]

end ChipletTrace

namespace ChipletTrace

/-! ### The ids of a call that starts with the counter at `s` -/

theorem generate_run_fst (env : Env) (g : TraceGenerator) :
    (g.generate_run env).map Prod.fst = g.generate env := by
  unfold TraceGenerator.generate_run TraceGenerator.generate
  dsimp only
  cases collect_computations env (mesh_init env g.xlen_ g.ylen_).2 g.root_ 0
      (mesh_init env g.xlen_ g.ylen_).1 with
  | none => rfl
  | some traces =>
    dsimp only
    cases collect_transfers env (mesh_init env g.xlen_ g.ylen_).2 g.root_ 0
        { traces := traces, next_transfer_id_ := g.next_transfer_id_ } with
    | none => rfl
    | some st => rfl

theorem shift_tid_type (d : Int) (op : Operation) : (shift_tid d op).type = op.type := by
  unfold shift_tid
  split <;> rfl

theorem shift_tid_id (d : Int) (op : Operation) (h : op.type ≠ OpType.COMPUTE) :
    (shift_tid d op).transfer_id = op.transfer_id + d := by
  unfold shift_tid
  rw [if_neg h]

theorem shift_tid_compute (d : Int) (op : Operation) (h : op.type = OpType.COMPUTE) :
    shift_tid d op = op := by
  unfold shift_tid
  rw [if_pos h]

theorem queue_ids_shift (d : Int) (l : List Operation) :
    queue_ids (l.map (shift_tid d)) = (queue_ids l).map (· + d) := by
  induction l with
  | nil => rfl
  | cons op t ih =>
    have h1 : queue_ids (op :: t) =
        (if op.type = OpType.COMPUTE then [] else [op.transfer_id]) ++ queue_ids t := by
      unfold queue_ids
      by_cases hc : op.type = OpType.COMPUTE <;> simp [List.filter_cons, hc]
    have h2 : queue_ids (shift_tid d op :: t.map (shift_tid d)) =
        (if op.type = OpType.COMPUTE then [] else [op.transfer_id + d]) ++
          queue_ids (t.map (shift_tid d)) := by
      unfold queue_ids
      by_cases hc : op.type = OpType.COMPUTE
      · simp [List.filter_cons, hc, shift_tid_type]
      · simp [List.filter_cons, hc, shift_tid_type, shift_tid_id d op hc]
    rw [List.map_cons, h2, h1, ih, List.map_append]
    by_cases hc : op.type = OpType.COMPUTE <;> simp [hc]

theorem getD_map_map (f : Operation → Operation) (q : Queues) (i : Nat) :
    (q.map (List.map f)).getD i [] = (q.getD i []).map f := by
  rw [List.getD_eq_getElem?_getD, List.getD_eq_getElem?_getD, List.getElem?_map]
  cases q[i]? <;> rfl

theorem count_ops_map (p : Operation → Bool) (f : Operation → Operation) (q : Queues) :
    count_ops p (q.map (List.map f)) = count_ops (p ∘ f) q := by
  unfold count_ops
  rw [List.map_map]
  congr 1
  apply List.map_congr_left
  intro l _
  exact List.countP_map p f l

/-- The three properties of the ids carry over from the queues of a run that
starts at 0 to the same queues with every allocated id raised by `s`. -/
theorem id_props_shift {n : Nat} {st : GenState} (h : IdInv n st) (s : Int) :
    (∀ i, (queue_ids (((queues_of st.traces).map (List.map (shift_tid s))).getD i [])).Pairwise
      (· < ·)) ∧
    ((count_ops (fun o => decide (o.type = OpType.RECV))
        ((queues_of st.traces).map (List.map (shift_tid s))) : Nat) : Int) =
      st.next_transfer_id_ ∧
    (∀ T : Int,
      count_ops (fun o => decide (o.type = OpType.RECV ∧ o.transfer_id = T))
          ((queues_of st.traces).map (List.map (shift_tid s))) =
        if s ≤ T ∧ T < s + st.next_transfer_id_ then 1 else 0) ∧
    (∀ i, ∀ op ∈ ((queues_of st.traces).map (List.map (shift_tid s))).getD i [],
      op.type = OpType.COMPUTE → op.transfer_id = -1 ∧ op.peer_id = -2 ∧ op.data_size = 0) := by
  refine ⟨?_, ?_, ?_, ?_⟩
  · intro i
    rw [getD_map_map, queue_ids_shift]
    exact (h.increasing i).map _ (fun a b hab => by
      show a + s < b + s
      omega)
  · rw [count_ops_map]
    have hfun : ((fun o : Operation => decide (o.type = OpType.RECV)) ∘ shift_tid s) =
        fun o => decide (o.type = OpType.RECV) := by
      funext o
      simp [Function.comp, shift_tid_type]
    rw [hfun]
    exact h.recv_total
  · intro T
    rw [count_ops_map]
    have hfun : ((fun o : Operation => decide (o.type = OpType.RECV ∧ o.transfer_id = T)) ∘
        shift_tid s) = fun o => decide (o.type = OpType.RECV ∧ o.transfer_id = T - s) := by
      funext o
      by_cases hr : o.type = OpType.RECV
      · have hc : o.type ≠ OpType.COMPUTE := by rw [hr]; decide
        simp only [Function.comp, shift_tid_type, shift_tid_id s o hc, hr, true_and]
        by_cases hT : o.transfer_id + s = T
        · have : o.transfer_id = T - s := by omega
          simp [hT, this]
        · have : ¬ o.transfer_id = T - s := by omega
          simp [hT, this]
      · simp [Function.comp, shift_tid_type, hr]
    rw [hfun]
    have := recv_ids_exact h (T - s)
    rw [h.recv_total] at this
    rw [this]
    by_cases hT : s ≤ T ∧ T < s + st.next_transfer_id_
    · rw [if_pos hT, if_pos (by omega)]
    · rw [if_neg hT, if_neg (by omega)]
  · intro i op hop hc
    rw [getD_map_map] at hop
    obtain ⟨op0, hop0, rfl⟩ := List.mem_map.mp hop
    rw [shift_tid_type] at hc
    rw [shift_tid_compute s op0 hc]
    exact h.inv.compute_shape i op0 hop0 hc

/-- A call of `generate` with the counter at `s`: the queues are those of the
same call started at 0 with every allocated id raised by `s`, and the counter
ends at `s` plus the number of ids the call from 0 allocates. -/
theorem generate_run_shift (env : Env) (g g1 : TraceGenerator) (t : FullTrace)
    (h : g.generate_run env = some (t, g1)) :
    ∃ st0 : GenState, IdInv (g.xlen_ * g.ylen_) st0 ∧
      t.chip_ops = (queues_of st0.traces).map (List.map (shift_tid g.next_transfer_id_)) ∧
      g1 = { g with next_transfer_id_ := g.next_transfer_id_ + st0.next_transfer_id_ } := by
  unfold TraceGenerator.generate_run at h
  dsimp only at h
  obtain ⟨hq, hm⟩ := mesh_init_spec env g.xlen_ g.ylen_
  cases h1 : collect_computations env (mesh_init env g.xlen_ g.ylen_).2 g.root_ 0
      (mesh_init env g.xlen_ g.ylen_).1 with
  | none => rw [h1] at h; cases h
  | some traces =>
    rw [h1] at h
    dsimp only at h
    have hq1 := collect_computations_queues env _ g.root_ 0 _ traces h1
    have hqs : queues_of traces = List.replicate (g.xlen_ * g.ylen_) [] := by rw [hq1, hq]
    rw [collect_transfers_eq_emits] at h
    cases hes : transfer_emits env (mesh_init env g.xlen_ g.ylen_).2 g.root_ with
    | none => rw [hes] at h; cases h
    | some es =>
      rw [hes] at h
      simp only [Option.map_some', Option.some.injEq, Prod.mk.injEq] at h
      obtain ⟨ht, hg1⟩ := h
      subst ht
      have h0 : IdInv (g.xlen_ * g.ylen_) { traces := traces, next_transfer_id_ := 0 } := by
        refine ⟨?_, ?_, ?_, ?_⟩
        · unfold GenState.inv
          dsimp only
          rw [hqs]
          exact gen_inv_init _
        · intro i
          dsimp only
          rw [hqs, getD_replicate_nil]
          exact List.Pairwise.nil
        · dsimp only
          rw [hqs]
          have : count_ops (fun o => decide (o.type = OpType.RECV))
              (List.replicate (g.xlen_ * g.ylen_) []) = 0 :=
            count_ops_eq_zero (fun i op hop => by
              rw [getD_replicate_nil] at hop
              simp at hop)
          rw [this]
          rfl
        · intro T h0 h1
          dsimp only at h1
          omega
      have hrun0 : collect_transfers env (mesh_init env g.xlen_ g.ylen_).2 g.root_ 0
          { traces := traces, next_transfer_id_ := 0 } =
          some (run_emits { traces := traces, next_transfer_id_ := 0 } es) := by
        rw [collect_transfers_eq_emits, hes]
        rfl
      refine ⟨run_emits { traces := traces, next_transfer_id_ := 0 } es,
        collect_transfers_preserves (emit_closed_id_inv _) env hm g.root_ 0 _ _ h0 hrun0, ?_, ?_⟩
      · show queues_of (run_emits _ es).traces = _
        apply queues_ext
        · rw [List.length_map, length_queues_of, length_queues_of, run_emits_length,
            run_emits_length]
        · intro i
          rw [getD_map_map, run_emits_queue, run_emits_queue]
          dsimp only
          rw [hqs, getD_replicate_nil, List.nil_append, List.nil_append]
          have := emitted_ops_shift traces.length i 0 g.next_transfer_id_ es
          rw [Int.zero_add] at this
          exact this
      · rw [← hg1, run_emits_next, run_emits_next]
        dsimp only
        rw [Int.zero_add]

end ChipletTrace

namespace ChipletTrace

/-! ## The claims -/

/-- Claim C1: for every placement tree whose grouping nodes all have a
batch-group count of at least 1, and every mesh `xlen` x `ylen`, `generate`
returns a trace and `verify_deadlock_free` returns true on it. -/
theorem generated_trace_accepted (env : Env) (root : SchNode) (xlen ylen : Nat)
    (hp : root.bgrp_pos = true) :
    ∃ t, (TraceGenerator.new root xlen ylen).generate env = some t ∧
      t.verify_deadlock_free = some true := by
  obtain ⟨t, ht⟩ := generate_total env root xlen ylen hp
  obtain ⟨next, hinv⟩ := generate_inv env root xlen ylen t ht
  exact ⟨t, ht, verify_of_inv hinv⟩

/-- Witness for C1 on the demo tree and the 2 x 1 mesh. -/
theorem generated_trace_accepted_witness :
    demo_tree.bgrp_pos = true ∧
      ∃ t, (TraceGenerator.new demo_tree 2 1).generate demo_env = some t ∧
        t.verify_deadlock_free = some true :=
  ⟨by decide, generated_trace_accepted demo_env demo_tree 2 1 (by decide)⟩

/-- Counterexample to C2 as stated: tile 0 holds a RECEIVE from external memory
with transfer id 0 and tile 1 a SEND to tile 0 with the same id. Removing both
heads together is a legal completion order, yet the verifier pops the RECEIVE
alone and then reports a deadlock. -/
theorem verify_iff_completion_fails :
    ¬ ((trace_of_queues [[recv_op (-1) 0 "" 0], [send_op 0 0 "" 0]]).verify_deadlock_free
          = some true ↔
        LegalCompletion
          (trace_of_queues [[recv_op (-1) 0 "" 0], [send_op 0 0 "" 0]]).chip_ops) := by
  intro h
  have hf1 : front [[recv_op (-1) 0 "" 0], [send_op 0 0 "" 0]] 1 = some (send_op 0 0 "" 0) := rfl
  have hf0 : front [[recv_op (-1) 0 "" 0], [send_op 0 0 "" 0]] 0 = some (recv_op (-1) 0 "" 0) :=
    rfl
  have hstep := LegalStep.rendezvous (P := 0) hf1 rfl (by decide) hf0 rfl
  have hc : LegalCompletion
      (trace_of_queues [[recv_op (-1) 0 "" 0], [send_op 0 0 "" 0]]).chip_ops :=
    LegalCompletion.step hstep (LegalCompletion.done rfl)
  have hv := h.mpr hc
  have hfalse : (trace_of_queues
      [[recv_op (-1) 0 "" 0], [send_op 0 0 "" 0]]).verify_deadlock_free = some false := rfl
  rw [hfalse] at hv
  cases hv

/-- Claim C2, amended: whenever `verify_deadlock_free` returns true a legal
completion order exists; and when matching operations name each other's tile
as peer, a legal completion order exists only if the verifier returns true. -/
theorem verify_true_iff_completion (t : FullTrace) :
    (t.verify_deadlock_free = some true → LegalCompletion t.chip_ops) ∧
      (PeerSymmetric t.chip_ops →
        (t.verify_deadlock_free = some true ↔ LegalCompletion t.chip_ops)) := by
  have hsound : t.verify_deadlock_free = some true → LegalCompletion t.chip_ops := by
    intro h
    obtain ⟨qf, hqf⟩ := verify_deadlock_free_eq.mp h
    exact verify_loop_sound hqf
  refine ⟨hsound, fun hsym => ⟨hsound, fun hc => ?_⟩⟩
  obtain ⟨qf, hqf⟩ :=
    verify_loop_complete (total_ops t.chip_ops + 1) t.chip_ops hc hsym (by omega)
  exact verify_deadlock_free_eq.mpr ⟨qf, hqf⟩

/-- Witness for C2 (amended) on the demo queues, where the only matching pair
is the SEND of tile 0 and the RECEIVE of tile 1. -/
theorem verify_true_iff_completion_witness :
    PeerSymmetric (trace_of_queues demo_queues).chip_ops ∧
      ((trace_of_queues demo_queues).verify_deadlock_free = some true ↔
        LegalCompletion (trace_of_queues demo_queues).chip_ops) := by
  have hsym : PeerSymmetric (trace_of_queues demo_queues).chip_ops := by
    intro i j a b ha hb hm
    have hq : (trace_of_queues demo_queues).chip_ops = demo_queues := rfl
    rw [hq] at ha hb
    rw [matches_true_iff] at hm
    rcases i with _ | _ | i <;> rcases j with _ | _ | j <;>
      simp [demo_queues] at ha hb <;>
      rcases ha with rfl | rfl | rfl <;> rcases hb with rfl | rfl | rfl <;> simp at hm ⊢
  exact ⟨hsym, (verify_true_iff_completion (trace_of_queues demo_queues)).2 hsym⟩

/-- Claim C3: in every trace `generate` returns, a SEND on tile `s` with a real
peer has exactly one RECEIVE with its transfer id in the whole trace, located
on the peer tile `d`, with `d` different from `s` and naming `s` as peer; a
RECEIVE with a real peer has exactly one SEND with its id, on the peer tile and
naming the receiver; and a RECEIVE from external memory shares its id with no
other operation. -/
theorem generated_transfers_paired (env : Env) (root : SchNode) (xlen ylen : Nat)
    (t : FullTrace) (h : (TraceGenerator.new root xlen ylen).generate env = some t) :
    (∀ (s : Nat) (op : Operation), op ∈ t.chip_ops.getD s [] → op.type = OpType.SEND →
        0 ≤ op.peer_id →
        count_ops (fun o => decide (o.type = OpType.RECV ∧ o.transfer_id = op.transfer_id))
            t.chip_ops = 1 ∧
          ∃ d : Nat, op.peer_id = (d : Int) ∧ d ≠ s ∧
            ∃ r ∈ t.chip_ops.getD d [], r.type = OpType.RECV ∧
              r.transfer_id = op.transfer_id ∧ r.peer_id = (s : Int)) ∧
    (∀ (d : Nat) (r : Operation), r ∈ t.chip_ops.getD d [] → r.type = OpType.RECV →
        0 ≤ r.peer_id →
        count_ops (fun o => decide (o.type = OpType.SEND ∧ o.transfer_id = r.transfer_id))
            t.chip_ops = 1 ∧
          ∃ s : Nat, r.peer_id = (s : Int) ∧
            ∃ op ∈ t.chip_ops.getD s [], op.type = OpType.SEND ∧
              op.transfer_id = r.transfer_id ∧ op.peer_id = (d : Int)) ∧
    (∀ (d : Nat) (r : Operation), r ∈ t.chip_ops.getD d [] → r.type = OpType.RECV →
        r.peer_id = -1 →
        count_ops (fun o => decide (o.transfer_id = r.transfer_id)) t.chip_ops = 1) := by
  obtain ⟨next, hinv⟩ := generate_inv env root xlen ylen t h
  refine ⟨?_, ?_, ?_⟩
  · intro s op hop ht _
    obtain ⟨d, e1, e2, _, r, hr, e4, e5, e6⟩ := hinv.send_paired s op hop ht
    refine ⟨?_, d, e1, e2, r, hr, e4, e5, e6⟩
    have hle := hinv.uniq_recv op.transfer_id
    have hge := count_ops_pos
      (p := fun o => decide (o.type = OpType.RECV ∧ o.transfer_id = op.transfer_id)) hr
      (by simp [e4, e5])
    omega
  · intro d r hr ht hp
    obtain ⟨s, e1, _, _, op, hop, e4, e5, e6⟩ := hinv.recv_paired d r hr ht hp
    refine ⟨?_, s, e1, op, hop, e4, e5, e6⟩
    have hle := hinv.uniq_send r.transfer_id
    have hge := count_ops_pos
      (p := fun o => decide (o.type = OpType.SEND ∧ o.transfer_id = r.transfer_id)) hop
      (by simp [e4, e5])
    omega
  · intro d r hr ht hp
    exact (hinv.recv_dram d r hr ht (by omega)).2

/-- Witness for C3 on the demo tree: the trace `generate` returns carries the
demo queues and satisfies the pairing statement. -/
theorem generated_transfers_paired_witness :
    ∃ t, (TraceGenerator.new demo_tree 2 1).generate demo_env = some t ∧
      t.chip_ops = demo_queues ∧
      (∀ (d : Nat) (r : Operation), r ∈ t.chip_ops.getD d [] → r.type = OpType.RECV →
        r.peer_id = -1 →
        count_ops (fun o => decide (o.transfer_id = r.transfer_id)) t.chip_ops = 1) := by
  obtain ⟨t, ht⟩ : ∃ t, (TraceGenerator.new demo_tree 2 1).generate demo_env = some t :=
    Option.isSome_iff_exists.mp (by decide)
  have hq : ((TraceGenerator.new demo_tree 2 1).generate demo_env).map FullTrace.chip_ops
      = some demo_queues := by decide
  rw [ht] at hq
  exact ⟨t, ht, by simpa using hq, (generated_transfers_paired demo_env demo_tree 2 1 t ht).2.2⟩

/-- Claim C4: on every two-tile trace with tile 0 queue
[SEND(peer=1,tid=0), RECEIVE(peer=1,tid=1)] and tile 1 queue
[SEND(peer=0,tid=1), RECEIVE(peer=0,tid=0)], whatever the labels and sizes,
`verify_deadlock_free` returns false. -/
theorem literal_deadlock_detected (t : FullTrace) (n1 n2 n3 n4 : String) (s1 s2 s3 s4 : Nat)
    (h : t.chip_ops =
      [[send_op 1 0 n1 s1, recv_op 1 1 n2 s2], [send_op 0 1 n3 s3, recv_op 0 0 n4 s4]]) :
    t.verify_deadlock_free = some false := by
  unfold FullTrace.verify_deadlock_free FullTrace.verify_run
  rw [h]
  rfl

/-- Witness for C4 with empty labels and zero sizes. -/
theorem literal_deadlock_detected_witness :
    (trace_of_queues
        [[send_op 1 0 "" 0, recv_op 1 1 "" 0], [send_op 0 1 "" 0, recv_op 0 0 "" 0]]).chip_ops =
        [[send_op 1 0 "" 0, recv_op 1 1 "" 0], [send_op 0 1 "" 0, recv_op 0 0 "" 0]] ∧
      (trace_of_queues
        [[send_op 1 0 "" 0, recv_op 1 1 "" 0],
          [send_op 0 1 "" 0, recv_op 0 0 "" 0]]).verify_deadlock_free = some false :=
  ⟨rfl, literal_deadlock_detected _ "" "" "" "" 0 0 0 0 rfl⟩

/-- Claim C5: on every two-tile trace with tile 0 queue
[SEND(peer=1,tid=0), RECEIVE(peer=1,tid=1)] and tile 1 queue reordered to
[RECEIVE(peer=0,tid=0), SEND(peer=0,tid=1)], whatever the labels and sizes,
`verify_deadlock_free` returns true. -/
theorem literal_reordered_feasible (t : FullTrace) (n1 n2 n3 n4 : String) (s1 s2 s3 s4 : Nat)
    (h : t.chip_ops =
      [[send_op 1 0 n1 s1, recv_op 1 1 n2 s2], [recv_op 0 0 n3 s3, send_op 0 1 n4 s4]]) :
    t.verify_deadlock_free = some true := by
  unfold FullTrace.verify_deadlock_free FullTrace.verify_run
  rw [h]
  rfl

/-- Witness for C5 with empty labels and zero sizes. -/
theorem literal_reordered_feasible_witness :
    (trace_of_queues
        [[send_op 1 0 "" 0, recv_op 1 1 "" 0], [recv_op 0 0 "" 0, send_op 0 1 "" 0]]).chip_ops =
        [[send_op 1 0 "" 0, recv_op 1 1 "" 0], [recv_op 0 0 "" 0, send_op 0 1 "" 0]] ∧
      (trace_of_queues
        [[send_op 1 0 "" 0, recv_op 1 1 "" 0],
          [recv_op 0 0 "" 0, send_op 0 1 "" 0]]).verify_deadlock_free = some true :=
  ⟨rfl, literal_reordered_feasible _ "" "" "" "" 0 0 0 0 rfl⟩

/-- Claim C6: a trace in which every operation is a COMPUTE or a RECEIVE from
external memory (`peer_id = -1`) is accepted, whatever the number of tiles,
the queue lengths and the order inside each queue. -/
theorem external_memory_never_blocks (t : FullTrace)
    (h : ∀ ct ∈ t.chiplet_traces, ∀ op ∈ ct.operations,
      op.type = OpType.COMPUTE ∨ (op.type = OpType.RECV ∧ op.peer_id = -1)) :
    t.verify_deadlock_free = some true := by
  have hext : external_only t.chip_ops := by
    intro l hl op hop
    obtain ⟨ct, hct, rfl⟩ := chip_ops_mem hl
    exact h ct hct op hop
  obtain ⟨qf, hqf⟩ :=
    external_only_verify_loop (total_ops t.chip_ops + 1) t.chip_ops hext (by omega)
  exact verify_deadlock_free_eq.mpr ⟨qf, hqf⟩

/-- Witness for C6: two tiles, one starting with a COMPUTE and one with a RECEIVE. -/
theorem external_memory_never_blocks_witness :
    (∀ ct ∈ (trace_of_queues
          [[recv_op (-1) 0 "a" 8, ⟨OpType.COMPUTE, -2, "a", 0, -1⟩],
            [⟨OpType.COMPUTE, -2, "b", 0, -1⟩, recv_op (-1) 1 "b" 8]]).chiplet_traces,
        ∀ op ∈ ct.operations,
          op.type = OpType.COMPUTE ∨ (op.type = OpType.RECV ∧ op.peer_id = -1)) ∧
      (trace_of_queues
          [[recv_op (-1) 0 "a" 8, ⟨OpType.COMPUTE, -2, "a", 0, -1⟩],
            [⟨OpType.COMPUTE, -2, "b", 0, -1⟩, recv_op (-1) 1 "b" 8]]).verify_deadlock_free
        = some true :=
  ⟨by decide, external_memory_never_blocks _ (by decide)⟩

/-- Claim C7: for a tree that is a single leaf whose layer has no predecessors
and whose only non-empty destination sub-range `r` lies on tile 0, `generate`
returns a trace in which tile 0's queue is exactly
[RECEIVE(peer=-1, size=8*V, tid=0), COMPUTE(peer=-2, size=0, tid=-1)] with `V`
the volume of `r`, every other queue is empty, and `verify_deadlock_free`
returns true. -/
theorem single_leaf_trace (env : Env) (lnode : LNode) (xlen ylen : Nat)
    (pre post : List (fmap_range × pos_t)) (r : fmap_range) (pos : pos_t)
    (hprev : lnode.layer.prevs.count = 0)
    (hlayout : lnode.ofm_layout = pre ++ (r, pos) :: post)
    (hrest : ∀ e ∈ pre ++ post, env.is_empty e.1 = true)
    (hr : env.is_empty r = false)
    (htile : (mesh_init env xlen ylen).2.find (env.get_xyid pos) = some 0) :
    ∃ t, (TraceGenerator.new (SchNode.L lnode) xlen ylen).generate env = some t ∧
      t.chip_ops.length = xlen * ylen ∧
      t.chip_ops.getD 0 [] =
        [{ type := OpType.RECV, peer_id := -1, layer_name := lnode.layer.name ++ "_ifmap",
           data_size := 8 * env.size r, transfer_id := 0 },
         { type := OpType.COMPUTE, peer_id := -2, layer_name := lnode.layer.name,
           data_size := 0, transfer_id := -1 }] ∧
      (∀ i, i ≠ 0 → t.chip_ops.getD i [] = []) ∧
      t.verify_deadlock_free = some true := by
  obtain ⟨t, ht, hq⟩ :=
    single_leaf_queues env lnode xlen ylen pre post r pos hprev hlayout hrest hr htile
  obtain ⟨next, hinv⟩ := generate_inv env (SchNode.L lnode) xlen ylen t ht
  have hpos : 0 < xlen * ylen := (mesh_init_spec env xlen ylen).2 _ _ htile
  refine ⟨t, ht, hinv.len, ?_, ?_, verify_of_inv hinv⟩
  · rw [hq, getD_push_back, getD_push_back, getD_replicate_nil, Nat.mul_comm 8]
    simp [length_push_back, hpos]
  · intro i hi
    rw [hq, getD_push_back, getD_push_back, getD_replicate_nil]
    simp [Ne.symm hi]

/-- Witness for C7: the producer leaf of the demo on the 2 x 1 mesh. -/
theorem single_leaf_trace_witness :
    ∃ t, (TraceGenerator.new (SchNode.L demo_producer) 2 1).generate demo_env = some t ∧
      t.chip_ops.length = 2 * 1 ∧
      t.chip_ops.getD 0 [] =
        [{ type := OpType.RECV, peer_id := -1, layer_name := "L0" ++ "_ifmap",
           data_size := 8 * 32, transfer_id := 0 },
         { type := OpType.COMPUTE, peer_id := -2, layer_name := "L0",
           data_size := 0, transfer_id := -1 }] ∧
      (∀ i, i ≠ 0 → t.chip_ops.getD i [] = []) ∧
      t.verify_deadlock_free = some true :=
  single_leaf_trace demo_env demo_producer 2 1 [] [] demo_range { x := 0, y := 0 }
    (by decide) rfl (by simp) (by decide) (by decide)

/-- Claim C8: `verify_deadlock_free` returns on every input, and more
iterations than operations never change what it returns; each iteration that
does not return removes one or two operations, so the total left strictly
decreases; and it returns false exactly when the loop reaches queues that are
not all empty and whose full scan removes nothing. -/
theorem verify_terminates (t : FullTrace) :
    (∃ b, t.verify_deadlock_free = some b ∧
      ∀ fuel, total_ops t.chip_ops < fuel →
        (verify_loop fuel t.chip_ops).map Prod.fst = some b) ∧
    (∀ q q1 : Queues, scan q = some q1 →
      (total_ops q1 + 1 = total_ops q ∨ total_ops q1 + 2 = total_ops q) ∧
        total_ops q1 < total_ops q) ∧
    (t.verify_deadlock_free = some false ↔
      ∃ qf, ScanReach t.chip_ops qf ∧ all_empty qf = false ∧ scan qf = none) := by
  refine ⟨?_, ?_, verify_false_iff t⟩
  · obtain ⟨b, qf, e, _⟩ :=
      verify_loop_returns (total_ops t.chip_ops + 1) t.chip_ops (by omega)
    refine ⟨b, verify_deadlock_free_eq.mpr ⟨qf, e⟩, fun fuel hfuel => ?_⟩
    rw [verify_loop_fuel fuel (total_ops t.chip_ops + 1) t.chip_ops hfuel (by omega), e]
    rfl
  · intro q q1 hs
    have := scan_total hs
    exact ⟨this, by omega⟩

/-- Counterexample to C9 as stated: with queues [SEND(peer=1,tid=0)],
[RECEIVE(peer=2,tid=0)] and an empty third queue, the scan pops both heads, so
the RECEIVE naming tile 2 is removed while the queue of tile 2 is empty. -/
theorem removal_without_named_peer :
    scan [[send_op 1 0 "" 0], [recv_op 2 0 "" 0], []] = some [[], [], []] ∧
      ¬ removes_only_at_rendezvous [[send_op 1 0 "" 0], [recv_op 2 0 "" 0], []] [[], [], []] := by
  refine ⟨rfl, fun h => ?_⟩
  obtain ⟨P, peer_op, hP, hf, _⟩ :=
    h 1 (recv_op 2 0 "" 0) (by unfold removed_at; decide) rfl (by decide) (by decide)
  have hP2 : P = 2 := by
    have : (2 : Int) = (P : Int) := hP
    omega
  subst hP2
  cases hf

/-- Claim C9, amended: a RECEIVE or SEND with `peer_id >= 0` leaves its queue
`j` only in a step in which the head of another tile `k` matches it and is
removed with it, where `k` is the peer it names or the head of `k` names `j`;
when matching operations name each other's tile, `k` is always the peer it
names. -/
theorem removal_needs_matching_head (q q1 : Queues) (j : Nat) (op : Operation)
    (hs : scan q = some q1) (hr : removed_at q q1 j) (hf : front q j = some op)
    (hc : op.type ≠ OpType.COMPUTE) (hp : 0 ≤ op.peer_id) :
    ∃ (k : Nat) (kop : Operation), front q k = some kop ∧ op.matches kop = true ∧
      removed_at q q1 k ∧ (op.peer_id = (k : Int) ∨ kop.peer_id = (j : Int)) ∧
      (PeerSymmetric q → op.peer_id = (k : Int)) :=
  legal_step_removed (scan_legal hs) hr hf hc hp

/-- Witness for C9 (amended): the passive RECEIVE of the counterexample queues. -/
theorem removal_needs_matching_head_witness :
    scan [[send_op 1 0 "" 0], [recv_op 2 0 "" 0], []] = some [[], [], []] ∧
      ∃ (k : Nat) (kop : Operation),
        front [[send_op 1 0 "" 0], [recv_op 2 0 "" 0], []] k = some kop ∧
        (recv_op 2 0 "" 0).matches kop = true ∧
        removed_at [[send_op 1 0 "" 0], [recv_op 2 0 "" 0], []] [[], [], []] k ∧
        ((recv_op 2 0 "" 0).peer_id = (k : Int) ∨ kop.peer_id = ((1 : Nat) : Int)) ∧
        (PeerSymmetric [[send_op 1 0 "" 0], [recv_op 2 0 "" 0], []] →
          (recv_op 2 0 "" 0).peer_id = (k : Int)) :=
  ⟨rfl, removal_needs_matching_head [[send_op 1 0 "" 0], [recv_op 2 0 "" 0], []] [[], [], []] 1
    (recv_op 2 0 "" 0) rfl (by unfold removed_at; decide) rfl (by decide) (by decide)⟩

/-- Claim C10: `a.matches(b)` is true exactly when `a` and `b` carry the same
transfer id and one is a SEND and the other a RECEIVE; it is false when either
is a COMPUTE or both have the same type; it is symmetric; and no operation
matches itself. -/
theorem matches_characterised (a b : Operation) :
    (a.matches b = true ↔
      a.transfer_id = b.transfer_id ∧
        ((a.type = OpType.SEND ∧ b.type = OpType.RECV) ∨
          (a.type = OpType.RECV ∧ b.type = OpType.SEND))) ∧
    (a.type = OpType.COMPUTE ∨ b.type = OpType.COMPUTE ∨ a.type = b.type →
      a.matches b = false) ∧
    a.matches b = b.matches a ∧
    a.matches a = false := by
  refine ⟨matches_true_iff a b, ?_, ?_, matches_self a⟩
  · intro h
    cases hm : a.matches b with
    | false => rfl
    | true =>
      exfalso
      rw [matches_true_iff] at hm
      rcases hm with ⟨_, ⟨h1, h2⟩ | ⟨h1, h2⟩⟩ <;>
        rcases h with h | h | h <;> simp [h1, h2] at h
  · cases hab : a.matches b with
    | true => exact (matches_symm hab).symm
    | false =>
      cases hba : b.matches a with
      | false => rfl
      | true => rw [matches_symm hba] at hab; cases hab

end ChipletTrace

namespace ChipletTrace

/-- Claim C11: pass 1 leaves the operation queues alone and appends to the
computation list of every tile exactly the tasks of the walk that go to that
tile, in the order of the walk. For a grouping node with batch-group count
`G >= 1` the tasks of the walk are, for `b = 0, ..., G-1` in that order and for
each child in child order, the tasks the child contributes when visited with
offset `batch_offset + b * (tot_batch / G)`. A leaf contributes one task per
non-empty in-mesh layout entry, whose batch bounds are the sub-range's plus the
offset; a larger offset moves the batch bounds and changes nothing else. For
`G = 2` and total batch 8 every tile receives the children's tasks twice, with
offsets 0 and 4. -/
theorem grouping_node_tasks (env : Env) (m : XyMap) (G : Nat) (children : List SchNode)
    (bo : Nat) (hG : 1 ≤ G) :
    (∀ (node : SchNode) (a : Nat) (traces traces1 : List SingleChipletTrace),
      collect_computations env m node a traces = some traces1 →
        ∃ ts, contributed_tasks env m node a = some ts ∧ traces1.length = traces.length ∧
          queues_of traces1 = queues_of traces ∧
          ∀ i, (comps_of traces1).getD i [] =
            (comps_of traces).getD i [] ++ tile_tasks traces.length i ts) ∧
    (∀ (node : SchNode) (a : Nat) (traces : List SingleChipletTrace),
      collect_computations env m node a traces =
        (contributed_tasks env m node a).map (push_tasks traces)) ∧
    contributed_tasks env m (SchNode.Cut G children) bo =
      (List.range G).foldlM
        (fun acc b =>
          (children_tasks env m children (bo + b * (env.tot_batch / G))).map fun ts => acc ++ ts)
        [] ∧
    (∀ a, children_tasks env m [] a = some []) ∧
    (∀ child rest a, children_tasks env m (child :: rest) a =
      (contributed_tasks env m child a).bind fun ts =>
        (children_tasks env m rest a).map fun ts2 => ts ++ ts2) ∧
    (∀ lnode a, contributed_tasks env m (SchNode.L lnode) a = some (leaf_tasks env m lnode a)) ∧
    (∀ lnode a p, p ∈ leaf_tasks env m lnode a →
      ∃ e ∈ lnode.ofm_layout, env.is_empty e.1 = false ∧
        m.find (env.get_xyid e.2) = some p.1 ∧
        p.2 = part_task (base_task lnode.layer) e.1 a ∧
        p.2.batch_from = e.1.b.from_ + a ∧ p.2.batch_to = e.1.b.to_ + a) ∧
    (∀ node a k, contributed_tasks env m node (a + k) =
      (contributed_tasks env m node a).map (List.map (shift_batch k))) ∧
    (env.tot_batch = 8 → ∀ ts, children_tasks env m children 0 = some ts →
      contributed_tasks env m (SchNode.Cut 2 children) 0 =
        some (ts ++ ts.map (shift_batch 4))) ∧
    (env.tot_batch = 8 → ∀ ts, children_tasks env m children 0 = some ts →
      ∀ traces : List SingleChipletTrace,
        ∃ traces1, collect_computations env m (SchNode.Cut 2 children) 0 traces = some traces1 ∧
          ∀ i, (comps_of traces1).getD i [] =
            (comps_of traces).getD i [] ++ tile_tasks traces.length i ts ++
              tile_tasks traces.length i (ts.map (shift_batch 4))) := by
  refine ⟨collect_computations_tiles env m, collect_computations_eq_tasks env m,
    contributed_tasks_cut env m G children bo hG, children_tasks_nil env m,
    children_tasks_cons env m, contributed_tasks_leaf env m, ?_,
    contributed_tasks_shift env m,
    fun htot ts hts => contributed_tasks_two_groups env m children ts htot hts,
    fun htot ts hts traces => collect_computations_two_groups env m children ts htot hts traces⟩
  intro lnode a p hp
  obtain ⟨e, he, h1, h2, h3⟩ := leaf_tasks_bounds env m lnode a p hp
  exact ⟨e, he, h1, h2, h3, by rw [h3]; rfl, by rw [h3]; rfl⟩

/-- Witness for C11: the two demo leaves under a grouping node with two batch
groups, total batch 8, on the 2 x 1 mesh. Each tile receives its leaf's task
twice, with batch bounds 0..1 and 4..5. -/
theorem grouping_node_tasks_witness :
    1 ≤ 2 ∧
      ∃ traces1,
        collect_computations demo_env8 (mesh_init demo_env8 2 1).2 demo_tree2 0
          (mesh_init demo_env8 2 1).1 = some traces1 ∧
        (comps_of traces1).map
            (List.map fun c => (c.layer_name, c.batch_from, c.batch_to)) =
          [[("L0", 0, 1), ("L0", 4, 5)], [("L1", 0, 1), ("L1", 4, 5)]] ∧
        ∃ ts, contributed_tasks demo_env8 (mesh_init demo_env8 2 1).2 demo_tree2 0 = some ts ∧
          traces1.length = (mesh_init demo_env8 2 1).1.length ∧
          queues_of traces1 = queues_of (mesh_init demo_env8 2 1).1 ∧
          ∀ i, (comps_of traces1).getD i [] =
            (comps_of (mesh_init demo_env8 2 1).1).getD i [] ++
              tile_tasks (mesh_init demo_env8 2 1).1.length i ts := by
  refine ⟨by decide, ?_⟩
  obtain ⟨traces1, h1⟩ : ∃ traces1,
      collect_computations demo_env8 (mesh_init demo_env8 2 1).2 demo_tree2 0
        (mesh_init demo_env8 2 1).1 = some traces1 :=
    Option.isSome_iff_exists.mp (by decide)
  have hv : (collect_computations demo_env8 (mesh_init demo_env8 2 1).2 demo_tree2 0
      (mesh_init demo_env8 2 1).1).map
        (fun tr => (comps_of tr).map
          (List.map fun c => (c.layer_name, c.batch_from, c.batch_to))) =
      some [[("L0", 0, 1), ("L0", 4, 5)], [("L1", 0, 1), ("L1", 4, 5)]] := by decide
  rw [h1] at hv
  exact ⟨traces1, h1, by simpa using hv,
    (grouping_node_tasks demo_env8 (mesh_init demo_env8 2 1).2 2
      [SchNode.L demo_producer, SchNode.L demo_consumer] 0 (by decide)).1 demo_tree2 0 _ _ h1⟩

/-- Claim C12: a layout entry whose sub-range is empty makes pass 1 append no
task and pass 2 append no operation; an empty output sub-range of a direct
predecessor, or one of volume zero, gives no RECEIVE/SEND pair; and `generate`
returns the same on the tree as on the tree with all empty sub-ranges
removed. -/
theorem empty_subranges_contribute_nothing (env : Env) (root : SchNode) (xlen ylen : Nat) :
    (∀ (m : XyMap) (task : ComputationTask) (bo : Nat) (traces : List SingleChipletTrace)
        (e : fmap_range × pos_t), env.is_empty e.1 = true →
        computation_body env m task bo traces e = traces) ∧
    (∀ (m : XyMap) (lnode : LNode) (st : GenState) (e : fmap_range × pos_t),
        env.is_empty e.1 = true → transfer_body env m lnode st e = st) ∧
    (∀ (m : XyMap) (layer_node : Node) (p to_idx : Nat) (st : GenState)
        (e : fmap_range × pos_t), env.is_empty e.1 = true ∨ env.size e.1 = 0 →
        direct_body env m layer_node p to_idx st e = st) ∧
    (TraceGenerator.new root xlen ylen).generate env =
      (TraceGenerator.new (root.map (LNode.prune (nonempty_entry env))) xlen ylen).generate
        (env.prune (nonempty_entry env)) := by
  refine ⟨fun m task bo traces e he => computation_body_skip env m task bo traces e (Or.inl he),
    fun m lnode st e he => transfer_body_skip env m lnode st e (Or.inl he), ?_, ?_⟩
  · intro m layer_node p to_idx st e he
    rcases he with he | he
    · exact direct_body_skip env m layer_node p to_idx st e (Or.inl he)
    · exact direct_body_zero_size env m layer_node p to_idx st e he
  · apply generate_prune
    intro e he
    left
    unfold nonempty_entry at he
    simpa using he

/-- Claim C14: a layout entry whose position is absent from the lookup makes
pass 1 append no task and pass 2 append no operation, and such an entry of a
direct predecessor gives no RECEIVE/SEND pair; `generate` returns the same on
the tree as on the tree without these entries, and it returns a trace whenever
no batch-group count is zero. -/
theorem absent_positions_skipped (env : Env) (root : SchNode) (xlen ylen : Nat) :
    (∀ (m : XyMap) (task : ComputationTask) (bo : Nat) (traces : List SingleChipletTrace)
        (e : fmap_range × pos_t), m.find (env.get_xyid e.2) = none →
        computation_body env m task bo traces e = traces) ∧
    (∀ (m : XyMap) (lnode : LNode) (st : GenState) (e : fmap_range × pos_t),
        m.find (env.get_xyid e.2) = none → transfer_body env m lnode st e = st) ∧
    (∀ (m : XyMap) (layer_node : Node) (p to_idx : Nat) (st : GenState)
        (e : fmap_range × pos_t), m.find (env.get_xyid e.2) = none →
        direct_body env m layer_node p to_idx st e = st) ∧
    (TraceGenerator.new root xlen ylen).generate env =
      (TraceGenerator.new
          (root.map (LNode.prune (present_entry env (mesh_init env xlen ylen).2)))
          xlen ylen).generate
        (env.prune (present_entry env (mesh_init env xlen ylen).2)) ∧
    (root.bgrp_pos = true →
      ∃ t, (TraceGenerator.new root xlen ylen).generate env = some t) := by
  refine ⟨fun m task bo traces e he => computation_body_skip env m task bo traces e (Or.inr he),
    fun m lnode st e he => transfer_body_skip env m lnode st e (Or.inr he),
    fun m layer_node p to_idx st e he =>
      direct_body_skip env m layer_node p to_idx st e (Or.inr he), ?_,
    generate_total env root xlen ylen⟩
  apply generate_prune
  intro e he
  right
  unfold present_entry at he
  simpa using he

/-- Claim C15: for a mesh with `xlen >= 1` and `ylen >= 1`, a trace returned by
`generate` has exactly `xlen * ylen` per-tile traces; entry `i` has
`chiplet_id = i` and a position with `pos_x < xlen`, `pos_y < ylen` and
`pos_y * xlen + pos_x = i`; every `peer_id >= 0` in an operation is below
`xlen * ylen`; and a trace is returned whenever no batch-group count is zero. -/
theorem generated_mesh_layout (env : Env) (root : SchNode) (xlen ylen : Nat)
    (hx : 1 ≤ xlen) (_hy : 1 ≤ ylen) :
    (∀ t, (TraceGenerator.new root xlen ylen).generate env = some t →
      t.chiplet_traces.length = xlen * ylen ∧
      (∀ i, i < xlen * ylen → ∃ ct, t.chiplet_traces[i]? = some ct ∧
        ct.chiplet_id = (i : Int) ∧ ct.pos_x < xlen ∧ ct.pos_y < ylen ∧
        ct.pos_y * xlen + ct.pos_x = i) ∧
      (∀ ct ∈ t.chiplet_traces, ∀ op ∈ ct.operations, 0 ≤ op.peer_id →
        op.peer_id < ((xlen * ylen : Nat) : Int))) ∧
    (root.bgrp_pos = true →
      ∃ t, (TraceGenerator.new root xlen ylen).generate env = some t) := by
  refine ⟨fun t h => ?_, generate_total env root xlen ylen⟩
  obtain ⟨hlen, hfill⟩ := generate_layout env root xlen ylen t h
  refine ⟨hlen, fun i hi => ?_, generate_peers env root xlen ylen t h⟩
  obtain ⟨ct, h1, g1, g2, g3⟩ := hfill i hi
  have hxpos : 0 < xlen := by omega
  refine ⟨ct, h1, g1, ?_, ?_, ?_⟩
  · rw [g2]; exact Nat.mod_lt _ hxpos
  · rw [g3]; exact Nat.div_lt_of_lt_mul hi
  · rw [g2, g3, Nat.mul_comm]; exact Nat.div_add_mod i xlen

/-- Witness for C15: the demo tree on the 2 x 1 mesh returns a trace with two
per-tile traces. -/
theorem generated_mesh_layout_witness :
    1 ≤ 2 ∧ 1 ≤ 1 ∧
      ∃ t, (TraceGenerator.new demo_tree 2 1).generate demo_env = some t ∧
        t.chiplet_traces.length = 2 * 1 := by
  obtain ⟨t, ht⟩ :=
    (generated_mesh_layout demo_env demo_tree 2 1 (by decide) (by decide)).2 (by decide)
  exact ⟨by decide, by decide, t, ht,
    ((generated_mesh_layout demo_env demo_tree 2 1 (by decide) (by decide)).1 t ht).1⟩

/-- Claim C16: `print` writes the header and then, for each tile in index order,
the block of the tile, whose operation table has exactly one row per operation
of the queue, in queue order; the row of the operation at queue position `i`
starts with the sequence number `i`. -/
theorem print_rows_follow_queue (t : FullTrace) (os : String) :
    t.print os = os ++ print_header t ++ concat_text (t.chiplet_traces.map chiplet_block) ∧
    (∀ ct : SingleChipletTrace,
      chiplet_block ct =
        chiplet_head ct ++ concat_text (ct.computations.map computation_row) ++
          operations_head ++
          concat_text (ct.operations.enum.map fun p => operation_row p.1 p.2) ++ "\n") ∧
    (∀ (ops : List Operation) (o : String),
      (ops.foldl print_operation (o, 0)).1 =
        o ++ concat_text (ops.enum.map fun p => operation_row p.1 p.2)) ∧
    (∀ ops : List Operation,
      (ops.enum.map fun p => operation_row p.1 p.2).length = ops.length) ∧
    (∀ (ops : List Operation) (i : Nat),
      (ops.enum.map fun p => operation_row p.1 p.2)[i]? = ops[i]?.map (operation_row i)) ∧
    (∀ (seq : Nat) (op : Operation),
      operation_row seq op = setw 5 (toString seq) ++ " | " ++ operation_fields op) := by
  refine ⟨print_eq t os, fun ct => rfl, fun ops o => foldl_print_operation ops o 0,
    fun ops => by simp, operation_rows_getElem?, fun seq op => rfl⟩

/-- Claim C17: `first` returns the smallest set index, or `size` when no bit is
set; for `bit < size`, `next bit` returns the smallest set index above `bit`,
or `size` when there is none; and the iteration `first, next first, ...` until
`size` visits exactly the indices that `contains` accepts, each once, in
strictly ascending order, `count` of them. -/
theorem bitset_iteration (s : Bitset) :
    (s.first ≤ s.size ∧ (s.first < s.size → s.contains s.first = true) ∧
      ∀ j, j < s.first → s.contains j = false) ∧
    (∀ bit, bit < s.size →
      bit < s.next bit ∧ s.next bit ≤ s.size ∧
        (s.next bit < s.size → s.contains (s.next bit) = true) ∧
        ∀ j, bit < j → j < s.next bit → s.contains j = false) ∧
    (∃ l, s.visited = some l ∧ l = s.elems ∧
      (∀ i, i ∈ l ↔ s.contains i = true) ∧ l.Pairwise (· < ·) ∧ l.Nodup ∧
      l.length = s.count) := by
  refine ⟨?_, ?_, ?_⟩
  · obtain ⟨_, h2, h3, h4⟩ := scan_from_spec s s.size 0 (by omega)
    exact ⟨h2, h3, fun j hj => h4 j (Nat.zero_le _) hj⟩
  · intro bit hbit
    obtain ⟨h1, h2, h3, h4⟩ := scan_from_spec s (s.size - (bit + 1)) (bit + 1) (by omega)
    exact ⟨h1, h2, h3, fun j hj1 hj2 => h4 j hj1 hj2⟩
  · refine ⟨s.elems, visited_eq_elems s, rfl, fun i => ?_, elems_sorted s, ?_, elems_length s⟩
    · rw [mem_elems]
      exact ⟨fun h => h.2, fun h => ⟨contains_lt_size h, h⟩⟩
    · exact (elems_sorted s).imp (fun h => Nat.ne_of_lt h)

/-- Claim C18: on a trace that satisfies the transfer-id matching invariant the
verifier returns true exactly when a legal completion order exists, and a legal
completion order exists exactly when every maximal sequence of legal steps
empties all queues; so the verdict does not depend on the order of steps. -/
theorem verdict_independent_of_order (t : FullTrace) (h : MatchingInvariant t.chip_ops) :
    (t.verify_deadlock_free = some true ↔ LegalCompletion t.chip_ops) ∧
    (LegalCompletion t.chip_ops ↔
      ∀ qf, LegalSteps t.chip_ops qf → Stuck qf → all_empty qf = true) ∧
    (t.verify_deadlock_free = some false ↔ ¬ LegalCompletion t.chip_ops) := by
  have hsym := peer_symmetric_of_matching h
  have hiff : t.verify_deadlock_free = some true ↔ LegalCompletion t.chip_ops := by
    constructor
    · intro hv
      obtain ⟨qf, hqf⟩ := verify_deadlock_free_eq.mp hv
      exact verify_loop_sound hqf
    · intro hc
      obtain ⟨qf, hqf⟩ :=
        verify_loop_complete (total_ops t.chip_ops + 1) t.chip_ops hc hsym (by omega)
      exact verify_deadlock_free_eq.mpr ⟨qf, hqf⟩
  refine ⟨hiff, ⟨fun hc qf hs hst => ?_, fun hall => ?_⟩, ?_⟩
  · exact stuck_completion_empty hst (legal_completion_steps hs hsym hc).1
  · obtain ⟨qf, hs, hst⟩ := exists_maximal_steps (total_ops t.chip_ops) t.chip_ops (le_refl _)
    exact legal_steps_completion hs (LegalCompletion.done (hall qf hs hst))
  · obtain ⟨b, qf, e, _⟩ :=
      verify_loop_returns (total_ops t.chip_ops + 1) t.chip_ops (by omega)
    have hv : t.verify_deadlock_free = some b := verify_deadlock_free_eq.mpr ⟨qf, e⟩
    rw [← hiff, hv]
    cases b <;> simp

/-- Witness for C18: the demo queues satisfy the matching invariant. -/
theorem verdict_independent_of_order_witness :
    MatchingInvariant (trace_of_queues demo_queues).chip_ops ∧
      ((trace_of_queues demo_queues).verify_deadlock_free = some true ↔
        LegalCompletion (trace_of_queues demo_queues).chip_ops) :=
  ⟨by unfold MatchingInvariant; decide,
    (verdict_independent_of_order (trace_of_queues demo_queues)
      (by unfold MatchingInvariant; decide)).1⟩

/-- Claim C19: when `verify_deadlock_free` returns false, the queues it stops at
are not all empty; every tile with a non-empty queue has at its head a SEND or
RECEIVE with `peer_id >= 0` whose peer is out of range, or has an empty queue,
or has a head that does not match; and the diagnostic is the title line
followed by one line per tile with a non-empty queue, in index order, with the
head's direction, peer and transfer id. -/
theorem deadlock_report (t : FullTrace) (h : t.verify_deadlock_free = some false) :
    ∃ qf, t.verify_run = some (false, qf) ∧ ScanReach t.chip_ops qf ∧
      (∃ i op, front qf i = some op) ∧
      (∀ i op, front qf i = some op →
        (op.type = OpType.SEND ∨ op.type = OpType.RECV) ∧ 0 ≤ op.peer_id ∧
          ((qf.length : Int) ≤ op.peer_id ∨ front qf op.peer_id.toNat = none ∨
            ∃ peer_op, front qf op.peer_id.toNat = some peer_op ∧
              op.matches peer_op = false)) ∧
      t.verify_stderr =
        some ("[Deadlock] Unable to match any operation at head:" ::
          (List.range qf.length).filterMap fun i => (front qf i).map (blocked_line i)) := by
  obtain ⟨qf, hqf⟩ := verify_deadlock_free_eq.mp h
  obtain ⟨b, qg, e, hreach, _, hn⟩ :=
    verify_loop_returns (total_ops t.chip_ops + 1) t.chip_ops (by omega)
  have hrun : verify_loop (total_ops t.chip_ops + 1) t.chip_ops = some (false, qf) := hqf
  rw [e] at hrun
  simp only [Option.some.injEq, Prod.mk.injEq] at hrun
  obtain ⟨hb, hq⟩ := hrun
  subst hb
  subst hq
  obtain ⟨hne, hscan⟩ := hn rfl
  have hblocked : ∀ i op, front qg i = some op →
      op.type ≠ OpType.COMPUTE ∧ 0 ≤ op.peer_id ∧
        ((qg.length : Int) ≤ op.peer_id ∨ front qg op.peer_id.toNat = none ∨
          ∃ peer_op, front qg op.peer_id.toNat = some peer_op ∧
            op.matches peer_op = false) :=
    fun i op hf => scan_tile_none_blocked (scan_none.mp hscan i) hf
  refine ⟨qg, hqf, hreach, exists_front_of_not_all_empty hne, fun i op hf => ?_, ?_⟩
  · obtain ⟨h1, h2, h3⟩ := hblocked i op hf
    refine ⟨?_, h2, h3⟩
    cases ht : op.type with
    | COMPUTE => exact absurd ht h1
    | SEND => exact Or.inl rfl
    | RECV => exact Or.inr rfl
  · unfold FullTrace.verify_stderr
    rw [hqf]
    simp only [Option.map_some', Bool.false_eq_true, if_false, diagnostic]
    rw [diagnostic_loop_eq qg _ (fun i op hf => (hblocked i op hf).1)]

/-- Witness for C19: the literal deadlock of two tiles, each blocked on a SEND. -/
theorem deadlock_report_witness :
    (trace_of_queues
        [[send_op 1 0 "" 0, recv_op 1 1 "" 0],
          [send_op 0 1 "" 0, recv_op 0 0 "" 0]]).verify_deadlock_free = some false ∧
      ∃ qf,
        (trace_of_queues
          [[send_op 1 0 "" 0, recv_op 1 1 "" 0],
            [send_op 0 1 "" 0, recv_op 0 0 "" 0]]).verify_run = some (false, qf) ∧
        ∃ i op, front qf i = some op := by
  obtain ⟨qf, h1, _, h3, _⟩ := deadlock_report
    (trace_of_queues
      [[send_op 1 0 "" 0, recv_op 1 1 "" 0], [send_op 0 1 "" 0, recv_op 0 0 "" 0]]) rfl
  exact ⟨rfl, qf, h1, h3⟩

/-- Claim C20: in pass 2 a grouping node with batch-group count `G >= 1`
appends to every queue the operations one visit of its children appends,
`G` times: replica `b` repeats the operations of replica 0 with every
allocated transfer id raised by `b * k`, where `k` is the number of ids one
replica allocates, and with type, peer, label and size unchanged; the counter
ends `G * k` higher; and the batch offset has no influence on the result. -/
theorem replicated_operations (env : Env) (m : XyMap) (G : Nat) (children : List SchNode)
    (bo : Nat) (st st1 : GenState) (hG : 1 ≤ G)
    (h1 : collect_transfers_children env m children bo st = some st1) :
    ∃ stG, collect_transfers env m (SchNode.Cut G children) bo st = some stG ∧
      0 ≤ st1.next_transfer_id_ - st.next_transfer_id_ ∧
      stG.next_transfer_id_ =
        st.next_transfer_id_ + (G : Int) * (st1.next_transfer_id_ - st.next_transfer_id_) ∧
      (∀ i, (queues_of st1.traces).getD i [] =
        (queues_of st.traces).getD i [] ++ appended st st1 i) ∧
      (∀ i, (queues_of stG.traces).getD i [] =
        (queues_of st.traces).getD i [] ++
          (List.range G).flatMap fun b =>
            (appended st st1 i).map
              (shift_tid ((b : Int) * (st1.next_transfer_id_ - st.next_transfer_id_)))) ∧
      (∀ (d : Int) (op : Operation),
        (shift_tid d op).type = op.type ∧ (shift_tid d op).peer_id = op.peer_id ∧
          (shift_tid d op).layer_name = op.layer_name ∧
          (shift_tid d op).data_size = op.data_size ∧
          (op.type ≠ OpType.COMPUTE → (shift_tid d op).transfer_id = op.transfer_id + d) ∧
          (op.type = OpType.COMPUTE → shift_tid d op = op)) ∧
      (∀ bo2, collect_transfers env m (SchNode.Cut G children) bo2 st = some stG) := by
  rw [collect_transfers_children_eq_emits] at h1
  cases hes : children_emits env m children with
  | none => rw [hes] at h1; cases h1
  | some es =>
    rw [hes] at h1
    simp only [Option.map_some', Option.some.injEq] at h1
    subst h1
    obtain ⟨g1, g2⟩ := replicas_spec es G st
    have hk : (run_emits st es).next_transfer_id_ - st.next_transfer_id_ = (allocs es : Int) := by
      rw [run_emits_next]; omega
    refine ⟨_, cut_eq_replicas env m G children bo st hG hes, ?_, ?_, ?_, ?_, ?_,
      fun bo2 => cut_eq_replicas env m G children bo2 st hG hes⟩
    · rw [hk]; omega
    · rw [hk]; exact g1
    · intro i
      rw [appended_run, run_emits_queue]
    · intro i
      rw [hk, appended_run]
      exact g2 i
    · intro d op
      unfold shift_tid
      by_cases hc : op.type = OpType.COMPUTE
      · simp [hc]
      · simp [hc]

/-- Witness for C20: two batch groups over the two leaves of the demo, started
from the empty queues of the 2 x 1 mesh; the counter ends at 4. -/
theorem replicated_operations_witness :
    ∃ stG,
      collect_transfers demo_env (mesh_init demo_env 2 1).2
          (SchNode.Cut 2 [SchNode.L demo_producer, SchNode.L demo_consumer]) 0
          { traces := (mesh_init demo_env 2 1).1, next_transfer_id_ := 0 } = some stG ∧
        stG.next_transfer_id_ = 4 := by
  obtain ⟨st1, h1⟩ : ∃ st1,
      collect_transfers_children demo_env (mesh_init demo_env 2 1).2
        [SchNode.L demo_producer, SchNode.L demo_consumer] 0
        { traces := (mesh_init demo_env 2 1).1, next_transfer_id_ := 0 } = some st1 :=
    Option.isSome_iff_exists.mp (by decide)
  have hnext : (collect_transfers_children demo_env (mesh_init demo_env 2 1).2
      [SchNode.L demo_producer, SchNode.L demo_consumer] 0
      { traces := (mesh_init demo_env 2 1).1, next_transfer_id_ := 0 }).map
        GenState.next_transfer_id_ = some 2 := by decide
  rw [h1] at hnext
  simp only [Option.map_some', Option.some.injEq] at hnext
  obtain ⟨stG, g1, _, g3, _⟩ := replicated_operations demo_env (mesh_init demo_env 2 1).2 2
    [SchNode.L demo_producer, SchNode.L demo_consumer] 0 _ st1 (by decide) h1
  refine ⟨stG, g1, ?_⟩
  rw [g3, hnext]
  rfl

end ChipletTrace

namespace ChipletTrace

/-! ## Claims C21 to C23 -/

/-- Counterexample to C21 as written: `generate` does not set the counter back,
so the second call on the generator of the demo tree returns a trace whose two
RECEIVEs carry the ids 2 and 3; no RECEIVE of that trace carries id 0. -/
theorem second_call_ids_start_later :
    ∃ t1 g1 t2, (TraceGenerator.new demo_tree 2 1).generate_run demo_env = some (t1, g1) ∧
      t1.chip_ops.map (List.map Operation.transfer_id) = [[0, -1, 1], [1, -1]] ∧
      g1.generate demo_env = some t2 ∧
      t2.chip_ops.map (List.map Operation.transfer_id) = [[2, -1, 3], [3, -1]] ∧
      count_ops (fun o => decide (o.type = OpType.RECV)) t2.chip_ops = 2 ∧
      count_ops (fun o => decide (o.type = OpType.RECV ∧ o.transfer_id = 0)) t2.chip_ops = 0 := by
  obtain ⟨r, hr⟩ : ∃ r, (TraceGenerator.new demo_tree 2 1).generate_run demo_env = some r :=
    Option.isSome_iff_exists.mp (by decide)
  obtain ⟨t2, h2⟩ : ∃ t2, ((TraceGenerator.new demo_tree 2 1).generate_run demo_env).bind
      (fun r => r.2.generate demo_env) = some t2 :=
    Option.isSome_iff_exists.mp (by decide)
  have hv1 : ((TraceGenerator.new demo_tree 2 1).generate_run demo_env).map
      (fun r => r.1.chip_ops.map (List.map Operation.transfer_id)) =
      some [[0, -1, 1], [1, -1]] := by decide
  have hv2 : (((TraceGenerator.new demo_tree 2 1).generate_run demo_env).bind
      (fun r => r.2.generate demo_env)).map
      (fun t => (t.chip_ops.map (List.map Operation.transfer_id),
        count_ops (fun o => decide (o.type = OpType.RECV)) t.chip_ops,
        count_ops (fun o => decide (o.type = OpType.RECV ∧ o.transfer_id = 0)) t.chip_ops)) =
      some ([[2, -1, 3], [3, -1]], 2, 0) := by decide
  rw [h2] at hv2
  rw [hr] at hv1 h2
  simp only [Option.map_some', Option.some.injEq, Prod.mk.injEq] at hv1 hv2
  exact ⟨r.1, r.2, t2, hr, hv1, h2, hv2.1, hv2.2.1, hv2.2.2⟩

/-- Claim C21, corrected: in every trace `generate` returns, along each tile's
operation queue the transfer ids of the non-COMPUTE operations strictly
increase from front to back, and every COMPUTE carries transfer id -1, peer -2
and size 0. The ids carried by the RECEIVE operations of the whole trace are
exactly s, s+1, ..., s+k-1, each exactly once, where k is the total number of
RECEIVEs and s is the value of the generator's counter when `generate` is
called: 0 on a freshly constructed generator, and the call leaves the counter
at s+k and the other members as they were. -/
theorem generated_ids_from_counter (env : Env) (g : TraceGenerator) (t : FullTrace)
    (h : g.generate env = some t) :
    (∀ i, (queue_ids (t.chip_ops.getD i [])).Pairwise (· < ·)) ∧
    (∀ T : Int,
      count_ops (fun o => decide (o.type = OpType.RECV ∧ o.transfer_id = T)) t.chip_ops =
        if g.next_transfer_id_ ≤ T ∧
            T < g.next_transfer_id_ +
              ((count_ops (fun o => decide (o.type = OpType.RECV)) t.chip_ops : Nat) : Int)
        then 1 else 0) ∧
    (∀ i, ∀ op ∈ t.chip_ops.getD i [], op.type = OpType.COMPUTE →
      op.transfer_id = -1 ∧ op.peer_id = -2 ∧ op.data_size = 0) ∧
    (∀ root xlen ylen, (TraceGenerator.new root xlen ylen).next_transfer_id_ = 0) ∧
    g.generate_run env =
      some (t, { g with next_transfer_id_ := g.next_transfer_id_ +
        ((count_ops (fun o => decide (o.type = OpType.RECV)) t.chip_ops : Nat) : Int) }) := by
  have hfst := generate_run_fst env g
  rw [h] at hfst
  cases hrun : g.generate_run env with
  | none => rw [hrun] at hfst; cases hfst
  | some r =>
    obtain ⟨t1, g1⟩ := r
    rw [hrun] at hfst
    simp only [Option.map_some', Option.some.injEq] at hfst
    subst hfst
    obtain ⟨st0, hinv, hq, hg1⟩ := generate_run_shift env g g1 t1 hrun
    obtain ⟨hinc, hk, hids, hshape⟩ := id_props_shift hinv g.next_transfer_id_
    rw [← hq] at hinc hk hids hshape
    rw [hk]
    exact ⟨hinc, hids, hshape, fun _ _ _ => rfl, by rw [hg1]⟩

/-- Witness for C21 (corrected) on the demo tree: the first call on a fresh
generator returns the queues of the fixture, with RECEIVE ids 0 and 1, and
leaves the counter at 2. -/
theorem generated_ids_from_counter_witness :
    ∃ t, (TraceGenerator.new demo_tree 2 1).generate demo_env = some t ∧
      t.chip_ops = demo_queues ∧
      (∀ i, (queue_ids (t.chip_ops.getD i [])).Pairwise (· < ·)) ∧
      (∀ T : Int,
        count_ops (fun o => decide (o.type = OpType.RECV ∧ o.transfer_id = T)) t.chip_ops =
          if (TraceGenerator.new demo_tree 2 1).next_transfer_id_ ≤ T ∧
              T < (TraceGenerator.new demo_tree 2 1).next_transfer_id_ +
                ((count_ops (fun o => decide (o.type = OpType.RECV)) t.chip_ops : Nat) : Int)
          then 1 else 0) ∧
      count_ops (fun o => decide (o.type = OpType.RECV)) t.chip_ops = 2 := by
  obtain ⟨t, ht⟩ : ∃ t, (TraceGenerator.new demo_tree 2 1).generate demo_env = some t :=
    Option.isSome_iff_exists.mp (by decide)
  have hq : ((TraceGenerator.new demo_tree 2 1).generate demo_env).map FullTrace.chip_ops
      = some demo_queues := by decide
  rw [ht] at hq
  have hq2 : t.chip_ops = demo_queues := by simpa using hq
  have hall := generated_ids_from_counter demo_env (TraceGenerator.new demo_tree 2 1) t ht
  exact ⟨t, ht, hq2, hall.1, hall.2.1, by rw [hq2]; decide⟩

/-- Claim C22: when `verify_deadlock_free` returns true, every SEND or RECEIVE
of the trace with `peer_id >= 0` has a counterpart, an operation of the
opposite direction with the same transfer id on a different tile; so a trace
with a real-peer SEND or RECEIVE that has no such counterpart is reported
infeasible (the function returns false). -/
theorem accepted_transfers_have_counterparts (t : FullTrace) :
    (t.verify_deadlock_free = some true →
      ∀ i, ∀ op ∈ t.chip_ops.getD i [], (op.type = OpType.SEND ∨ op.type = OpType.RECV) →
        0 ≤ op.peer_id → ∃ j, j ≠ i ∧ ∃ b ∈ t.chip_ops.getD j [], counterpart op b) ∧
    ((∃ i, ∃ op ∈ t.chip_ops.getD i [], (op.type = OpType.SEND ∨ op.type = OpType.RECV) ∧
        0 ≤ op.peer_id ∧ ¬ ∃ j, j ≠ i ∧ ∃ b ∈ t.chip_ops.getD j [], counterpart op b) →
      t.verify_deadlock_free = some false) := by
  constructor
  · intro h i op hop hty hp
    exact verify_true_paired h hop hty hp
  · rintro ⟨i, op, hop, hty, hp, hno⟩
    obtain ⟨b, hb⟩ := verify_returns t
    cases b with
    | false => exact hb
    | true => exact (hno (verify_true_paired hb hop hty hp)).elim

/-- Witness for C22: the fixture queues are accepted and the SEND of tile 0 has
its counterpart on another tile; a lone SEND to tile 1 is reported infeasible. -/
theorem accepted_transfers_have_counterparts_witness :
    ((trace_of_queues demo_queues).verify_deadlock_free = some true ∧
      ∃ j, j ≠ 0 ∧ ∃ b ∈ (trace_of_queues demo_queues).chip_ops.getD j [],
        counterpart (send_op 1 1 "L0_to_L1" 256) b) ∧
    (trace_of_queues [[send_op 1 0 "a" 8], []]).verify_deadlock_free = some false := by
  refine ⟨⟨by decide, ?_⟩, ?_⟩
  · exact (accepted_transfers_have_counterparts (trace_of_queues demo_queues)).1 (by decide) 0
      (send_op 1 1 "L0_to_L1" 256) (by decide) (Or.inl rfl) (by decide)
  · apply (accepted_transfers_have_counterparts (trace_of_queues [[send_op 1 0 "a" 8], []])).2
    refine ⟨0, send_op 1 0 "a" 8, by decide, Or.inl rfl, by decide, ?_⟩
    rintro ⟨j, hj, b, hb, hc⟩
    have hj1 : j = 1 ∨ 2 ≤ j := by omega
    rcases hj1 with h1 | h1
    · subst h1
      simp [trace_of_queues, FullTrace.chip_ops] at hb
    · have : (trace_of_queues [[send_op 1 0 "a" 8], []]).chip_ops.getD j [] = [] := by
        rw [List.getD_eq_getElem?_getD, List.getElem?_eq_none]
        · rfl
        · simp [trace_of_queues, FullTrace.chip_ops]
          omega
      rw [this] at hb
      simp at hb

/-- Claim C23: in every trace `generate` returns, each tile has as many COMPUTE
operations in its queue as tasks in its computation list, the i-th COMPUTE is
labelled with the layer name of the i-th task, and every RECEIVE of the queue
has a COMPUTE later in the same queue. -/
theorem computes_follow_tasks (env : Env) (root : SchNode) (xlen ylen : Nat) (t : FullTrace)
    (h : (TraceGenerator.new root xlen ylen).generate env = some t) :
    ∀ ct ∈ t.chiplet_traces,
      (ct.operations.filter fun o => decide (o.type = OpType.COMPUTE)).length =
          ct.computations.length ∧
      (∀ (i : Nat) (c : Operation) (task : ComputationTask),
        (ct.operations.filter fun o => decide (o.type = OpType.COMPUTE))[i]? = some c →
        ct.computations[i]? = some task → c.layer_name = task.layer_name) ∧
      (∀ (k : Nat) (r : Operation), ct.operations[k]? = some r → r.type = OpType.RECV →
        ∃ (k2 : Nat) (c : Operation),
          k < k2 ∧ ct.operations[k2]? = some c ∧ c.type = OpType.COMPUTE) := by
  intro ct hct
  obtain ⟨i, hops, hcomps⟩ := tile_of_mem hct
  obtain ⟨hlab, hpend⟩ := generate_labels env root xlen ylen t h i
  rw [hops] at hlab hpend
  rw [hcomps] at hlab
  obtain ⟨hlen, hpt⟩ := labels_pointwise hlab
  exact ⟨hlen, hpt, (pending_followed ct.operations false hpend).1⟩

/-- Witness for C23 on the demo tree: the trace has the queues of the fixture,
with one COMPUTE and one task on each of its two tiles. -/
theorem computes_follow_tasks_witness :
    ∃ t, (TraceGenerator.new demo_tree 2 1).generate demo_env = some t ∧
      t.chip_ops = demo_queues ∧
      t.chiplet_traces.map (fun ct => ct.computations.map ComputationTask.layer_name) =
        [["L0"], ["L1"]] ∧
      ∀ ct ∈ t.chiplet_traces,
        (ct.operations.filter fun o => decide (o.type = OpType.COMPUTE)).length =
            ct.computations.length ∧
        (∀ (k : Nat) (r : Operation), ct.operations[k]? = some r → r.type = OpType.RECV →
          ∃ (k2 : Nat) (c : Operation),
            k < k2 ∧ ct.operations[k2]? = some c ∧ c.type = OpType.COMPUTE) := by
  obtain ⟨t, ht⟩ : ∃ t, (TraceGenerator.new demo_tree 2 1).generate demo_env = some t :=
    Option.isSome_iff_exists.mp (by decide)
  have hq : ((TraceGenerator.new demo_tree 2 1).generate demo_env).map FullTrace.chip_ops
      = some demo_queues := by decide
  have hl : ((TraceGenerator.new demo_tree 2 1).generate demo_env).map
      (fun t => t.chiplet_traces.map
        (fun ct => ct.computations.map ComputationTask.layer_name)) =
      some [["L0"], ["L1"]] := by decide
  rw [ht] at hq hl
  exact ⟨t, ht, by simpa using hq, by simpa using hl, fun ct hct =>
    ⟨(computes_follow_tasks demo_env demo_tree 2 1 t ht ct hct).1,
      (computes_follow_tasks demo_env demo_tree 2 1 t ht ct hct).2.2⟩⟩

end ChipletTrace
